import Mathlib

/-! Flashcards: a shallow embedding of `main.go`

The program is a single Go file: an in-memory list of cards driven by a text
menu.  This development embeds the data model and the handlers as pure Lean
functions and proves properties of them.

Modelling conventions.

* A Go `string` is a sequence of bytes (`GoString`), not a sequence of Unicode
  characters: standard input can deliver any bytes.
* Go's `int` is the 64-bit two's complement integer; arithmetic on it wraps
  (`wrapInt`).
* A run-time panic (index out of range, `rand.Intn` on a non-positive bound) is
  the result `none`.
* Reads from the outside world are explicit arguments: the lines returned by
  successive `ReadString` calls, the token or number stored by `fmt.Scan`, the
  values drawn by `rand.Intn`, the outcome of reading or writing a file.
* Everything written to standard output is collected, write by write, in the
  extra field `stdout` of the application state.
-/

namespace Flashcards

/-! ## Bytes, strings and machine integers -/

/-- A byte of a Go string. -/
abbrev Byte := Fin 256

/-- A Go `string`: an immutable sequence of bytes. -/
abbrev GoString := List Byte

/-- The byte with value `n` modulo 256 (Go's conversion `byte(n)`). -/
def byte (n : Nat) : Byte := ⟨n % 256, Nat.mod_lt n (by decide)⟩

/-- The smallest value of Go's `int` (64 bits). -/
def minInt : Int := -9223372036854775808

/-- The largest value of Go's `int` (64 bits). -/
def maxInt : Int := 9223372036854775807

/-- Reduction of a mathematical integer to the 64-bit two's complement range:
the value Go's `int` arithmetic produces. -/
def wrapInt (x : Int) : Int := (x + 9223372036854775808) % 18446744073709551616 - 9223372036854775808

/-- The replacement rune `utf8.RuneError` (U+FFFD). -/
def RuneError : Nat := 65533

/-- Surrogate code points and values above `utf8.MaxRune` are not encodable. -/
def validRune (r : Nat) : Bool := (r < 55296 || 57343 < r) && r ≤ 1114111

/-- The function `utf8.AppendRune` applied to the empty slice: the UTF-8
encoding of a rune, that of `RuneError` for an invalid rune. -/
def encodeRune (r : Nat) : GoString :=
  if r ≤ 127 then [byte r]
  else if r ≤ 2047 then [byte (192 + r / 64), byte (128 + r % 64)]
  else if !validRune r then [239, 191, 189]
  else if r ≤ 65535 then [byte (224 + r / 4096), byte (128 + r / 64 % 64), byte (128 + r % 64)]
  else [byte (240 + r / 262144), byte (128 + r / 4096 % 64), byte (128 + r / 64 % 64),
        byte (128 + r % 64)]

/-- The bytes of a string literal of the source (Go source text is UTF-8). -/
def lit (s : String) : GoString := s.data.flatMap fun c => encodeRune c.toNat

/-- A continuation byte `10xxxxxx`. -/
def isCont (b : Byte) : Bool := 128 ≤ b.val && b.val ≤ 191

/-- The function `utf8.DecodeRuneInString`: the first rune of `s` and its
width in bytes; `(RuneError, 0)` for the empty string and `(RuneError, 1)`
for a byte that starts no well-formed encoding (overlong forms, surrogates and
values above `MaxRune` included). -/
def decodeRune (s : GoString) : Nat × Nat :=
  match s with
  | [] => (RuneError, 0)
  | b0 :: t =>
    if b0.val < 128 then (b0.val, 1)
    else if 194 ≤ b0.val && b0.val ≤ 223 then
      match t with
      | b1 :: _ => if isCont b1 then ((b0.val - 192) * 64 + (b1.val - 128), 2) else (RuneError, 1)
      | _ => (RuneError, 1)
    else if 224 ≤ b0.val && b0.val ≤ 239 then
      match t with
      | b1 :: b2 :: _ =>
        if isCont b1 && isCont b2 && (b0.val != 224 || 160 ≤ b1.val)
            && (b0.val != 237 || b1.val ≤ 159) then
          ((b0.val - 224) * 4096 + (b1.val - 128) * 64 + (b2.val - 128), 3)
        else (RuneError, 1)
      | _ => (RuneError, 1)
    else if 240 ≤ b0.val && b0.val ≤ 244 then
      match t with
      | b1 :: b2 :: b3 :: _ =>
        if isCont b1 && isCont b2 && isCont b3 && (b0.val != 240 || 144 ≤ b1.val)
            && (b0.val != 244 || b1.val ≤ 143) then
          ((b0.val - 240) * 262144 + (b1.val - 128) * 4096 + (b2.val - 128) * 64
            + (b3.val - 128), 4)
        else (RuneError, 1)
      | _ => (RuneError, 1)
    else (RuneError, 1)

/-- The function `utf8.RuneStart`: the byte is not a continuation byte. -/
def runeStart (b : Byte) : Bool := !isCont b

/-- The backward search of `utf8.DecodeLastRuneInString`: the start of the
last rune, looked for among the positions `start, start-1, ..., lim`. -/
def lastRuneStart (s : GoString) (lim : Nat) : Nat → Nat
  | 0 => 0
  | start + 1 =>
    if start + 1 < lim then start + 1
    else match s.get? (start + 1) with
      | some b => if runeStart b then start + 1 else lastRuneStart s lim start
      | none => lastRuneStart s lim start

/-- The function `utf8.DecodeLastRuneInString`: the last rune of `s` and its
width. -/
def decodeLastRune (s : GoString) : Nat × Nat :=
  match s.getLast? with
  | none => (RuneError, 0)
  | some b =>
    if b.val < 128 then (b.val, 1)
    else
      let en := s.length
      let start := lastRuneStart s (en - 4) (en - 2)
      let (r, size) := decodeRune (s.drop start)
      if start + size != en then (RuneError, 1) else (r, size)

/-- The predicate `unicode.IsSpace`: the Unicode White Space property. -/
def isSpace (r : Nat) : Bool :=
  (9 ≤ r && r ≤ 13) || r == 32 || r == 133 || r == 160 || r == 5760
    || (8192 ≤ r && r ≤ 8202) || r == 8232 || r == 8233 || r == 8239 || r == 8287
    || r == 12288

/-- The function `strings.TrimLeftFunc(s, unicode.IsSpace)`, the recursion
bounded by the length of the string. -/
def trimLeft : Nat → GoString → GoString
  | 0, s => s
  | fuel + 1, s =>
    let (r, size) := decodeRune s
    if size != 0 && isSpace r then trimLeft fuel (s.drop size) else s

/-- The function `strings.TrimRightFunc(s, unicode.IsSpace)`, the recursion
bounded by the length of the string. -/
def trimRight : Nat → GoString → GoString
  | 0, s => s
  | fuel + 1, s =>
    let (r, size) := decodeLastRune s
    if size != 0 && isSpace r then trimRight fuel (s.take (s.length - size)) else s

/-- The function `strings.TrimSpace`: `s` without its leading and trailing
white space, as defined by Unicode. -/
def TrimSpace (s : GoString) : GoString :=
  let t := trimLeft s.length s
  trimRight t.length t

/-- The function `isSpace` of package `fmt`, with its table `space` of
ranges: no rune from 1<<16 on, and below it the ranges 0x0009-0x000d, 0x0020,
0x0085, 0x00a0, 0x1680, 0x2000-0x200a, 0x2028-0x2029, 0x202f, 0x205f and
0x3000. -/
def fmtIsSpace (r : Nat) : Bool :=
  r < 65536 &&
    ((9 ≤ r && r ≤ 13) || r == 32 || r == 133 || r == 160 || r == 5760
      || (8192 ≤ r && r ≤ 8202) || (8232 ≤ r && r ≤ 8233) || r == 8239 || r == 8287
      || r == 12288)

/-- The method `SkipSpace` of the scan state of `fmt.Scan`, for which a newline
is white space: the input without its leading white space.  Runes are read as
`utf8.DecodeRune` reads them; the recursion is bounded by the length of the
input. -/
def skipSpace : Nat → GoString → GoString
  | 0, s => s
  | fuel + 1, s =>
    let (r, size) := decodeRune s
    if size != 0 && fmtIsSpace r then skipSpace fuel (s.drop size) else s

/-- The method `token` of the scan state with the test `notSpace`: the runes
up to the next white space or the end of the input, each written to the buffer
with `writeRune`, and the input that follows them. -/
def scanToken : Nat → GoString → GoString × GoString
  | 0, s => ([], s)
  | fuel + 1, s =>
    let (r, size) := decodeRune s
    if size == 0 || fmtIsSpace r then ([], s)
    else
      let (tok, rest) := scanToken fuel (s.drop size)
      (encodeRune r ++ tok, rest)

/-- The call `fmt.Scan(&term)` of the source on a string variable that holds
"", reading the bytes `stdin`: the string the variable holds afterwards.  It
is the first run of runes that are not white space; when the input ends before
any such rune, `Scan` returns an error, which the source ignores, and the
variable keeps "". -/
def Scan (stdin : GoString) : GoString :=
  let s := skipSpace stdin.length stdin
  (scanToken s.length s).1

/-! ## The data model -/

/-- The record `Card` of the source. -/
structure Card where
  Term : GoString
  Definition : GoString
  Mistakes : Int
deriving DecidableEq, Repr

/-- The constant `notFound` of the source. -/
def notFound : Int := -1

/-- The state of the application: the fields of `App` that hold data (the menu
is the static table of `NewApp`), and what has been written to standard
output. -/
structure App where
  cards : List Card
  appLog : List GoString
  importFile : GoString
  exmportFile : GoString
  stdout : List GoString
deriving DecidableEq, Repr

/-! ## Output and the session log -/

/-- The method `writeLog`: `line[len(line)-1]` panics on the empty string;
otherwise the line, with a newline added unless it ends in one, is appended to
the log. -/
def writeLog (a : App) (line : GoString) : Option App :=
  match line.getLast? with
  | none => none
  | some c =>
    let line := if c != 10 then line ++ [10] else line
    some { a with appLog := a.appLog ++ [line] }

/-- The method `Println`: `fmt.Println(line)` then `writeLog(line)`. -/
def Println (a : App) (line : GoString) : Option App :=
  writeLog { a with stdout := a.stdout ++ [line ++ [10]] } line

/-- The method `Printf`, applied to the formatted line: `fmt.Print(line)` then
`writeLog(line)`. -/
def Printf (a : App) (line : GoString) : Option App :=
  writeLog { a with stdout := a.stdout ++ [line] } line

/-! ## Lookups -/

/-- The loop of `findCardByTerm`, `i` being the index of the head of the
remaining cards. -/
def findTermFrom (term : GoString) : List Card → Int → Int
  | [], _ => notFound
  | card :: rest, i => if card.Term = term then i else findTermFrom term rest (i + 1)

/-- The method `findCardByTerm`. -/
def findCardByTerm (a : App) (term : GoString) : Int := findTermFrom term a.cards 0

/-- The loop of `findCardByDefinition`, `i` being the index of the head of the
remaining cards. -/
def findDefinitionFrom (definition : GoString) : List Card → Int → Int
  | [], _ => notFound
  | card :: rest, i =>
    if card.Definition = definition then i else findDefinitionFrom definition rest (i + 1)

/-- The method `findCardByDefinition`. -/
def findCardByDefinition (a : App) (definition : GoString) : Int :=
  findDefinitionFrom definition a.cards 0

/-- The function `strings.Join`. -/
def Join (elems : List GoString) (sep : GoString) : GoString :=
  match elems with
  | [] => []
  | e :: rest => rest.foldl (fun acc x => acc ++ sep ++ x) e

/-! ## The snapshot format: `encoding/json` on `[]Card`

The program calls `json.Marshal(a.cards)` and `json.Unmarshal(content, &cards)`
of the Go standard library.  The model below follows the documented behaviour
of that package for the type `[]Card` (a slice of structs with two string
fields and one int field, no tags). -/

/-- The digit `"0123456789abcdef"[n]`. -/
def hexDigit (n : Nat) : Byte := if n < 10 then byte (48 + n) else byte (87 + n)

/-- The escape of one ASCII byte inside a JSON string, as `json.Marshal`
writes it (with HTML escaping): printable bytes stand for themselves except
the quote and the backslash, which take a backslash, and `<`, `>`, `&`, which
like the control bytes without a short form are written as a backslash, `u00`
and two hexadecimal digits. -/
def escapeByte (b : Byte) : GoString :=
  if 32 ≤ b.val && b.val != 34 && b.val != 38 && b.val != 60 && b.val != 62 && b.val != 92 then [b]
  else if b.val == 92 || b.val == 34 then [92, b]
  else if b.val == 8 then [92, 98]
  else if b.val == 12 then [92, 102]
  else if b.val == 10 then [92, 110]
  else if b.val == 13 then [92, 114]
  else if b.val == 9 then [92, 116]
  else [92, 117, 48, 48, hexDigit (b.val / 16), hexDigit (b.val % 16)]

/-- The body of a JSON string literal for `s`, as `json.Marshal` writes it:
ASCII bytes by `escapeByte`, a byte that starts no well-formed UTF-8 sequence
as the escape of U+FFFD (backslash, `ufffd`), the runes U+2028 and U+2029 as
their escapes (backslash, `u2028` or `u2029`), every other rune by its own
bytes.  The recursion is bounded by the length of `s`. -/
def escapeString : Nat → GoString → GoString
  | 0, _ => []
  | _ + 1, [] => []
  | fuel + 1, b :: t =>
    if b.val < 128 then escapeByte b ++ escapeString fuel t
    else
      let (r, size) := decodeRune (b :: t)
      if r == RuneError && size == 1 then
        [92, 117, 102, 102, 102, 100] ++ escapeString fuel t
      else if r == 8232 || r == 8233 then
        [92, 117, 50, 48, 50, hexDigit (r % 16)] ++ escapeString fuel ((b :: t).drop size)
      else (b :: t).take size ++ escapeString fuel ((b :: t).drop size)

/-- A JSON string literal for `s`. -/
def encodeString (s : GoString) : GoString := 34 :: escapeString s.length s ++ [34]

/-- The loop of `strconv.FormatInt` in base 10: the digits of `n` are put in
front of `ds`, the last digit first. -/
def digitsLoop : Nat → Nat → GoString → GoString
  | 0, _, ds => ds
  | fuel + 1, n, ds =>
    if n < 10 then byte (48 + n) :: ds
    else digitsLoop fuel (n / 10) (byte (48 + n % 10) :: ds)

/-- The function `strconv.Itoa`: the decimal form of an integer. -/
def Itoa (n : Int) : GoString :=
  let digits := digitsLoop (n.natAbs + 1) n.natAbs []
  if n < 0 then 45 :: digits else digits

/-- The object `json.Marshal` writes for a `Card`: the exported fields in the
order of their declaration. -/
def marshalCard (c : Card) : GoString :=
  lit "\x7b\"Term\":" ++ encodeString c.Term ++ lit ",\"Definition\":" ++ encodeString c.Definition
    ++ lit ",\"Mistakes\":" ++ Itoa c.Mistakes ++ lit "\x7d"

/-- The function `json.Marshal` on the card store, which is never a nil slice:
an array of objects.  For this type it returns no error. -/
def Marshal (cards : List Card) : GoString :=
  lit "[" ++ Join (cards.map marshalCard) (lit ",") ++ lit "]"

/-- A parsed JSON value; a number keeps its literal text. -/
inductive JValue where
  | null : JValue
  | bool : Bool → JValue
  | number : GoString → JValue
  | string : GoString → JValue
  | array : List JValue → JValue
  | object : List (GoString × JValue) → JValue

/-- JSON white space. -/
def isWs (b : Byte) : Bool := b.val == 32 || b.val == 9 || b.val == 10 || b.val == 13

/-- The input without its leading white space. -/
def skipWs : GoString → GoString
  | [] => []
  | b :: t => if isWs b then skipWs t else b :: t

/-- The value of a hexadecimal digit. -/
def hexVal (b : Byte) : Option Nat :=
  if 48 ≤ b.val && b.val ≤ 57 then some (b.val - 48)
  else if 97 ≤ b.val && b.val ≤ 102 then some (b.val - 87)
  else if 65 ≤ b.val && b.val ≤ 70 then some (b.val - 55)
  else none

/-- The function `getu4` after the backslash and the `u` have been read: the
value of the next four hexadecimal digits. -/
def hex4 : GoString → Option Nat
  | a :: b :: c :: d :: _ =>
    match hexVal a, hexVal b, hexVal c, hexVal d with
    | some a, some b, some c, some d => some (((a * 16 + b) * 16 + c) * 16 + d)
    | _, _, _, _ => none
  | _ => none

/-- The second half of a surrogate pair at the head of the input: a backslash,
`u` and four hexadecimal digits whose value is a low surrogate. -/
def lowSurrogate : GoString → Option Nat
  | 92 :: 117 :: t =>
    match hex4 t with
    | some r => if 56320 ≤ r && r ≤ 57343 then some r else none
    | none => none
  | _ => none

/-- The byte a one-letter escape stands for. -/
def unescape (e : Byte) : Option Byte :=
  if e.val == 34 || e.val == 92 || e.val == 47 then some e
  else if e.val == 98 then some 8
  else if e.val == 102 then some 12
  else if e.val == 110 then some 10
  else if e.val == 114 then some 13
  else if e.val == 116 then some 9
  else none

/-- A JSON string literal read after its opening quote: the string it denotes
and the input after the closing quote.  The scanner of the package rejects
control bytes and unknown escapes; its `unquote` decodes the escapes, pairs
surrogates, and replaces every byte that starts no well-formed UTF-8 sequence,
and every unpaired surrogate, by U+FFFD. -/
def parseString : Nat → GoString → Option (GoString × GoString)
  | 0, _ => none
  | _ + 1, [] => none
  | fuel + 1, b :: t =>
    if b.val == 34 then some ([], t)
    else if b.val == 92 then
      match t with
      | [] => none
      | e :: t1 =>
        if e.val == 117 then
          match hex4 t1 with
          | none => none
          | some r =>
            let t2 := t1.drop 4
            if 55296 ≤ r && r ≤ 57343 then
              match (if r ≤ 56319 then lowSurrogate t2 else none) with
              | some r1 =>
                (parseString fuel (t2.drop 6)).map fun (s, rest) =>
                  (encodeRune ((r - 55296) * 1024 + (r1 - 56320) + 65536) ++ s, rest)
              | none =>
                (parseString fuel t2).map fun (s, rest) => (encodeRune RuneError ++ s, rest)
            else (parseString fuel t2).map fun (s, rest) => (encodeRune r ++ s, rest)
        else
          match unescape e with
          | none => none
          | some c => (parseString fuel t1).map fun (s, rest) => (c :: s, rest)
    else if b.val < 32 then none
    else if b.val < 128 then (parseString fuel t).map fun (s, rest) => (b :: s, rest)
    else
      let (r, size) := decodeRune (b :: t)
      (parseString fuel ((b :: t).drop size)).map fun (s, rest) => (encodeRune r ++ s, rest)

/-- A decimal digit. -/
def isDigit (b : Byte) : Bool := 48 ≤ b.val && b.val ≤ 57

/-- The exponent of a JSON number, if there is one: `e` or `E`, an optional
sign, one digit or more. -/
def scanExp (text rest : GoString) : Option (GoString × GoString) :=
  match rest with
  | e :: t =>
    if e.val == 101 || e.val == 69 then
      let (sign, t) := match t with
        | s :: t1 => if s.val == 43 || s.val == 45 then ([s], t1) else ([], s :: t1)
        | [] => ([], [])
      let ds := t.takeWhile isDigit
      if ds.isEmpty then none else some (text ++ e :: sign ++ ds, t.dropWhile isDigit)
    else some (text, rest)
  | [] => some (text, rest)

/-- The fraction of a JSON number, if there is one: a point and one digit or
more; then the exponent. -/
def scanFrac (text rest : GoString) : Option (GoString × GoString) :=
  match rest with
  | p :: t =>
    if p.val == 46 then
      let ds := t.takeWhile isDigit
      if ds.isEmpty then none else scanExp (text ++ p :: ds) (t.dropWhile isDigit)
    else scanExp text rest
  | [] => some (text, rest)

/-- A JSON number at the head of the input: its literal text and the input
after it.  The integer part is `0` or starts with a digit from 1 to 9. -/
def scanNumber (s : GoString) : Option (GoString × GoString) :=
  let (sign, s) := match s with
    | m :: t => if m.val == 45 then ([m], t) else ([], m :: t)
    | [] => ([], [])
  match s with
  | d :: t =>
    if d.val == 48 then scanFrac (sign ++ [d]) t
    else if 49 ≤ d.val && d.val ≤ 57 then
      scanFrac (sign ++ d :: t.takeWhile isDigit) (t.dropWhile isDigit)
    else none
  | [] => none

mutual

/-- A JSON value at the head of the input, after optional white space: the
value and the input after it.  The recursion is bounded by `fuel`. -/
def parseValue : Nat → GoString → Option (JValue × GoString)
  | 0, _ => none
  | fuel + 1, s =>
    match skipWs s with
    | [] => none
    | b :: t =>
      if b.val == 34 then
        (parseString (t.length + 1) t).map fun (str, rest) => (JValue.string str, rest)
      else if b.val == 91 then
        match skipWs t with
        | 93 :: rest => some (JValue.array [], rest)
        | _ => (parseElements fuel t).map fun (vs, rest) => (JValue.array vs, rest)
      else if b.val == 123 then
        match skipWs t with
        | 125 :: rest => some (JValue.object [], rest)
        | _ => (parseMembers fuel t).map fun (ms, rest) => (JValue.object ms, rest)
      else if b.val == 116 then
        match t with
        | 114 :: 117 :: 101 :: rest => some (JValue.bool true, rest)
        | _ => none
      else if b.val == 102 then
        match t with
        | 97 :: 108 :: 115 :: 101 :: rest => some (JValue.bool false, rest)
        | _ => none
      else if b.val == 110 then
        match t with
        | 117 :: 108 :: 108 :: rest => some (JValue.null, rest)
        | _ => none
      else (scanNumber (b :: t)).map fun (text, rest) => (JValue.number text, rest)

/-- The elements of a non-empty JSON array and its closing bracket. -/
def parseElements : Nat → GoString → Option (List JValue × GoString)
  | 0, _ => none
  | fuel + 1, s =>
    match parseValue fuel s with
    | none => none
    | some (v, rest) =>
      match skipWs rest with
      | 44 :: rest => (parseElements fuel rest).map fun (vs, rest) => (v :: vs, rest)
      | 93 :: rest => some ([v], rest)
      | _ => none

/-- The members of a non-empty JSON object and its closing brace. -/
def parseMembers : Nat → GoString → Option (List (GoString × JValue) × GoString)
  | 0, _ => none
  | fuel + 1, s =>
    match skipWs s with
    | 34 :: t =>
      match parseString (t.length + 1) t with
      | none => none
      | some (key, rest) =>
        match skipWs rest with
        | 58 :: rest =>
          match parseValue fuel rest with
          | none => none
          | some (v, rest) =>
            match skipWs rest with
            | 44 :: rest => (parseMembers fuel rest).map fun (ms, rest) => ((key, v) :: ms, rest)
            | 125 :: rest => some ([(key, v)], rest)
            | _ => none
        | _ => none
    | _ => none

end

/-- The text of a JSON document: one value between optional white space,
`none` for a syntax error. -/
def parseJSON (content : GoString) : Option JValue :=
  match parseValue (content.length + 1) content with
  | none => none
  | some (v, rest) => if (skipWs rest).isEmpty then some v else none

/-- The value of a run of decimal digits, continuing from `acc`. -/
def digitsValue (acc : Nat) : GoString → Option Nat
  | [] => some acc
  | d :: t => if isDigit d then digitsValue (acc * 10 + (d.val - 48)) t else none

/-- The function `strconv.ParseInt(text, 10, 64)` on the text of a JSON
number: the value of an optional minus sign and digits, when it fits in 64
bits; `none` for a fraction, an exponent or a value out of range. -/
def parseInt (text : GoString) : Option Int :=
  let (neg, ds) := match text with
    | m :: t => if m.val == 45 then (true, t) else (false, m :: t)
    | [] => (false, [])
  if ds.isEmpty then none
  else match digitsValue 0 ds with
    | none => none
    | some n =>
      let v : Int := if neg then -(n : Int) else (n : Int)
      if minInt ≤ v ∧ v ≤ maxInt then some v else none

/-- The function `foldName` of the package, by which an object key is compared
with the field names: ASCII letters in upper case, the runes U+017F and U+212A
as `S` and `K`; a rune outside ASCII otherwise folds to a rune outside ASCII
and is kept here as it is decoded. -/
def foldName : Nat → GoString → GoString
  | 0, _ => []
  | _ + 1, [] => []
  | fuel + 1, b :: t =>
    if b.val < 128 then
      (if 97 ≤ b.val && b.val ≤ 122 then byte (b.val - 32) else b) :: foldName fuel t
    else
      let (r, size) := decodeRune (b :: t)
      let folded := if r == 383 then [83] else if r == 8490 then [75] else encodeRune r
      folded ++ foldName fuel ((b :: t).drop size)

/-- The effect of one object member on a `Card` being decoded: a key that
matches a field name sets the field from a value of the right kind, `null`
leaves it as it is, a value of another kind is an error (`none`); a key that
matches no field is skipped. -/
def setField (c : Card) (member : GoString × JValue) : Option Card :=
  let key := foldName member.1.length member.1
  if key = lit "TERM" then
    match member.2 with
    | JValue.string s => some { c with Term := s }
    | JValue.null => some c
    | _ => none
  else if key = lit "DEFINITION" then
    match member.2 with
    | JValue.string s => some { c with Definition := s }
    | JValue.null => some c
    | _ => none
  else if key = lit "MISTAKES" then
    match member.2 with
    | JValue.number text => (parseInt text).map fun n => { c with Mistakes := n }
    | JValue.null => some c
    | _ => none
  else some c

/-- The members of an object applied in turn, a later key overriding an
earlier one. -/
def setFields (c : Card) : List (GoString × JValue) → Option Card
  | [] => some c
  | m :: ms =>
    match setField c m with
    | none => none
    | some c => setFields c ms

/-- A JSON value decoded into a `Card`: an object sets fields of the zero
card, `null` leaves the zero card, any other value is an error. -/
def decodeCard : JValue → Option Card
  | JValue.object members => setFields { Term := [], Definition := [], Mistakes := 0 } members
  | JValue.null => some { Term := [], Definition := [], Mistakes := 0 }
  | _ => none

/-- The elements of an array decoded in turn. -/
def decodeCards : List JValue → Option (List Card)
  | [] => some []
  | v :: vs =>
    match decodeCard v, decodeCards vs with
    | some c, some cs => some (c :: cs)
    | _, _ => none

/-- The error of `json.Unmarshal` for a text that is not JSON. -/
def syntaxError : GoString := lit "json: syntax error"

/-- The error of `json.Unmarshal` for a JSON value that does not fit the Go
type. -/
def typeError : GoString := lit "json: cannot unmarshal value into Go value of type []main.Card"

/-- The constant `maxNestingDepth` of the scanner of `encoding/json`. -/
def maxNestingDepth : Nat := 10000

mutual

/-- The largest number of arrays and objects open at the same time in a value:
the largest length the stack `parseState` of the scanner reaches on it. -/
def JValue.depth : JValue → Nat
  | JValue.array elems => depthElements elems + 1
  | JValue.object members => depthMembers members + 1
  | _ => 0

/-- The largest depth among the elements of an array. -/
def depthElements : List JValue → Nat
  | [] => 0
  | v :: rest => max v.depth (depthElements rest)

/-- The largest depth among the values of an object. -/
def depthMembers : List (GoString × JValue) → Nat
  | [] => 0
  | (_, v) :: rest => max v.depth (depthMembers rest)

end

/-- The function `json.Unmarshal(content, &cards)` for `cards` a nil
`[]Card`: the cards of an array, no card for `null`, and an error for a
syntax error, for a document nested deeper than `maxNestingDepth` (which the
scanner reports as a syntax error, before anything is decoded), or for a value
of the wrong kind anywhere.  The error stands for `err.Error()`; the wording
of the package is not reproduced. -/
def Unmarshal (content : GoString) : Except GoString (List Card) :=
  match parseJSON content with
  | none => Except.error syntaxError
  | some v =>
    if maxNestingDepth < v.depth then Except.error syntaxError
    else
      match v with
      | JValue.array elems =>
        match decodeCards elems with
        | some cards => Except.ok cards
        | none => Except.error typeError
      | JValue.null => Except.ok []
      | _ => Except.error typeError

/-- The loop of `utf8.ValidString`: no byte of the string starts an
ill-formed sequence.  The recursion is bounded by the length of the string. -/
def validFrom : Nat → GoString → Bool
  | 0, _ => true
  | _ + 1, [] => true
  | fuel + 1, b :: t =>
    if b.val < 128 then validFrom fuel t
    else
      let (r, size) := decodeRune (b :: t)
      if r == RuneError && size == 1 then false else validFrom fuel ((b :: t).drop size)

/-- The function `utf8.ValidString`: the string is well-formed UTF-8. -/
def ValidString (s : GoString) : Bool := validFrom s.length s

/-! ## Export and import -/

/-- The confirmation of `doExport`. -/
def savedMsg (n : Nat) : GoString := Itoa n ++ lit " cards have been saved.\n"

/-- The confirmation of `doImport`. -/
def loadedMsg (n : Nat) : GoString := Itoa n ++ lit " cards have been loaded.\n"

/-- The method `doExport`.  `writeErr` is the outcome of `os.WriteFile`: no
error, or the text of its error.  The result is the new state and, when the
write succeeded, the content the file now has. -/
def doExport (a : App) (writeErr : Option GoString) : Option (App × Option GoString) :=
  let content := Marshal a.cards
  match writeErr with
  | some err => (Println a err).map fun a => (a, none)
  | none => (Printf a (savedMsg a.cards.length)).map fun a => (a, some content)

/-- The method `doImport`.  `readFile` is the outcome of `os.ReadFile`: the
content of the file, or `none` for an error.  On success the store becomes a
copy of the parsed cards. -/
def doImport (a : App) (readFile : Option GoString) : Option App :=
  match readFile with
  | none => Println a (lit "File not found.")
  | some content =>
    match Unmarshal content with
    | Except.error err => Println a err
    | Except.ok cards => Printf { a with cards := cards } (loadedMsg cards.length)

/-! ## The add flow -/

/-- The message of `addHandler` for a term that is already present. -/
def termExistsMsg (term : GoString) : GoString :=
  lit "The term \"" ++ term ++ lit "\" already exists. Try again:\n"

/-- The message of `addHandler` for a definition that is already present. -/
def definitionExistsMsg (definition : GoString) : GoString :=
  lit "The definition \"" ++ definition ++ lit "\" already exists. Try again:\n"

/-- The confirmation of `addHandler`. -/
def addedMsg (term definition : GoString) : GoString :=
  lit "The pair (\"" ++ term ++ lit "\":\"" ++ definition ++ lit "\") has been added.\n"

/-- The first loop of `addHandler`.  `input` lists what the successive calls
of `reader.ReadString` return; when it is exhausted the call returns the empty
string (end of input) and `writeLog` panics on it.  The result is the accepted
term, the state and the unread input. -/
def addTermLoop (a : App) : List GoString → Option (GoString × App × List GoString)
  | [] => none
  | line :: input =>
    match writeLog a line with
    | none => none
    | some a =>
      let term := TrimSpace line
      if notFound ≠ findCardByTerm a term then
        match Printf a (termExistsMsg term) with
        | none => none
        | some a => addTermLoop a input
      else some (term, a, input)

/-- The second loop of `addHandler`, read like `addTermLoop`. -/
def addDefinitionLoop (a : App) : List GoString → Option (GoString × App × List GoString)
  | [] => none
  | line :: input =>
    match writeLog a line with
    | none => none
    | some a =>
      let definition := TrimSpace line
      if notFound ≠ findCardByDefinition a definition then
        match Printf a (definitionExistsMsg definition) with
        | none => none
        | some a => addDefinitionLoop a input
      else some (definition, a, input)

/-- The method `addHandler`; the result is the new state and the unread
input. -/
def addHandler (a : App) (input : List GoString) : Option (App × List GoString) := do
  let a ← Println a (lit "The card:")
  let (term, a, input) ← addTermLoop a input
  let a ← Println a (lit "The definition of the card:")
  let (definition, a, input) ← addDefinitionLoop a input
  let a := { a with cards := a.cards ++ [{ Term := term, Definition := definition, Mistakes := 0 }] }
  let a ← Printf a (addedMsg term definition)
  pure (a, input)

/-! ## The remove flow -/

/-- The failure message of `removeHandler`. -/
def cantRemoveMsg (term : GoString) : GoString :=
  lit "Can't remove \"" ++ term ++ lit "\": there is no such card.\n"

/-- The `switch` of `removeHandler` on a found index: the slice expressions
`cards[1:]`, `cards[:len-1]` and `append(cards[:index], cards[index+1:]...)`. -/
def removeAt (cards : List Card) (index : Int) : List Card :=
  if index = 0 then cards.drop 1
  else if index = (cards.length : Int) - 1 then cards.take (cards.length - 1)
  else cards.take index.toNat ++ cards.drop (index.toNat + 1)

/-- The method `removeHandler`; `term` is the token stored by `fmt.Scan`
(empty when the scan fails). -/
def removeHandler (a : App) (term : GoString) : Option App := do
  let a ← Println a (lit "Which card?")
  let a ← writeLog a (lit "> " ++ term)
  let index := findCardByTerm a term
  if notFound = index then
    Printf a (cantRemoveMsg term)
  else
    Println { a with cards := removeAt a.cards index } (lit "The card has been removed.")

/-! ## The quiz -/

/-- The question of `askHandler`. -/
def askMsg (term : GoString) : GoString :=
  lit "Print the definition of \"" ++ term ++ lit "\"\n"

/-- The answer of `askHandler` to a wrong reply that is no definition. -/
def wrongMsg (definition : GoString) : GoString :=
  lit "Wrong. The right answer is \"" ++ definition ++ lit "\".\n"

/-- The answer of `askHandler` to a wrong reply that defines another term. -/
def wrongButMsg (definition term : GoString) : GoString :=
  lit "Wrong. The right answer is \"" ++ definition
    ++ lit "\", but your definition is correct for \"" ++ term ++ lit "\".\n"

/-- The statement `a.cards[index].Mistakes++`. -/
def incrementMistakes (cards : List Card) (index : Nat) : Option (List Card) :=
  match cards.get? index with
  | none => none
  | some c => some (cards.set index { c with Mistakes := wrapInt (c.Mistakes + 1) })

/-- The body of the loop of `askHandler`, after `index` has been drawn:
`answer` is what `reader.ReadString` returns. -/
def askRound (a : App) (index : Nat) (answer : GoString) : Option App := do
  let card ← a.cards.get? index
  let a ← Printf a (askMsg card.Term)
  let a ← writeLog a answer
  let answer := TrimSpace answer
  if answer = card.Definition then
    Println a (lit "Correct!")
  else
    let cards ← incrementMistakes a.cards index
    let a := { a with cards := cards }
    let n := findCardByDefinition a answer
    if n ≠ notFound then
      let other ← a.cards.get? n.toNat
      Printf a (wrongButMsg card.Definition other.Term)
    else
      Printf a (wrongMsg card.Definition)

/-- The function `rand.Intn`: it panics unless `n > 0`; any value below `n`
can come out, here the draw `r` reduced modulo `n`. -/
def Intn (r : Nat) (n : Nat) : Option Nat := if n = 0 then none else some (r % n)

/-- The loop of `askHandler`, `rounds` iterations left: `draws` feeds
`rand.Intn` and `input` feeds `reader.ReadString` (the empty string at the end
of input). -/
def askLoop (a : App) : Nat → List Nat → List GoString → Option (App × List GoString)
  | 0, _, input => some (a, input)
  | rounds + 1, draws, input =>
    match Intn (draws.headD 0) a.cards.length with
    | none => none
    | some index =>
      match askRound a index (input.headD []) with
      | none => none
      | some a => askLoop a rounds draws.tail input.tail

/-- The method `askHandler`; `num` is the number stored by `fmt.Scan` (zero
when the scan fails). -/
def askHandler (a : App) (num : Int) (draws : List Nat) (input : List GoString) :
    Option (App × List GoString) := do
  let a ← Println a (lit "How many times to ask?")
  let a ← writeLog a (lit "> " ++ Itoa num)
  askLoop a num.toNat draws input

/-! ## Statistics -/

/-- The first loop of `hardestCardHandler`: the running maximum, from 0. -/
def maxMistakes (cards : List Card) : Int :=
  cards.foldl (fun max card => if card.Mistakes > max then card.Mistakes else max) 0

/-- The second loop of `hardestCardHandler`: the quoted terms of the cards
whose mistakes equal `max`. -/
def hardestTerms (cards : List Card) (max : Int) : List GoString :=
  cards.foldl (fun terms card =>
    if card.Mistakes = max then terms ++ [lit "\"" ++ card.Term ++ lit "\""] else terms) []

/-- The message of `hardestCardHandler` for one hardest card. -/
def hardestOneMsg (term : GoString) (max : Int) : GoString :=
  let errorStr := if max > 1 then lit "errors" else lit "error"
  lit "The hardest card is " ++ term ++ lit ". You have " ++ Itoa max ++ lit " " ++ errorStr
    ++ lit " answering it.\n"

/-- The message of `hardestCardHandler` for several hardest cards. -/
def hardestManyMsg (terms : List GoString) : GoString :=
  lit "The hardest cards are " ++ Join terms (lit ", ") ++ lit ".\n"

/-- The method `hardestCardHandler`. -/
def hardestCardHandler (a : App) : Option App :=
  let max := maxMistakes a.cards
  let terms := hardestTerms a.cards max
  if max = 0 then
    Println a (lit "There are no cards with errors.")
  else if terms.length = 1 then
    Printf a (hardestOneMsg (terms.headD []) max)
  else
    Printf a (hardestManyMsg terms)

/-- The loop of `resetStatsHandler`: `a.cards[i].Mistakes = 0` for the indices
`i, i+1, ...`, `todo` of them. -/
def resetFrom (cards : List Card) (i : Nat) : Nat → List Card
  | 0 => cards
  | todo + 1 =>
    match cards.get? i with
    | none => cards
    | some c => resetFrom (cards.set i { c with Mistakes := 0 }) (i + 1) todo

/-- The method `resetStatsHandler`. -/
def resetStatsHandler (a : App) : Option App :=
  Println { a with cards := resetFrom a.cards 0 a.cards.length }
    (lit "Card statistics have been reset.")

/-! ## The other handlers and the dispatcher -/

/-- The method `importHandler`; `filename` is the token stored by `fmt.Scan`
and `readFile` the outcome of `os.ReadFile` on it. -/
def importHandler (a : App) (filename : GoString) (readFile : Option GoString) : Option App := do
  let a ← Println a (lit "File name:")
  let a ← writeLog a (lit "> " ++ filename)
  doImport a readFile

/-- The method `exportHandler`; `filename` is the token stored by `fmt.Scan`
and `writeErr` the outcome of `os.WriteFile` on it. -/
def exportHandler (a : App) (filename : GoString) (writeErr : Option GoString) :
    Option (App × Option GoString) := do
  let a ← Println a (lit "File name:")
  let a ← writeLog a (lit "> " ++ filename)
  doExport a writeErr

/-- The method `exitHandler`, up to the call of `os.Exit(0)`. -/
def exitHandler (a : App) (writeErr : Option GoString) : Option App := do
  let a ← if a.exmportFile ≠ [] then (doExport a writeErr).map (fun r => r.1) else some a
  Println a (lit "Bye bye!")

/-- The method `logHandler`; `filename` is the token stored by `fmt.Scan` and
`writeErr` the outcome of `os.WriteFile`, which the method does not look at.
The result is the new state and, when the write succeeded, the content the
file now has. -/
def logHandler (a : App) (filename : GoString) (writeErr : Option GoString) :
    Option (App × Option GoString) := do
  let a ← Println a (lit "File name:")
  let a ← writeLog a (lit "> " ++ filename)
  let a ← Println a (lit "The log has been saved.")
  let content := Join a.appLog []
  match writeErr with
  | some _ => pure (a, none)
  | none => pure (a, some content)

/-- The values of the map `menu`: the nine methods `NewApp` registers. -/
inductive Handler where
  | addHandler
  | removeHandler
  | importHandler
  | exportHandler
  | askHandler
  | exitHandler
  | logHandler
  | hardestCardHandler
  | resetStatsHandler
deriving DecidableEq, Repr

/-- The lookup `a.menu[action]` in the map built by `NewApp`. -/
def menu (action : GoString) : Option Handler :=
  if action = lit "add" then some Handler.addHandler
  else if action = lit "remove" then some Handler.removeHandler
  else if action = lit "import" then some Handler.importHandler
  else if action = lit "export" then some Handler.exportHandler
  else if action = lit "ask" then some Handler.askHandler
  else if action = lit "exit" then some Handler.exitHandler
  else if action = lit "log" then some Handler.logHandler
  else if action = lit "hardest card" then some Handler.hardestCardHandler
  else if action = lit "reset stats" then some Handler.resetStatsHandler
  else none

/-- What one handler call reads from the outside world: the lines its
`reader.ReadString` returns, the token and the number `fmt.Scan` stores, the
draws of `rand.Intn`, and the outcomes of `os.ReadFile` and `os.WriteFile`. -/
structure Env where
  lines : List GoString
  token : GoString
  num : Int
  draws : List Nat
  readFile : Option GoString
  writeErr : Option GoString

/-- How a handler call ends: the loop of `run` goes on, or the process has
exited. -/
inductive Outcome where
  | running : App → Outcome
  | exited : App → Outcome
deriving DecidableEq, Repr

/-- The call `handler()` of `run`. -/
def callHandler (h : Handler) (a : App) (env : Env) : Option Outcome :=
  match h with
  | Handler.addHandler => (addHandler a env.lines).map fun r => Outcome.running r.1
  | Handler.removeHandler => (removeHandler a env.token).map Outcome.running
  | Handler.importHandler => (importHandler a env.token env.readFile).map Outcome.running
  | Handler.exportHandler =>
    (exportHandler a env.token env.writeErr).map fun r => Outcome.running r.1
  | Handler.askHandler =>
    (askHandler a env.num env.draws env.lines).map fun r => Outcome.running r.1
  | Handler.exitHandler => (exitHandler a env.writeErr).map Outcome.exited
  | Handler.logHandler => (logHandler a env.token env.writeErr).map fun r => Outcome.running r.1
  | Handler.hardestCardHandler => (hardestCardHandler a).map Outcome.running
  | Handler.resetStatsHandler => (resetStatsHandler a).map Outcome.running

/-- The line `run` prints before it reads an action. -/
def promptMsg : GoString :=
  lit "Input the action (add, remove, import, export, ask, exit, log, hardest card, reset stats):"

/-- One iteration of the loop of `run`; `action` is what `reader.ReadString`
returns (the empty string at the end of input). -/
def runIteration (a : App) (action : GoString) (env : Env) : Option Outcome := do
  let a ← Println a promptMsg
  let a ← writeLog a action
  match menu (TrimSpace action) with
  | some h => callHandler h a env
  | none => pure (Outcome.running a)

/-! ## Specification vocabulary -/

/-- The name under which `NewApp` registers a handler. -/
def Handler.name : Handler → GoString
  | Handler.addHandler => lit "add"
  | Handler.removeHandler => lit "remove"
  | Handler.importHandler => lit "import"
  | Handler.exportHandler => lit "export"
  | Handler.askHandler => lit "ask"
  | Handler.exitHandler => lit "exit"
  | Handler.logHandler => lit "log"
  | Handler.hardestCardHandler => lit "hardest card"
  | Handler.resetStatsHandler => lit "reset stats"

/-- The uniqueness invariant of the store: the terms are pairwise distinct
and the definitions are pairwise distinct. -/
def Distinct (cards : List Card) : Prop :=
  (cards.map Card.Term).Nodup ∧ (cards.map Card.Definition).Nodup

/-- The states reached from a state with an empty store by runs of
`addHandler`, `removeHandler`, `askHandler` and `resetStatsHandler` that
return, whatever they read. -/
inductive Reachable : App → Prop where
  | start (a : App) : a.cards = [] → Reachable a
  | add (a a' : App) (input rest : List GoString) :
      Reachable a → addHandler a input = some (a', rest) → Reachable a'
  | remove (a a' : App) (term : GoString) :
      Reachable a → removeHandler a term = some a' → Reachable a'
  | ask (a a' : App) (num : Int) (draws : List Nat) (input rest : List GoString) :
      Reachable a → askHandler a num draws input = some (a', rest) → Reachable a'
  | reset (a a' : App) : Reachable a → resetStatsHandler a = some a' → Reachable a'

/-- The number of the first `rounds` rounds of a quiz on `cards` whose trimmed
answer is not the definition of the sampled card. -/
def wrongRounds (cards : List Card) : Nat → List Nat → List GoString → Nat
  | 0, _, _ => 0
  | rounds + 1, draws, input =>
    (match cards.get? (draws.headD 0 % cards.length) with
      | some c => if TrimSpace (input.headD []) = c.Definition then 0 else 1
      | none => 0)
    + wrongRounds cards rounds draws.tail input.tail

/-- The sum of the mistake counts of a store. -/
def totalMistakes (cards : List Card) : Int := (cards.map Card.Mistakes).sum

/-- The entry that `writeLog` appends for a non-empty line: the line itself
when it ends in a newline, the line and a newline otherwise. -/
def logLine (line : GoString) : GoString :=
  if line.getLast? = some 10 then line else line ++ [10]

/-- The JSON object `Marshal` writes for a card, as a parsed value. -/
def cardValue (c : Card) : JValue :=
  JValue.object [(lit "Term", JValue.string c.Term),
    (lit "Definition", JValue.string c.Definition),
    (lit "Mistakes", JValue.number (Itoa c.Mistakes))]

/-- A card with its mistake count set to zero. -/
def Card.cleared (c : Card) : Card := { c with Mistakes := 0 }

/-- The state after a line that ends in a newline has been printed and
logged. -/
def App.printed (a : App) (line : GoString) : App :=
  { a with stdout := a.stdout ++ [line], appLog := a.appLog ++ [line] }

/-- The cards of a store whose mistake count is `m`, in store order. -/
def cardsWith (cards : List Card) (m : Int) : List Card :=
  cards.filter fun c => c.Mistakes = m

/-- A term between double quotes. -/
def quoted (term : GoString) : GoString := lit "\"" ++ term ++ lit "\""

/-- The state an outcome carries. -/
def Outcome.app : Outcome → App
  | Outcome.running a => a
  | Outcome.exited a => a

/-- The state of `run` after it printed the prompt and logged the line it
read. -/
def prompted (a : App) (action : GoString) : App :=
  { a with stdout := a.stdout ++ [promptMsg ++ [10]],
           appLog := a.appLog ++ [promptMsg ++ [10], logLine action] }

/-- Whether the process has exited. -/
def Outcome.hasExited : Outcome → Bool
  | Outcome.running _ => false
  | Outcome.exited _ => true

/-! ## Concrete stores -/

/-- The state `NewApp` builds when no flag is given. -/
def NewApp : App :=
  { cards := [], appLog := [], importFile := [], exmportFile := [], stdout := [] }

/-- A card whose term is the single byte 0xFF, which is not UTF-8. -/
def rawByteCards : List Card := [{ Term := [255], Definition := lit "x", Mistakes := 0 }]

/-- Two cards with distinct terms and definitions. -/
def petStore : App :=
  { cards := [{ Term := lit "cat", Definition := lit "meow", Mistakes := 0 },
              { Term := lit "dog", Definition := lit "bark", Mistakes := 0 }],
    appLog := [], importFile := [], exmportFile := [], stdout := [] }

/-- Two cards with the same term. -/
def dupStore : App :=
  { cards := [{ Term := lit "a", Definition := lit "x", Mistakes := 0 },
              { Term := lit "a", Definition := lit "y", Mistakes := 0 }],
    appLog := [], importFile := [], exmportFile := [], stdout := [] }

/-- One card. -/
def oneCardStore : App :=
  { cards := [{ Term := lit "cat", Definition := lit "meow", Mistakes := 1 }],
    appLog := [], importFile := [], exmportFile := [], stdout := [] }

/-- Three cards with different mistake counts. -/
def threeStore : App :=
  { cards := [{ Term := lit "cat", Definition := lit "meow", Mistakes := 5 },
              { Term := lit "dog", Definition := lit "bark", Mistakes := 1 },
              { Term := lit "cow", Definition := lit "moo", Mistakes := 1 }],
    appLog := [], importFile := [], exmportFile := [], stdout := [] }

/-- One card whose mistake count is the largest `int`, as `import` can load
it. -/
def maxedStore : App :=
  { cards := [{ Term := lit "a", Definition := lit "b", Mistakes := 9223372036854775807 }],
    appLog := [], importFile := [], exmportFile := [], stdout := [] }

/-- Three cards without mistakes. -/
def freshStore : App :=
  { cards := [{ Term := lit "cat", Definition := lit "meow", Mistakes := 0 },
              { Term := lit "dog", Definition := lit "bark", Mistakes := 0 },
              { Term := lit "cow", Definition := lit "moo", Mistakes := 0 }],
    appLog := [], importFile := [], exmportFile := [], stdout := [] }

/-- Three cards, two of them tied at three mistakes. -/
def tieStore : App :=
  { cards := [{ Term := lit "cat", Definition := lit "meow", Mistakes := 3 },
              { Term := lit "dog", Definition := lit "bark", Mistakes := 3 },
              { Term := lit "cow", Definition := lit "moo", Mistakes := 1 }],
    appLog := [], importFile := [], exmportFile := [], stdout := [] }

/-- What the handlers read in the sample iterations: two lines, the token
"dog", the number 1, the draw 0, a file that cannot be read and a write that
succeeds. -/
def sampleEnv : Env :=
  { lines := [lit "cow\n", lit "moo\n"], token := lit "dog", num := 1, draws := [0],
    readFile := none, writeErr := none }

/-- A session from the empty store: three cards are added (the second after a
rejected term and a rejected definition), two questions are asked, "dog" is
removed, the statistics are reset, "dog" is added again and one more question
is asked. -/
def sampleRun : Option App := do
  let (a, _) ← addHandler NewApp [lit "cat\n", lit "meow\n"]
  let (a, _) ← addHandler a [lit "cat\n", lit "dog\n", lit "meow\n", lit "bark\n"]
  let (a, _) ← addHandler a [lit "cow\n", lit "moo\n"]
  let (a, _) ← askHandler a 2 [0, 1] [lit "moo\n", lit "bark\n"]
  let a ← removeHandler a (lit "dog")
  let a ← resetStatsHandler a
  let (a, _) ← addHandler a [lit "dog\n", lit "woof\n"]
  let (a, _) ← askHandler a 1 [2] [lit "meow\n"]
  pure a

/-! # Theorems -/

/-! ## Lookups: the first match -/

theorem findTermFrom_absent {t : GoString} :
    ∀ (cs : List Card) (i : Int), (∀ c ∈ cs, c.Term ≠ t) → findTermFrom t cs i = notFound := by
  intro cs
  induction cs with
  | nil => intro i _; rfl
  | cons c cs ih =>
    intro i h
    have hc : c.Term ≠ t := h c (List.mem_cons_self _ _)
    simp only [findTermFrom, hc, if_false]
    exact ih (i + 1) fun c' hc' => h c' (List.mem_cons_of_mem _ hc')

theorem findTermFrom_first {t : GoString} :
    ∀ (cs : List Card) (i : Int) (k : Nat) (c : Card), cs[k]? = some c → c.Term = t →
      (∀ (j : Nat) (c' : Card), j < k → cs[j]? = some c' → c'.Term ≠ t) →
      findTermFrom t cs i = i + k := by
  intro cs
  induction cs with
  | nil => intro i k c h; simp at h
  | cons d cs ih =>
    intro i k c h ht hfirst
    cases k with
    | zero =>
      simp at h
      subst h
      simp [findTermFrom, ht]
    | succ k =>
      have hd : d.Term ≠ t := hfirst 0 d (Nat.succ_pos k) (by simp)
      simp only [findTermFrom, hd, if_false]
      rw [ih (i + 1) k c (by simpa using h) ht
        (fun j c' hj hc' => hfirst (j + 1) c' (Nat.succ_lt_succ hj) (by simpa using hc'))]
      push_cast
      ring

theorem findTermFrom_cases (t : GoString) :
    ∀ (cs : List Card) (i : Int),
      (findTermFrom t cs i = notFound ∧ ∀ c ∈ cs, c.Term ≠ t) ∨
      ∃ (k : Nat) (c : Card), cs[k]? = some c ∧ c.Term = t ∧
        (∀ (j : Nat) (c' : Card), j < k → cs[j]? = some c' → c'.Term ≠ t) ∧ findTermFrom t cs i = i + k := by
  intro cs
  induction cs with
  | nil => intro i; left; exact ⟨rfl, by simp⟩
  | cons d cs ih =>
    intro i
    by_cases hd : d.Term = t
    · right
      refine ⟨0, d, by simp, hd, by simp, by simp [findTermFrom, hd]⟩
    · rcases ih (i + 1) with ⟨h1, h2⟩ | ⟨k, c, h1, h2, h3, h4⟩
      · left
        refine ⟨by simp [findTermFrom, hd, h1], ?_⟩
        intro c hc
        rcases List.mem_cons.1 hc with rfl | hc
        · exact hd
        · exact h2 c hc
      · right
        refine ⟨k + 1, c, by simpa using h1, h2, ?_, ?_⟩
        · intro j c' hj hc'
          cases j with
          | zero => simp at hc'; subst hc'; exact hd
          | succ j => exact h3 j c' (by omega) (by simpa using hc')
        · simp only [findTermFrom, hd, if_false, h4]
          push_cast
          ring


theorem findDefinitionFrom_absent {t : GoString} :
    ∀ (cs : List Card) (i : Int), (∀ c ∈ cs, c.Definition ≠ t) → findDefinitionFrom t cs i = notFound := by
  intro cs
  induction cs with
  | nil => intro i _; rfl
  | cons c cs ih =>
    intro i h
    have hc : c.Definition ≠ t := h c (List.mem_cons_self _ _)
    simp only [findDefinitionFrom, hc, if_false]
    exact ih (i + 1) fun c' hc' => h c' (List.mem_cons_of_mem _ hc')

theorem findDefinitionFrom_first {t : GoString} :
    ∀ (cs : List Card) (i : Int) (k : Nat) (c : Card), cs[k]? = some c → c.Definition = t →
      (∀ (j : Nat) (c' : Card), j < k → cs[j]? = some c' → c'.Definition ≠ t) →
      findDefinitionFrom t cs i = i + k := by
  intro cs
  induction cs with
  | nil => intro i k c h; simp at h
  | cons d cs ih =>
    intro i k c h ht hfirst
    cases k with
    | zero =>
      simp at h
      subst h
      simp [findDefinitionFrom, ht]
    | succ k =>
      have hd : d.Definition ≠ t := hfirst 0 d (Nat.succ_pos k) (by simp)
      simp only [findDefinitionFrom, hd, if_false]
      rw [ih (i + 1) k c (by simpa using h) ht
        (fun j c' hj hc' => hfirst (j + 1) c' (Nat.succ_lt_succ hj) (by simpa using hc'))]
      push_cast
      ring

theorem findDefinitionFrom_cases (t : GoString) :
    ∀ (cs : List Card) (i : Int),
      (findDefinitionFrom t cs i = notFound ∧ ∀ c ∈ cs, c.Definition ≠ t) ∨
      ∃ (k : Nat) (c : Card), cs[k]? = some c ∧ c.Definition = t ∧
        (∀ (j : Nat) (c' : Card), j < k → cs[j]? = some c' → c'.Definition ≠ t) ∧ findDefinitionFrom t cs i = i + k := by
  intro cs
  induction cs with
  | nil => intro i; left; exact ⟨rfl, by simp⟩
  | cons d cs ih =>
    intro i
    by_cases hd : d.Definition = t
    · right
      refine ⟨0, d, by simp, hd, by simp, by simp [findDefinitionFrom, hd]⟩
    · rcases ih (i + 1) with ⟨h1, h2⟩ | ⟨k, c, h1, h2, h3, h4⟩
      · left
        refine ⟨by simp [findDefinitionFrom, hd, h1], ?_⟩
        intro c hc
        rcases List.mem_cons.1 hc with rfl | hc
        · exact hd
        · exact h2 c hc
      · right
        refine ⟨k + 1, c, by simpa using h1, h2, ?_, ?_⟩
        · intro j c' hj hc'
          cases j with
          | zero => simp at hc'; subst hc'; exact hd
          | succ j => exact h3 j c' (by omega) (by simpa using hc')
        · simp only [findDefinitionFrom, hd, if_false, h4]
          push_cast
          ring

/-- A store with two cards of the same term, as `import` can load it. -/
theorem C2_counterexample :
    dupStore.cards[1]? = some { Term := lit "a", Definition := lit "y", Mistakes := 0 } ∧
      findCardByTerm dupStore (lit "a") = 0 ∧ findCardByTerm dupStore (lit "a") ≠ 1 := by
  decide

/-- C2 (amended): in every store, the empty one included, `findCardByTerm` on
the term of the card stored at index `i` returns `i` when no earlier card has
that term, `findCardByDefinition` on its definition returns `i` when no earlier
card has that definition, and each lookup returns `notFound` for a value that
no stored card has. -/
theorem C2_lookup_consistent (a : App) :
    (∀ (i : Nat) (c : Card), a.cards[i]? = some c →
      (∀ (j : Nat) (d : Card), j < i → a.cards[j]? = some d → d.Term ≠ c.Term) →
        findCardByTerm a c.Term = i) ∧
    (∀ (i : Nat) (c : Card), a.cards[i]? = some c →
      (∀ (j : Nat) (d : Card), j < i → a.cards[j]? = some d → d.Definition ≠ c.Definition) →
        findCardByDefinition a c.Definition = i) ∧
    (∀ t : GoString, (∀ d ∈ a.cards, d.Term ≠ t) → findCardByTerm a t = notFound) ∧
    (∀ t : GoString, (∀ d ∈ a.cards, d.Definition ≠ t) →
        findCardByDefinition a t = notFound) := by
  refine ⟨fun i c h hfirst => ?_, fun i c h hfirst => ?_, fun t ht => ?_, fun t ht => ?_⟩
  · simpa [findCardByTerm] using findTermFrom_first a.cards 0 i c h rfl hfirst
  · simpa [findCardByDefinition] using findDefinitionFrom_first a.cards 0 i c h rfl hfirst
  · exact findTermFrom_absent a.cards 0 ht
  · exact findDefinitionFrom_absent a.cards 0 ht

/-- In a store of two distinct cards the second card is found at index 1 by
its term and by its definition, and an unknown term and an unknown definition
are not found; in the empty store nothing is found. -/
theorem C2_lookup_consistent_witness :
    findCardByTerm petStore (lit "dog") = 1 ∧ findCardByDefinition petStore (lit "bark") = 1 ∧
      findCardByTerm petStore (lit "cow") = notFound ∧
      findCardByDefinition petStore (lit "moo") = notFound ∧
      findCardByTerm NewApp (lit "cat") = notFound ∧
      findCardByDefinition NewApp (lit "meow") = notFound := by
  have h := C2_lookup_consistent petStore
  have h0 := C2_lookup_consistent NewApp
  have hfirst : ∀ (j : Nat) (d : Card), j < 1 → petStore.cards[j]? = some d →
      d = { Term := lit "cat", Definition := lit "meow", Mistakes := 0 } := by
    intro j d hj hd
    obtain rfl : j = 0 := by omega
    simpa [petStore] using hd.symm
  refine ⟨h.1 1 { Term := lit "dog", Definition := lit "bark", Mistakes := 0 } (by decide) ?_,
    h.2.1 1 { Term := lit "dog", Definition := lit "bark", Mistakes := 0 } (by decide) ?_,
    h.2.2.1 (lit "cow") (by decide), h.2.2.2 (lit "moo") (by decide),
    h0.2.2.1 (lit "cat") (by decide), h0.2.2.2 (lit "meow") (by decide)⟩
  · intro j d hj hd
    rw [hfirst j d hj hd]
    decide
  · intro j d hj hd
    rw [hfirst j d hj hd]
    decide

/-! ## Output and the log -/

theorem writeLog_of_ne_nil (a : App) {line : GoString} (h : line ≠ []) :
    writeLog a line = some { a with appLog := a.appLog ++ [logLine line] } := by
  unfold writeLog logLine
  cases hl : line.getLast? with
  | none => exact absurd (List.getLast?_eq_none_iff.1 hl) h
  | some c => by_cases hc : c = 10 <;> simp [hc]

theorem writeLog_nil (a : App) : writeLog a [] = none := rfl

theorem Println_of_ne_nil (a : App) {line : GoString} (h : line ≠ []) :
    Println a line = some { a with stdout := a.stdout ++ [line ++ [10]],
                                   appLog := a.appLog ++ [logLine line] } := by
  simp [Println, writeLog_of_ne_nil _ h]

theorem Printf_of_ne_nil (a : App) {line : GoString} (h : line ≠ []) :
    Printf a line = some { a with stdout := a.stdout ++ [line],
                                  appLog := a.appLog ++ [logLine line] } := by
  simp [Printf, writeLog_of_ne_nil _ h]

theorem lit_append_ne_nil {s : String} (h : lit s ≠ []) (t : GoString) : lit s ++ t ≠ [] := by
  intro h'
  exact h (List.append_eq_nil.1 h').1

theorem cantRemoveMsg_ne_nil (term : GoString) : cantRemoveMsg term ≠ [] := by
  unfold cantRemoveMsg
  rw [List.append_assoc]
  exact lit_append_ne_nil (by decide) _

/-! ## Removal -/

theorem removeAt_eq_eraseIdx (cards : List Card) (k : Nat) (hk : k < cards.length) :
    removeAt cards k = cards.eraseIdx k := by
  unfold removeAt
  split_ifs with h0 h1
  · obtain rfl : k = 0 := by exact_mod_cast h0
    cases cards <;> rfl
  · have hk1 : k = cards.length - 1 := by omega
    subst hk1
    rw [List.eraseIdx_eq_take_drop_succ]
    have : cards.length - 1 + 1 = cards.length := by omega
    simp [this]
  · simp [List.eraseIdx_eq_take_drop_succ]

/-- C9: when no stored card has the scanned term, `removeHandler` returns with
the store unchanged (same cards, hence same length) and its output is the
prompt followed by the failure message naming the term, which is not the
removal confirmation. -/
theorem C9_remove_absent (a : App) (term : GoString) (h : ∀ c ∈ a.cards, c.Term ≠ term) :
    removeHandler a term = some
      { a with stdout := a.stdout ++ [lit "Which card?\n", cantRemoveMsg term],
               appLog := a.appLog ++ [lit "Which card?\n", logLine (lit "> " ++ term),
                                      logLine (cantRemoveMsg term)] } ∧
    (∀ a', removeHandler a term = some a' →
      a'.cards = a.cards ∧ a'.cards.length = a.cards.length ∧
      lit "The card has been removed.\n" ∉ a'.stdout.drop a.stdout.length) := by
  have hfind : findTermFrom term a.cards 0 = notFound := findTermFrom_absent a.cards 0 h
  have hrun : removeHandler a term = some
      { a with stdout := a.stdout ++ [lit "Which card?\n", cantRemoveMsg term],
               appLog := a.appLog ++ [lit "Which card?\n", logLine (lit "> " ++ term),
                                      logLine (cantRemoveMsg term)] } := by
    have h1 : lit "Which card?" ≠ [] := by decide
    have h2 : lit "> " ++ term ≠ [] := lit_append_ne_nil (by decide) _
    have e1 : lit "Which card?" ++ [10] = lit "Which card?\n" := by decide
    have e2 : logLine (lit "Which card?") = lit "Which card?\n" := by decide
    simp [removeHandler, Println_of_ne_nil _ h1, writeLog_of_ne_nil _ h2,
      Printf_of_ne_nil _ (cantRemoveMsg_ne_nil term), findCardByTerm, hfind, e1, e2]
  refine ⟨hrun, ?_⟩
  intro a' ha'
  rw [hrun] at ha'
  obtain rfl := Option.some.inj ha'
  refine ⟨rfl, rfl, ?_⟩
  simp only [List.drop_left, List.mem_cons, List.mem_singleton, List.not_mem_nil, or_false,
    not_or]
  refine ⟨by decide, ?_⟩
  intro hEq
  have e3 : lit "Can't remove \"" = 67 :: lit "an't remove \"" := by decide
  have e4 : lit "The card has been removed.\n" = 84 :: lit "he card has been removed.\n" := by
    decide
  rw [cantRemoveMsg, e3, e4] at hEq
  simp at hEq

/-- Removing the unknown term "cow" from the two-card store changes nothing. -/
theorem C9_remove_absent_witness :
    ∃ a', removeHandler petStore (lit "cow") = some a' ∧ a'.cards = petStore.cards :=
  ⟨_, (C9_remove_absent petStore (lit "cow") (by decide)).1, rfl⟩

/-- C10: when some stored card has the scanned term, `removeHandler` returns;
with `k` the index given by `findCardByTerm` (the first card with that term),
the new store is the old one with index `k` erased, whichever of the three
branches of the `switch` runs: its length is one less, the cards before `k`
keep their positions and the cards after `k` move down by one. -/
theorem C10_remove_present (a : App) (term : GoString) (h : ∃ c ∈ a.cards, c.Term = term) :
    ∃ k : Nat, findCardByTerm a term = k ∧ k < a.cards.length ∧
      (∃ c, a.cards[k]? = some c ∧ c.Term = term) ∧
      (∀ (j : Nat) (d : Card), j < k → a.cards[j]? = some d → d.Term ≠ term) ∧
      removeAt a.cards k = a.cards.eraseIdx k ∧
      removeHandler a term = some
        { a with cards := a.cards.eraseIdx k,
                 stdout := a.stdout ++ [lit "Which card?\n", lit "The card has been removed.\n"],
                 appLog := a.appLog ++ [lit "Which card?\n", logLine (lit "> " ++ term),
                                        lit "The card has been removed.\n"] } ∧
      (a.cards.eraseIdx k).length + 1 = a.cards.length ∧
      (∀ j, j < k → (a.cards.eraseIdx k)[j]? = a.cards[j]?) ∧
      (∀ j, k ≤ j → (a.cards.eraseIdx k)[j]? = a.cards[j + 1]?) := by
  rcases findTermFrom_cases term a.cards 0 with ⟨_, habs⟩ | ⟨k, c, hk, hc, hfirst, hfind⟩
  · obtain ⟨c, hc, ht⟩ := h
    exact absurd ht (habs c hc)
  · have hlt : k < a.cards.length := by
      by_contra hge
      rw [List.getElem?_eq_none (by omega)] at hk
      exact Option.noConfusion hk
    have hfind' : findTermFrom term a.cards 0 = (k : Int) := by simpa using hfind
    have herase := removeAt_eq_eraseIdx a.cards k hlt
    refine ⟨k, hfind', hlt, ⟨c, hk, hc⟩, hfirst, herase, ?_, ?_, ?_, ?_⟩
    · have h1 : lit "Which card?" ≠ [] := by decide
      have h2 : lit "> " ++ term ≠ [] := lit_append_ne_nil (by decide) _
      have h3 : lit "The card has been removed." ≠ [] := by decide
      have e1 : lit "Which card?" ++ [10] = lit "Which card?\n" := by decide
      have e2 : logLine (lit "Which card?") = lit "Which card?\n" := by decide
      have e3 : lit "The card has been removed." ++ [10] = lit "The card has been removed.\n" := by
        decide
      have e4 : logLine (lit "The card has been removed.") = lit "The card has been removed.\n" := by
        decide
      have hne : notFound ≠ (k : Int) := by
        unfold notFound
        omega
      simp [removeHandler, Println_of_ne_nil _ h1, writeLog_of_ne_nil _ h2,
        Println_of_ne_nil _ h3, findCardByTerm, hfind', hne, herase, e1, e2, e3, e4]
    · rw [List.length_eraseIdx_of_lt hlt]
      omega
    · intro j hj
      exact List.getElem?_eraseIdx_of_lt _ _ _ hj
    · intro j hj
      exact List.getElem?_eraseIdx_of_ge _ _ _ hj

/-- The three branches of the `switch` at work: the only card of a one-card
store (index 0), the last card and an interior card of a three-card store. -/
theorem C10_remove_present_witness :
    (∃ a', removeHandler oneCardStore (lit "cat") = some a' ∧ a'.cards = []) ∧
    (∃ a', removeHandler threeStore (lit "cow") = some a' ∧
      a'.cards = [{ Term := lit "cat", Definition := lit "meow", Mistakes := 5 },
                  { Term := lit "dog", Definition := lit "bark", Mistakes := 1 }]) ∧
    (∃ a', removeHandler threeStore (lit "dog") = some a' ∧
      a'.cards = [{ Term := lit "cat", Definition := lit "meow", Mistakes := 5 },
                  { Term := lit "cow", Definition := lit "moo", Mistakes := 1 }]) := by
  obtain ⟨k1, f1, -, -, -, -, r1, -⟩ := C10_remove_present oneCardStore (lit "cat") (by decide)
  obtain ⟨k2, f2, -, -, -, -, r2, -⟩ := C10_remove_present threeStore (lit "cow") (by decide)
  obtain ⟨k3, f3, -, -, -, -, r3, -⟩ := C10_remove_present threeStore (lit "dog") (by decide)
  have g1 : findCardByTerm oneCardStore (lit "cat") = 0 := by decide
  have g2 : findCardByTerm threeStore (lit "cow") = 2 := by decide
  have g3 : findCardByTerm threeStore (lit "dog") = 1 := by decide
  obtain rfl : k1 = 0 := by omega
  obtain rfl : k2 = 2 := by omega
  obtain rfl : k3 = 1 := by omega
  exact ⟨⟨_, r1, rfl⟩, ⟨_, r2, rfl⟩, ⟨_, r3, rfl⟩⟩

/-! ## Resetting the statistics -/

theorem resetFrom_append :
    ∀ (post pre : List Card),
      resetFrom (pre ++ post) pre.length post.length = pre ++ post.map Card.cleared := by
  intro post
  induction post with
  | nil => intro pre; simp [resetFrom]
  | cons c post ih =>
    intro pre
    have hget : (pre ++ c :: post).get? pre.length = some c := by
      rw [List.get?_eq_getElem?, List.getElem?_append_right (le_refl _)]
      simp
    have hset : (pre ++ c :: post).set pre.length { c with Mistakes := 0 }
        = (pre ++ [Card.cleared c]) ++ post := by
      simp [Card.cleared]
    have hlen : pre.length + 1 = (pre ++ [Card.cleared c]).length := by simp
    simp only [List.length_cons, resetFrom, hget, hset]
    rw [hlen, ih (pre ++ [Card.cleared c])]
    simp

/-- C8: `resetStatsHandler` always returns; the new store is the old one with
every `Mistakes` field set to 0, so every count is 0 and the length, the terms
and the definitions are as before, in the same order. -/
theorem C8_reset_stats (a : App) :
    resetStatsHandler a = some
      { a with cards := a.cards.map Card.cleared,
               stdout := a.stdout ++ [lit "Card statistics have been reset.\n"],
               appLog := a.appLog ++ [lit "Card statistics have been reset.\n"] } ∧
    (∀ c ∈ a.cards.map Card.cleared, c.Mistakes = 0) ∧
    (a.cards.map Card.cleared).length = a.cards.length ∧
    (a.cards.map Card.cleared).map Card.Term = a.cards.map Card.Term ∧
    (a.cards.map Card.cleared).map Card.Definition = a.cards.map Card.Definition ∧
    (∀ (i : Nat) (c : Card), a.cards[i]? = some c →
      (a.cards.map Card.cleared)[i]? = some { Term := c.Term, Definition := c.Definition,
                                              Mistakes := 0 }) := by
  refine ⟨?_, ?_, ?_, ?_, ?_, ?_⟩
  · have h1 : lit "Card statistics have been reset." ≠ [] := by decide
    have e1 : lit "Card statistics have been reset." ++ [10]
        = lit "Card statistics have been reset.\n" := by decide
    have e2 : logLine (lit "Card statistics have been reset.")
        = lit "Card statistics have been reset.\n" := by decide
    have hreset : resetFrom a.cards 0 a.cards.length = a.cards.map Card.cleared := by
      simpa using resetFrom_append a.cards []
    simp [resetStatsHandler, Println_of_ne_nil _ h1, hreset, e1, e2]
  · intro c hc
    obtain ⟨d, -, rfl⟩ := List.mem_map.1 hc
    rfl
  · simp
  · simp [Card.cleared, Function.comp_def]
  · simp [Card.cleared, Function.comp_def]
  · intro i c hc
    simp [hc, Card.cleared]

/-! ## The add flow -/

theorem logLine_append_newline (s : GoString) {t : GoString} (h : t.getLast? = some 10) :
    logLine (s ++ t) = s ++ t := by
  simp [logLine, List.getLast?_append, h]

theorem findCardByTerm_ne_notFound_iff (a : App) (t : GoString) :
    notFound ≠ findCardByTerm a t ↔ ∃ c ∈ a.cards, c.Term = t := by
  unfold findCardByTerm
  rcases findTermFrom_cases t a.cards 0 with ⟨h1, h2⟩ | ⟨k, c, hk, hc, -, hfind⟩
  · constructor
    · intro h; exact absurd h1.symm h
    · rintro ⟨c, hc, ht⟩; exact absurd ht (h2 c hc)
  · constructor
    · intro _; exact ⟨c, List.getElem?_mem hk, hc⟩
    · intro _
      rw [hfind]
      unfold notFound
      omega

theorem termExistsMsg_ne_nil (t : GoString) : termExistsMsg t ≠ [] := by
  unfold termExistsMsg
  rw [List.append_assoc]
  exact lit_append_ne_nil (by decide) _

theorem logLine_termExistsMsg (t : GoString) : logLine (termExistsMsg t) = termExistsMsg t :=
  logLine_append_newline _ (by decide)

theorem addTermLoop_cons (a : App) (line : GoString) (input : List GoString)
    (h : line ≠ []) :
    addTermLoop a (line :: input) =
      if notFound ≠ findCardByTerm a (TrimSpace line) then
        addTermLoop { a with stdout := a.stdout ++ [termExistsMsg (TrimSpace line)],
                             appLog := a.appLog ++ [logLine line, termExistsMsg (TrimSpace line)] }
          input
      else some (TrimSpace line, { a with appLog := a.appLog ++ [logLine line] }, input) := by
  have hfind : findCardByTerm { a with appLog := a.appLog ++ [logLine line] } (TrimSpace line)
      = findCardByTerm a (TrimSpace line) := rfl
  simp only [addTermLoop, writeLog_of_ne_nil a h, hfind,
    Printf_of_ne_nil _ (termExistsMsg_ne_nil _), logLine_termExistsMsg, List.append_assoc,
    List.singleton_append]

theorem addTermLoop_append :
    ∀ (pre : List GoString) (a : App) (t : GoString) (rest : List GoString),
      (∀ l ∈ pre, l ≠ [] ∧ ∃ c ∈ a.cards, c.Term = TrimSpace l) → t ≠ [] →
      (∀ c ∈ a.cards, c.Term ≠ TrimSpace t) →
      addTermLoop a (pre ++ t :: rest) = some (TrimSpace t,
        { a with stdout := a.stdout ++ pre.map fun l => termExistsMsg (TrimSpace l),
                 appLog := a.appLog
                   ++ pre.flatMap (fun l => [logLine l, termExistsMsg (TrimSpace l)])
                   ++ [logLine t] }, rest) := by
  intro pre
  induction pre with
  | nil =>
    intro a t rest _ ht hfresh
    have hnot : ¬ notFound ≠ findCardByTerm a (TrimSpace t) := by
      rw [findCardByTerm_ne_notFound_iff]
      rintro ⟨c, hc, hEq⟩
      exact hfresh c hc hEq
    rw [List.nil_append, addTermLoop_cons a t rest ht, if_neg hnot]
    simp
  | cons l pre ih =>
    intro a t rest hpre ht hfresh
    obtain ⟨hl, hex⟩ := hpre l (List.mem_cons_self _ _)
    rw [List.cons_append, addTermLoop_cons a l _ hl,
      if_pos ((findCardByTerm_ne_notFound_iff _ _).2 hex),
      ih { a with stdout := a.stdout ++ [termExistsMsg (TrimSpace l)],
                  appLog := a.appLog ++ [logLine l, termExistsMsg (TrimSpace l)] } t rest
        (fun l' hl' => hpre l' (List.mem_cons_of_mem _ hl')) ht hfresh]
    simp

theorem addTermLoop_inv :
    ∀ (input : List GoString) (a : App) (term : GoString) (a' : App) (rest : List GoString),
      addTermLoop a input = some (term, a', rest) →
      ∃ pre t, input = pre ++ t :: rest ∧ term = TrimSpace t ∧
        (∀ l ∈ pre, l ≠ [] ∧ ∃ c ∈ a.cards, c.Term = TrimSpace l) ∧ t ≠ [] ∧
        (∀ c ∈ a.cards, c.Term ≠ TrimSpace t) := by
  intro input
  induction input with
  | nil => intro a term a' rest h; simp [addTermLoop] at h
  | cons line input ih =>
    intro a term a' rest h
    by_cases hline : line = []
    · subst hline
      simp [addTermLoop, writeLog_nil] at h
    · rw [addTermLoop_cons a line input hline] at h
      split_ifs at h with hfound
      · obtain ⟨pre, t, hin, hterm, hpre, ht, hfresh⟩ := ih _ term a' rest h
        refine ⟨line :: pre, t, by simp [hin], hterm, ?_, ht, hfresh⟩
        intro l hl
        rcases List.mem_cons.1 hl with rfl | hl
        · exact ⟨hline, (findCardByTerm_ne_notFound_iff _ _).1 hfound⟩
        · exact hpre l hl
      · simp only [Option.some.injEq, Prod.mk.injEq] at h
        obtain ⟨rfl, -, rfl⟩ := h
        refine ⟨[], line, rfl, rfl, by simp, hline, ?_⟩
        intro c hc hEq
        exact hfound ((findCardByTerm_ne_notFound_iff _ _).2 ⟨c, hc, hEq⟩)

theorem findCardByDefinition_ne_notFound_iff (a : App) (t : GoString) :
    notFound ≠ findCardByDefinition a t ↔ ∃ c ∈ a.cards, c.Definition = t := by
  unfold findCardByDefinition
  rcases findDefinitionFrom_cases t a.cards 0 with ⟨h1, h2⟩ | ⟨k, c, hk, hc, -, hfind⟩
  · constructor
    · intro h; exact absurd h1.symm h
    · rintro ⟨c, hc, ht⟩; exact absurd ht (h2 c hc)
  · constructor
    · intro _; exact ⟨c, List.getElem?_mem hk, hc⟩
    · intro _
      rw [hfind]
      unfold notFound
      omega

theorem definitionExistsMsg_ne_nil (t : GoString) : definitionExistsMsg t ≠ [] := by
  unfold definitionExistsMsg
  rw [List.append_assoc]
  exact lit_append_ne_nil (by decide) _

theorem logLine_definitionExistsMsg (t : GoString) : logLine (definitionExistsMsg t) = definitionExistsMsg t :=
  logLine_append_newline _ (by decide)

theorem addDefinitionLoop_cons (a : App) (line : GoString) (input : List GoString)
    (h : line ≠ []) :
    addDefinitionLoop a (line :: input) =
      if notFound ≠ findCardByDefinition a (TrimSpace line) then
        addDefinitionLoop
          { a with stdout := a.stdout ++ [definitionExistsMsg (TrimSpace line)],
                   appLog := a.appLog ++ [logLine line, definitionExistsMsg (TrimSpace line)] }
          input
      else some (TrimSpace line, { a with appLog := a.appLog ++ [logLine line] }, input) := by
  have hfind : findCardByDefinition { a with appLog := a.appLog ++ [logLine line] }
      (TrimSpace line) = findCardByDefinition a (TrimSpace line) := rfl
  simp only [addDefinitionLoop, writeLog_of_ne_nil a h, hfind,
    Printf_of_ne_nil _ (definitionExistsMsg_ne_nil _), logLine_definitionExistsMsg, List.append_assoc,
    List.singleton_append]

theorem addDefinitionLoop_append :
    ∀ (pre : List GoString) (a : App) (t : GoString) (rest : List GoString),
      (∀ l ∈ pre, l ≠ [] ∧ ∃ c ∈ a.cards, c.Definition = TrimSpace l) → t ≠ [] →
      (∀ c ∈ a.cards, c.Definition ≠ TrimSpace t) →
      addDefinitionLoop a (pre ++ t :: rest) = some (TrimSpace t,
        { a with stdout := a.stdout ++ pre.map fun l => definitionExistsMsg (TrimSpace l),
                 appLog := a.appLog
                   ++ pre.flatMap (fun l => [logLine l, definitionExistsMsg (TrimSpace l)])
                   ++ [logLine t] }, rest) := by
  intro pre
  induction pre with
  | nil =>
    intro a t rest _ ht hfresh
    have hnot : ¬ notFound ≠ findCardByDefinition a (TrimSpace t) := by
      rw [findCardByDefinition_ne_notFound_iff]
      rintro ⟨c, hc, hEq⟩
      exact hfresh c hc hEq
    rw [List.nil_append, addDefinitionLoop_cons a t rest ht, if_neg hnot]
    simp
  | cons l pre ih =>
    intro a t rest hpre ht hfresh
    obtain ⟨hl, hex⟩ := hpre l (List.mem_cons_self _ _)
    rw [List.cons_append, addDefinitionLoop_cons a l _ hl,
      if_pos ((findCardByDefinition_ne_notFound_iff _ _).2 hex),
      ih { a with stdout := a.stdout ++ [definitionExistsMsg (TrimSpace l)],
                  appLog := a.appLog ++ [logLine l, definitionExistsMsg (TrimSpace l)] } t rest
        (fun l' hl' => hpre l' (List.mem_cons_of_mem _ hl')) ht hfresh]
    simp

theorem addDefinitionLoop_inv :
    ∀ (input : List GoString) (a : App) (term : GoString) (a' : App) (rest : List GoString),
      addDefinitionLoop a input = some (term, a', rest) →
      ∃ pre t, input = pre ++ t :: rest ∧ term = TrimSpace t ∧
        (∀ l ∈ pre, l ≠ [] ∧ ∃ c ∈ a.cards, c.Definition = TrimSpace l) ∧ t ≠ [] ∧
        (∀ c ∈ a.cards, c.Definition ≠ TrimSpace t) := by
  intro input
  induction input with
  | nil => intro a term a' rest h; simp [addDefinitionLoop] at h
  | cons line input ih =>
    intro a term a' rest h
    by_cases hline : line = []
    · subst hline
      simp [addDefinitionLoop, writeLog_nil] at h
    · rw [addDefinitionLoop_cons a line input hline] at h
      split_ifs at h with hfound
      · obtain ⟨pre, t, hin, hterm, hpre, ht, hfresh⟩ := ih _ term a' rest h
        refine ⟨line :: pre, t, by simp [hin], hterm, ?_, ht, hfresh⟩
        intro l hl
        rcases List.mem_cons.1 hl with rfl | hl
        · exact ⟨hline, (findCardByDefinition_ne_notFound_iff _ _).1 hfound⟩
        · exact hpre l hl
      · simp only [Option.some.injEq, Prod.mk.injEq] at h
        obtain ⟨rfl, -, rfl⟩ := h
        refine ⟨[], line, rfl, rfl, by simp, hline, ?_⟩
        intro c hc hEq
        exact hfound ((findCardByDefinition_ne_notFound_iff _ _).2 ⟨c, hc, hEq⟩)

theorem addedMsg_ne_nil (t d : GoString) : addedMsg t d ≠ [] := by
  unfold addedMsg
  rw [List.append_assoc, List.append_assoc, List.append_assoc]
  exact lit_append_ne_nil (by decide) _

theorem logLine_addedMsg (t d : GoString) : logLine (addedMsg t d) = addedMsg t d :=
  logLine_append_newline _ (by decide)

theorem addHandler_of_split (a : App) (pre mid rest : List GoString) (t d : GoString)
    (hpre : ∀ l ∈ pre, l ≠ [] ∧ ∃ c ∈ a.cards, c.Term = TrimSpace l) (ht : t ≠ [])
    (hfresh : ∀ c ∈ a.cards, c.Term ≠ TrimSpace t)
    (hmid : ∀ l ∈ mid, l ≠ [] ∧ ∃ c ∈ a.cards, c.Definition = TrimSpace l) (hd : d ≠ [])
    (hdfresh : ∀ c ∈ a.cards, c.Definition ≠ TrimSpace d) :
    addHandler a (pre ++ t :: (mid ++ d :: rest)) = some
      ({ a with
          cards := a.cards ++ [{ Term := TrimSpace t, Definition := TrimSpace d, Mistakes := 0 }],
          stdout := a.stdout ++ [lit "The card:\n"]
            ++ pre.map (fun l => termExistsMsg (TrimSpace l))
            ++ [lit "The definition of the card:\n"]
            ++ mid.map (fun l => definitionExistsMsg (TrimSpace l))
            ++ [addedMsg (TrimSpace t) (TrimSpace d)],
          appLog := a.appLog ++ [lit "The card:\n"]
            ++ pre.flatMap (fun l => [logLine l, termExistsMsg (TrimSpace l)])
            ++ [logLine t, lit "The definition of the card:\n"]
            ++ mid.flatMap (fun l => [logLine l, definitionExistsMsg (TrimSpace l)])
            ++ [logLine d, addedMsg (TrimSpace t) (TrimSpace d)] }, rest) := by
  have h1 : lit "The card:" ≠ [] := by decide
  have h2 : lit "The definition of the card:" ≠ [] := by decide
  have e1 : lit "The card:" ++ [10] = lit "The card:\n" := by decide
  have e2 : logLine (lit "The card:") = lit "The card:\n" := by decide
  have e3 : lit "The definition of the card:" ++ [10] = lit "The definition of the card:\n" := by
    decide
  have e4 : logLine (lit "The definition of the card:") = lit "The definition of the card:\n" := by
    decide
  unfold addHandler
  rw [Println_of_ne_nil a h1]
  simp only [Option.bind_eq_bind, Option.some_bind]
  rw [addTermLoop_append pre
    { a with stdout := a.stdout ++ [lit "The card:" ++ [10]],
             appLog := a.appLog ++ [logLine (lit "The card:")] } t _ hpre ht hfresh]
  simp only [Option.some_bind]
  rw [Println_of_ne_nil _ h2]
  simp only [Option.some_bind]
  rw [addDefinitionLoop_append mid
    { a with
        stdout := a.stdout ++ [lit "The card:" ++ [10]]
          ++ pre.map (fun l => termExistsMsg (TrimSpace l))
          ++ [lit "The definition of the card:" ++ [10]],
        appLog := a.appLog ++ [logLine (lit "The card:")]
          ++ pre.flatMap (fun l => [logLine l, termExistsMsg (TrimSpace l)]) ++ [logLine t]
          ++ [logLine (lit "The definition of the card:")] } d rest hmid hd hdfresh]
  simp only [Option.some_bind]
  rw [Printf_of_ne_nil _ (addedMsg_ne_nil _ _)]
  simp [e1, e2, e3, e4, logLine_addedMsg]

theorem addTermLoop_cards (a : App) (input : List GoString) (term : GoString) (a' : App)
    (rest : List GoString) (h : addTermLoop a input = some (term, a', rest)) :
    a'.cards = a.cards := by
  obtain ⟨pre, t, hin, -, hpre, ht, hfresh⟩ := addTermLoop_inv input a term a' rest h
  rw [hin, addTermLoop_append pre a t rest hpre ht hfresh] at h
  simp only [Option.some.injEq, Prod.mk.injEq] at h
  rw [← h.2.1]

theorem addDefinitionLoop_cards (a : App) (input : List GoString) (definition : GoString)
    (a' : App) (rest : List GoString)
    (h : addDefinitionLoop a input = some (definition, a', rest)) : a'.cards = a.cards := by
  obtain ⟨pre, t, hin, -, hpre, ht, hfresh⟩ := addDefinitionLoop_inv input a definition a' rest h
  rw [hin, addDefinitionLoop_append pre a t rest hpre ht hfresh] at h
  simp only [Option.some.injEq, Prod.mk.injEq] at h
  rw [← h.2.1]

/-- C1: the two loops of `addHandler` never change the store, and `addHandler`
returns exactly when the input lines split as rejected term lines (each
non-empty, its trimmed value an existing term), an accepted term line,
rejected definition lines (each non-empty, its trimmed value an existing
definition), an accepted definition line, and the unread rest.  It then has
printed one retry message per rejected line, and the store is the previous
store with the one card (trimmed accepted term, trimmed accepted definition,
0 mistakes) appended at the end. -/
theorem C1_add_flow (a : App) (input : List GoString) :
    (∀ term a1 rest, addTermLoop a input = some (term, a1, rest) → a1.cards = a.cards) ∧
    (∀ definition a1 rest,
      addDefinitionLoop a input = some (definition, a1, rest) → a1.cards = a.cards) ∧
    (∀ a' rest, addHandler a input = some (a', rest) ↔
      ∃ (pre mid : List GoString) (t d : GoString),
        input = pre ++ t :: (mid ++ d :: rest) ∧
        (∀ l ∈ pre, l ≠ [] ∧ ∃ c ∈ a.cards, c.Term = TrimSpace l) ∧
        t ≠ [] ∧ (∀ c ∈ a.cards, c.Term ≠ TrimSpace t) ∧
        (∀ l ∈ mid, l ≠ [] ∧ ∃ c ∈ a.cards, c.Definition = TrimSpace l) ∧
        d ≠ [] ∧ (∀ c ∈ a.cards, c.Definition ≠ TrimSpace d) ∧
        a' = { a with
          cards := a.cards
            ++ [{ Term := TrimSpace t, Definition := TrimSpace d, Mistakes := 0 }],
          stdout := a.stdout ++ [lit "The card:\n"]
            ++ pre.map (fun l => termExistsMsg (TrimSpace l))
            ++ [lit "The definition of the card:\n"]
            ++ mid.map (fun l => definitionExistsMsg (TrimSpace l))
            ++ [addedMsg (TrimSpace t) (TrimSpace d)],
          appLog := a.appLog ++ [lit "The card:\n"]
            ++ pre.flatMap (fun l => [logLine l, termExistsMsg (TrimSpace l)])
            ++ [logLine t, lit "The definition of the card:\n"]
            ++ mid.flatMap (fun l => [logLine l, definitionExistsMsg (TrimSpace l)])
            ++ [logLine d, addedMsg (TrimSpace t) (TrimSpace d)] }) := by
  refine ⟨fun term a1 rest h => addTermLoop_cards a input term a1 rest h,
    fun d a1 rest h => addDefinitionLoop_cards a input d a1 rest h, fun a' rest => ⟨?_, ?_⟩⟩
  · intro h
    have h0 := h
    have h1 : lit "The card:" ≠ [] := by decide
    have h2 : lit "The definition of the card:" ≠ [] := by decide
    unfold addHandler at h
    rw [Println_of_ne_nil a h1] at h
    simp only [Option.bind_eq_bind, Option.some_bind, Option.bind_eq_some] at h
    obtain ⟨⟨term, a2, in2⟩, hT, a3, hP, ⟨definition, a4, in3⟩, hD, -⟩ := h
    rw [Println_of_ne_nil _ h2] at hP
    obtain rfl := Option.some.inj hP
    have hc2 := addTermLoop_cards _ _ _ _ _ hT
    simp only at hc2
    obtain ⟨pre, t, hin, -, hpre, ht, hfresh⟩ := addTermLoop_inv _ _ _ _ _ hT
    obtain ⟨mid, d, hin2, -, hmid, hd, hdfresh⟩ := addDefinitionLoop_inv _ _ _ _ _ hD
    simp only [hc2] at hmid hdfresh
    simp only at hin2
    have hrun := addHandler_of_split a pre mid in3 t d hpre ht hfresh hmid hd hdfresh
    rw [← hin2, ← hin, h0] at hrun
    simp only [Option.some.injEq, Prod.mk.injEq] at hrun
    obtain ⟨rfl, rfl⟩ := hrun
    exact ⟨pre, mid, t, d, by rw [hin, hin2], hpre, ht, hfresh, hmid, hd, hdfresh, rfl⟩
  · rintro ⟨pre, mid, t, d, rfl, hpre, ht, hfresh, hmid, hd, hdfresh, rfl⟩
    exact addHandler_of_split a pre mid rest t d hpre ht hfresh hmid hd hdfresh

/-- With the cards cat and dog in the store, the term "cat" and the definition
"bark" are rejected once each, and the card (cow, moo) is appended. -/
theorem C1_add_flow_witness :
    ∃ a', addHandler petStore [lit "cat\n", lit " cow \n", lit "bark\n", lit "moo\n", lit "x\n"]
        = some (a', [lit "x\n"]) ∧
      a'.cards = petStore.cards ++ [{ Term := lit "cow", Definition := lit "moo", Mistakes := 0 }] ∧
      a'.stdout = [lit "The card:\n", lit "The term \"cat\" already exists. Try again:\n",
        lit "The definition of the card:\n",
        lit "The definition \"bark\" already exists. Try again:\n",
        lit "The pair (\"cow\":\"moo\") has been added.\n"] := by
  refine ⟨_, ((C1_add_flow petStore _).2.2 _ [lit "x\n"]).2
    ⟨[lit "cat\n"], [lit "bark\n"], lit " cow \n", lit "moo\n", rfl, ?_, by decide, by decide, ?_,
      by decide, by decide, rfl⟩, by decide, by decide⟩
  · intro l hl
    obtain rfl := List.mem_singleton.1 hl
    exact ⟨by decide, by decide⟩
  · intro l hl
    obtain rfl := List.mem_singleton.1 hl
    exact ⟨by decide, by decide⟩

/-! ## The quiz round -/

theorem findDefinitionFrom_congr (t : GoString) :
    ∀ (cs cs' : List Card) (i : Int), cs.map Card.Definition = cs'.map Card.Definition →
      findDefinitionFrom t cs i = findDefinitionFrom t cs' i := by
  intro cs
  induction cs with
  | nil =>
    intro cs' i h
    cases cs' with
    | nil => rfl
    | cons _ _ => simp at h
  | cons c cs ih =>
    intro cs' i h
    cases cs' with
    | nil => simp at h
    | cons c' cs' =>
      simp only [List.map_cons, List.cons.injEq] at h
      simp only [findDefinitionFrom, h.1, ih cs' (i + 1) h.2]

theorem map_Definition_set (cs : List Card) (i : Nat) (c : Card) (m : Int)
    (h : cs[i]? = some c) :
    (cs.set i { c with Mistakes := m }).map Card.Definition = cs.map Card.Definition := by
  apply List.ext_getElem?
  intro j
  by_cases hj : i = j
  · subst hj
    have hlt : i < cs.length := by
      by_contra hge
      rw [List.getElem?_eq_none (by omega)] at h
      exact Option.noConfusion h
    have hc : cs[i] = c := by
      rw [List.getElem?_eq_getElem hlt] at h
      exact Option.some.inj h
    simp [List.getElem?_map, hlt, hc]
  · simp [List.getElem?_map, List.getElem?_set_ne hj]

theorem askMsg_ne_nil (t : GoString) : askMsg t ≠ [] := by
  unfold askMsg
  rw [List.append_assoc]
  exact lit_append_ne_nil (by decide) _

theorem logLine_askMsg (t : GoString) : logLine (askMsg t) = askMsg t :=
  logLine_append_newline _ (by decide)

theorem wrongMsg_ne_nil (d : GoString) : wrongMsg d ≠ [] := by
  unfold wrongMsg
  rw [List.append_assoc]
  exact lit_append_ne_nil (by decide) _

theorem logLine_wrongMsg (d : GoString) : logLine (wrongMsg d) = wrongMsg d :=
  logLine_append_newline _ (by decide)

theorem wrongButMsg_ne_nil (d t : GoString) : wrongButMsg d t ≠ [] := by
  unfold wrongButMsg
  rw [List.append_assoc, List.append_assoc, List.append_assoc]
  exact lit_append_ne_nil (by decide) _

theorem logLine_wrongButMsg (d t : GoString) : logLine (wrongButMsg d t) = wrongButMsg d t :=
  logLine_append_newline _ (by decide)

theorem askRound_correct (a : App) (i : Nat) (c : Card) (line : GoString)
    (h : a.cards[i]? = some c) (hline : line ≠ []) (heq : TrimSpace line = c.Definition) :
    askRound a i line = some
      { a with stdout := a.stdout ++ [askMsg c.Term, lit "Correct!\n"],
               appLog := a.appLog ++ [askMsg c.Term, logLine line, lit "Correct!\n"] } := by
  have h1 : lit "Correct!" ≠ [] := by decide
  have e1 : lit "Correct!" ++ [10] = lit "Correct!\n" := by decide
  have e2 : logLine (lit "Correct!") = lit "Correct!\n" := by decide
  simp [askRound, h, Printf_of_ne_nil _ (askMsg_ne_nil _), writeLog_of_ne_nil _ hline, heq,
    Println_of_ne_nil _ h1, logLine_askMsg, e1, e2]

theorem askRound_wrong (a : App) (i : Nat) (c : Card) (line : GoString)
    (h : a.cards[i]? = some c) (hline : line ≠ []) (hne : TrimSpace line ≠ c.Definition) :
    ∃ reply : GoString,
      askRound a i line = some
        { a with cards := a.cards.set i { c with Mistakes := wrapInt (c.Mistakes + 1) },
                 stdout := a.stdout ++ [askMsg c.Term, reply],
                 appLog := a.appLog ++ [askMsg c.Term, logLine line, reply] } ∧
      ((∀ d ∈ a.cards, d.Definition ≠ TrimSpace line) → reply = wrongMsg c.Definition) ∧
      ((∃ d ∈ a.cards, d.Definition = TrimSpace line) →
        ∃ (n : Nat) (o : Card), a.cards[n]? = some o ∧ n ≠ i ∧ o.Definition = TrimSpace line ∧
          (∀ (j : Nat) (d : Card), j < n → a.cards[j]? = some d →
            d.Definition ≠ TrimSpace line) ∧
          reply = wrongButMsg c.Definition o.Term) := by
  have hfind : findDefinitionFrom (TrimSpace line)
      (a.cards.set i { c with Mistakes := wrapInt (c.Mistakes + 1) }) 0
      = findDefinitionFrom (TrimSpace line) a.cards 0 :=
    findDefinitionFrom_congr _ _ _ 0 (map_Definition_set a.cards i c _ h)
  rcases findDefinitionFrom_cases (TrimSpace line) a.cards 0 with
    ⟨hnf, habs⟩ | ⟨k, o, hk, ho, hfirst, hk0⟩
  · refine ⟨wrongMsg c.Definition, ?_, fun _ => rfl, ?_⟩
    · simp [askRound, h, Printf_of_ne_nil _ (askMsg_ne_nil _), writeLog_of_ne_nil _ hline, hne,
        incrementMistakes, findCardByDefinition, hfind, hnf,
        Printf_of_ne_nil _ (wrongMsg_ne_nil _), logLine_askMsg, logLine_wrongMsg]
    · rintro ⟨d, hd, hEq⟩
      exact absurd hEq (habs d hd)
  · have hki : k ≠ i := by
      rintro rfl
      rw [h] at hk
      obtain rfl := Option.some.inj hk
      exact hne ho.symm
    have hk0' : findDefinitionFrom (TrimSpace line) a.cards 0 = (k : Int) := by simpa using hk0
    have hknf : ¬ ((k : Int) = notFound) := by
      unfold notFound
      omega
    have hget : (a.cards.set i { c with Mistakes := wrapInt (c.Mistakes + 1) })[k]? = some o := by
      rw [List.getElem?_set_ne (Ne.symm hki), hk]
    refine ⟨wrongButMsg c.Definition o.Term, ?_, ?_, fun _ => ⟨k, o, hk, hki, ho, hfirst, rfl⟩⟩
    · simp [askRound, h, Printf_of_ne_nil _ (askMsg_ne_nil _), writeLog_of_ne_nil _ hline, hne,
        incrementMistakes, findCardByDefinition, hfind, hk0', hknf, hget,
        Printf_of_ne_nil _ (wrongButMsg_ne_nil _ _), logLine_askMsg, logLine_wrongButMsg]
    · intro habs
      exact absurd ho (habs o (List.getElem?_mem hk))

theorem wrapInt_of_lt_maxInt (m : Int) (h1 : minInt ≤ m) (h2 : m < maxInt) :
    wrapInt (m + 1) = m + 1 := by
  unfold minInt at h1
  unfold maxInt at h2
  unfold wrapInt
  omega

/-- A wrong answer to a card whose count is the largest `int`: the count
becomes the smallest `int`, not the count plus one. -/
theorem C4_counterexample :
    maxedStore.cards[0]? = some { Term := lit "a", Definition := lit "b", Mistakes := maxInt } ∧
    TrimSpace (lit "x\n") ≠ lit "b" ∧
    (askRound maxedStore 0 (lit "x\n")).map App.cards
      = some [{ Term := lit "a", Definition := lit "b", Mistakes := minInt }] ∧
    minInt ≠ maxInt + 1 := by
  decide

/-- C4 (amended): for a card `c` at index `i` and a non-empty answer line, one
quiz round returns.  If the trimmed answer is the definition of `c` it prints
the question and "Correct!" and the store is unchanged.  Otherwise only the
mistake count of card `i` changes, to the wrapped successor of its old value:
the old value plus one when that is below the largest `int`, the smallest
`int` when it is the largest. -/
theorem C4_quiz_round (a : App) (i : Nat) (c : Card) (line : GoString)
    (h : a.cards[i]? = some c) (hline : line ≠ []) :
    (TrimSpace line = c.Definition →
      askRound a i line = some
        { a with stdout := a.stdout ++ [askMsg c.Term, lit "Correct!\n"],
                 appLog := a.appLog ++ [askMsg c.Term, logLine line, lit "Correct!\n"] }) ∧
    (TrimSpace line ≠ c.Definition →
      ∃ a', askRound a i line = some a' ∧
        a'.cards = a.cards.set i { c with Mistakes := wrapInt (c.Mistakes + 1) } ∧
        a'.cards.length = a.cards.length ∧
        a'.cards[i]? = some { Term := c.Term, Definition := c.Definition,
                              Mistakes := wrapInt (c.Mistakes + 1) } ∧
        (∀ j, j ≠ i → a'.cards[j]? = a.cards[j]?) ∧
        lit "Correct!\n" ∉ a'.stdout.drop a.stdout.length) ∧
    (minInt ≤ c.Mistakes → c.Mistakes < maxInt → wrapInt (c.Mistakes + 1) = c.Mistakes + 1) ∧
    (c.Mistakes = maxInt → wrapInt (c.Mistakes + 1) = minInt) := by
  refine ⟨askRound_correct a i c line h hline, fun hne => ?_, wrapInt_of_lt_maxInt _, ?_⟩
  · obtain ⟨reply, hrun, hno, hyes⟩ := askRound_wrong a i c line h hline hne
    have hlt : i < a.cards.length := by
      by_contra hge
      rw [List.getElem?_eq_none (by omega)] at h
      exact Option.noConfusion h
    refine ⟨_, hrun, rfl, by simp, by simp [hlt], fun j hj => ?_, ?_⟩
    · exact List.getElem?_set_ne (Ne.symm hj)
    · have e1 : lit "Correct!\n" = 67 :: lit "orrect!\n" := by decide
      have e2 : lit "Print the definition of \"" = 80 :: lit "rint the definition of \"" := by
        decide
      have e3 : lit "Wrong. The right answer is \"" = 87 :: lit "rong. The right answer is \"" := by
        decide
      have hask : lit "Correct!\n" ≠ askMsg c.Term := by
        rw [askMsg, e1, e2]
        simp
      have hreply : lit "Correct!\n" ≠ reply := by
        by_cases hex : ∃ d ∈ a.cards, d.Definition = TrimSpace line
        · obtain ⟨n, o, -, -, -, -, rfl⟩ := hyes hex
          rw [wrongButMsg, e1, e3]
          simp
        · rw [hno (fun d hd hEq => hex ⟨d, hd, hEq⟩), wrongMsg, e1, e3]
          simp
      simp [hask, hreply]
  · intro hmax
    rw [hmax]
    decide

/-- Asking about cat in the two-card store: the answer "meow" is correct and
changes nothing; the answer "woof" raises the count of cat from 0 to 1. -/
theorem C4_quiz_round_witness :
    (∃ a', askRound petStore 0 (lit "meow\n") = some a' ∧ a'.cards = petStore.cards) ∧
    (∃ a', askRound petStore 0 (lit "woof\n") = some a' ∧
      a'.cards = [{ Term := lit "cat", Definition := lit "meow", Mistakes := 1 },
                  { Term := lit "dog", Definition := lit "bark", Mistakes := 0 }]) := by
  have h := C4_quiz_round petStore 0
    { Term := lit "cat", Definition := lit "meow", Mistakes := 0 }
  refine ⟨⟨_, (h (lit "meow\n") (by decide) (by decide)).1 (by decide), rfl⟩, ?_⟩
  obtain ⟨a', hrun, hcards, -⟩ := (h (lit "woof\n") (by decide) (by decide)).2.1 (by decide)
  exact ⟨a', hrun, by rw [hcards]; decide⟩

/-- C5: for a card `c` at index `i` and a non-empty answer line whose trimmed
value differs from the definition of `c`, the round returns and its output is
the question followed by one reply.  If some card has the answer as its
definition, the reply is the "Wrong ... but your definition is correct for"
message with the definition of `c` and the term of the first such card, which
is not card `i`; if no card has it, the reply is the plain "Wrong" message with
the definition of `c`. -/
theorem C5_wrong_answer (a : App) (i : Nat) (c : Card) (line : GoString)
    (h : a.cards[i]? = some c) (hline : line ≠ []) (hne : TrimSpace line ≠ c.Definition) :
    ((∃ d ∈ a.cards, d.Definition = TrimSpace line) →
      ∃ (n : Nat) (o : Card) (a' : App), a.cards[n]? = some o ∧ n ≠ i ∧
        o.Definition = TrimSpace line ∧
        (∀ (j : Nat) (d : Card), j < n → a.cards[j]? = some d → d.Definition ≠ TrimSpace line) ∧
        askRound a i line = some a' ∧
        a'.stdout = a.stdout ++ [askMsg c.Term, wrongButMsg c.Definition o.Term]) ∧
    ((∀ d ∈ a.cards, d.Definition ≠ TrimSpace line) →
      ∃ a', askRound a i line = some a' ∧
        a'.stdout = a.stdout ++ [askMsg c.Term, wrongMsg c.Definition]) := by
  obtain ⟨reply, hrun, hno, hyes⟩ := askRound_wrong a i c line h hline hne
  constructor
  · intro hex
    obtain ⟨n, o, hn, hni, ho, hfirst, rfl⟩ := hyes hex
    exact ⟨n, o, _, hn, hni, ho, hfirst, hrun, rfl⟩
  · intro habs
    rw [hno habs] at hrun
    exact ⟨_, hrun, rfl⟩

/-- Cards (cat, meow) and (dog, bark): asked about cat, the answer "bark" is
wrong and the reply names dog; the answer "woof" is wrong and names no card. -/
theorem C5_wrong_answer_witness :
    (∃ a', askRound petStore 0 (lit "bark\n") = some a' ∧
      a'.stdout = [lit "Print the definition of \"cat\"\n",
        lit "Wrong. The right answer is \"meow\", but your definition is correct for \"dog\".\n"]) ∧
    (∃ a', askRound petStore 0 (lit "woof\n") = some a' ∧
      a'.stdout = [lit "Print the definition of \"cat\"\n",
        lit "Wrong. The right answer is \"meow\".\n"]) := by
  have h := C5_wrong_answer petStore 0
    { Term := lit "cat", Definition := lit "meow", Mistakes := 0 }
  obtain ⟨n, o, a', hn, -, ho, -, hrun, hout⟩ :=
    (h (lit "bark\n") (by decide) (by decide) (by decide)).1 (by decide)
  obtain ⟨a'', hrun', hout'⟩ :=
    (h (lit "woof\n") (by decide) (by decide) (by decide)).2 (by decide)
  refine ⟨⟨a', hrun, ?_⟩, ⟨a'', hrun', by rw [hout']; decide⟩⟩
  have hrun0 : (askRound petStore 0 (lit "bark\n")).map App.stdout
      = some [lit "Print the definition of \"cat\"\n",
        lit "Wrong. The right answer is \"meow\", but your definition is correct for \"dog\".\n"] := by
    set_option maxRecDepth 4000 in decide
  rw [hrun] at hrun0
  exact Option.some.inj hrun0

/-! ## The hardest card -/

theorem maxFold_spec :
    ∀ (cs : List Card) (m : Int),
      m ≤ cs.foldl (fun max card => if card.Mistakes > max then card.Mistakes else max) m ∧
      (∀ c ∈ cs, c.Mistakes
        ≤ cs.foldl (fun max card => if card.Mistakes > max then card.Mistakes else max) m) ∧
      (cs.foldl (fun max card => if card.Mistakes > max then card.Mistakes else max) m = m ∨
        ∃ c ∈ cs, c.Mistakes
          = cs.foldl (fun max card => if card.Mistakes > max then card.Mistakes else max) m) := by
  intro cs
  induction cs with
  | nil => intro m; simp
  | cons d cs ih =>
    intro m
    simp only [List.foldl_cons]
    by_cases hd : d.Mistakes > m
    · obtain ⟨h1, h2, h3⟩ := ih d.Mistakes
      simp only [if_pos hd]
      refine ⟨by omega, ?_, ?_⟩
      · intro c hc
        rcases List.mem_cons.1 hc with rfl | hc
        · exact h1
        · exact h2 c hc
      · right
        rcases h3 with h3 | ⟨c, hc, h3⟩
        · exact ⟨d, List.mem_cons_self _ _, h3.symm⟩
        · exact ⟨c, List.mem_cons_of_mem _ hc, h3⟩
    · obtain ⟨h1, h2, h3⟩ := ih m
      simp only [if_neg hd]
      refine ⟨h1, ?_, ?_⟩
      · intro c hc
        rcases List.mem_cons.1 hc with rfl | hc
        · omega
        · exact h2 c hc
      · rcases h3 with h3 | ⟨c, hc, h3⟩
        · exact Or.inl h3
        · exact Or.inr ⟨c, List.mem_cons_of_mem _ hc, h3⟩

theorem hardestFold_eq (max : Int) :
    ∀ (cs : List Card) (acc : List GoString),
      cs.foldl (fun terms card =>
        if card.Mistakes = max then terms ++ [lit "\"" ++ card.Term ++ lit "\""] else terms) acc
      = acc ++ (cs.filter fun c => c.Mistakes = max).map
          fun c => lit "\"" ++ c.Term ++ lit "\"" := by
  intro cs
  induction cs with
  | nil => intro acc; simp
  | cons d cs ih =>
    intro acc
    simp only [List.foldl_cons, ih]
    by_cases hd : d.Mistakes = max <;> simp [List.filter_cons, hd]

theorem joinFold_eq (sep : GoString) :
    ∀ (rest : List GoString) (acc : GoString),
      rest.foldl (fun acc x => acc ++ sep ++ x) acc = acc ++ rest.flatMap fun x => sep ++ x := by
  intro rest
  induction rest with
  | nil => intro acc; simp
  | cons x rest ih =>
    intro acc
    rw [List.foldl_cons, ih]
    simp

theorem intercalate_cons (sep e : GoString) :
    ∀ rest : List GoString,
      List.intercalate sep (e :: rest) = e ++ rest.flatMap fun x => sep ++ x := by
  intro rest
  induction rest generalizing e with
  | nil => simp [List.intercalate]
  | cons x rest ih =>
    have := ih x
    simp only [List.intercalate, List.intersperse] at this ⊢
    simp [this]

theorem Join_eq_intercalate (elems : List GoString) (sep : GoString) :
    Join elems sep = List.intercalate sep elems := by
  cases elems with
  | nil => simp [Join, List.intercalate]
  | cons e rest => rw [intercalate_cons, Join, joinFold_eq]

theorem hardestTerms_eq (cards : List Card) (max : Int) :
    hardestTerms cards max = (cardsWith cards max).map fun c => quoted c.Term := by
  simpa [hardestTerms, cardsWith, quoted] using hardestFold_eq max cards []

theorem Printf_newline (a : App) (s t : GoString) (h : t.getLast? = some 10) :
    Printf a (s ++ t) = some (a.printed (s ++ t)) := by
  have hne : s ++ t ≠ [] := by
    intro h'
    rw [(List.append_eq_nil.1 h').2] at h
    exact Option.noConfusion h
  rw [Printf_of_ne_nil a hne, logLine_append_newline s h]
  rfl

theorem hardestCardHandler_none (a : App) (h : maxMistakes a.cards = 0) :
    hardestCardHandler a = some (a.printed (lit "There are no cards with errors.\n")) := by
  have h1 : lit "There are no cards with errors." ≠ [] := by decide
  have e1 : lit "There are no cards with errors." ++ [10]
      = lit "There are no cards with errors.\n" := by decide
  have e2 : logLine (lit "There are no cards with errors.")
      = lit "There are no cards with errors.\n" := by decide
  simp [hardestCardHandler, h, Println_of_ne_nil _ h1, e1, e2, App.printed]

theorem hardestCardHandler_one (a : App) (c : Card) (h : 0 < maxMistakes a.cards)
    (hone : cardsWith a.cards (maxMistakes a.cards) = [c]) :
    hardestCardHandler a = some (a.printed (lit "The hardest card is " ++ quoted c.Term
      ++ lit ". You have " ++ Itoa (maxMistakes a.cards) ++ lit " "
      ++ (if maxMistakes a.cards = 1 then lit "error" else lit "errors")
      ++ lit " answering it.\n")) := by
  have hne : maxMistakes a.cards ≠ 0 := by omega
  have herr : (if maxMistakes a.cards > 1 then lit "errors" else lit "error")
      = if maxMistakes a.cards = 1 then lit "error" else lit "errors" := by
    by_cases h1 : maxMistakes a.cards = 1
    · simp [h1]
    · have : maxMistakes a.cards > 1 := by omega
      simp [h1, this]
  unfold hardestCardHandler
  simp only [hne, if_false, hardestTerms_eq, hone, List.map_cons, List.map_nil,
    List.length_singleton, if_true, List.headD_cons, hardestOneMsg, herr]
  exact Printf_newline a _ _ (by decide)

theorem hardestCardHandler_many (a : App) (h : 0 < maxMistakes a.cards)
    (hmany : 2 ≤ (cardsWith a.cards (maxMistakes a.cards)).length) :
    hardestCardHandler a = some (a.printed (lit "The hardest cards are "
      ++ List.intercalate (lit ", ")
          ((cardsWith a.cards (maxMistakes a.cards)).map fun c => quoted c.Term)
      ++ lit ".\n")) := by
  have hne : maxMistakes a.cards ≠ 0 := by omega
  have hlen : ¬ ((cardsWith a.cards (maxMistakes a.cards)).map fun c => quoted c.Term).length
      = 1 := by
    rw [List.length_map]
    omega
  unfold hardestCardHandler
  simp only [hne, if_false, hardestTerms_eq, hlen, hardestManyMsg, Join_eq_intercalate]
  exact Printf_newline a _ _ (by decide)

/-- C6: with `M` the running maximum of `hardestCardHandler` (the largest of 0
and the mistake counts: no count exceeds it, and it is 0 or the count of some
card), the handler always returns and prints: the no-errors sentence when
`M = 0`; when `M > 0`, at least one card has `M` mistakes, and if exactly one
has, the singular sentence with its quoted term, `M`, and the word "error" for
`M = 1` and "errors" otherwise; if two or more have, the plural sentence, which
lists quoted terms only. -/
theorem C6_hardest_report (a : App) :
    0 ≤ maxMistakes a.cards ∧
    (∀ c ∈ a.cards, c.Mistakes ≤ maxMistakes a.cards) ∧
    (maxMistakes a.cards = 0 ∨ ∃ c ∈ a.cards, c.Mistakes = maxMistakes a.cards) ∧
    (maxMistakes a.cards = 0 →
      hardestCardHandler a = some (a.printed (lit "There are no cards with errors.\n"))) ∧
    (0 < maxMistakes a.cards → cardsWith a.cards (maxMistakes a.cards) ≠ []) ∧
    (∀ c : Card, 0 < maxMistakes a.cards → cardsWith a.cards (maxMistakes a.cards) = [c] →
      hardestCardHandler a = some (a.printed (lit "The hardest card is " ++ quoted c.Term
        ++ lit ". You have " ++ Itoa (maxMistakes a.cards) ++ lit " "
        ++ (if maxMistakes a.cards = 1 then lit "error" else lit "errors")
        ++ lit " answering it.\n"))) ∧
    (0 < maxMistakes a.cards → 2 ≤ (cardsWith a.cards (maxMistakes a.cards)).length →
      hardestCardHandler a = some (a.printed (lit "The hardest cards are "
        ++ List.intercalate (lit ", ")
            ((cardsWith a.cards (maxMistakes a.cards)).map fun c => quoted c.Term)
        ++ lit ".\n"))) := by
  obtain ⟨h1, h2, h3⟩ := maxFold_spec a.cards 0
  refine ⟨h1, h2, ?_, hardestCardHandler_none a, ?_, fun c => hardestCardHandler_one a c,
    hardestCardHandler_many a⟩
  · rcases h3 with h3 | h3
    · exact Or.inl h3
    · exact Or.inr h3
  · intro hpos hnil
    rcases h3 with h3 | ⟨c, hc, h3⟩
    · have : maxMistakes a.cards = 0 := h3
      omega
    · have hmem : c ∈ cardsWith a.cards (maxMistakes a.cards) := by
        simp only [cardsWith, List.mem_filter, decide_eq_true_eq]
        exact ⟨hc, h3⟩
      rw [hnil] at hmem
      exact List.not_mem_nil _ hmem

/-- The four reports: counts 0, 0, 0; counts 5, 1, 1; one card with count 1;
counts 3, 3, 1. -/
theorem C6_hardest_report_witness :
    hardestCardHandler freshStore
      = some (freshStore.printed (lit "There are no cards with errors.\n")) ∧
    hardestCardHandler threeStore = some (threeStore.printed
      (lit "The hardest card is \"cat\". You have 5 errors answering it.\n")) ∧
    hardestCardHandler oneCardStore = some (oneCardStore.printed
      (lit "The hardest card is \"cat\". You have 1 error answering it.\n")) ∧
    hardestCardHandler tieStore = some (tieStore.printed
      (lit "The hardest cards are \"cat\", \"dog\".\n")) := by
  refine ⟨(C6_hardest_report freshStore).2.2.2.1 (by decide), ?_, ?_, ?_⟩
  · rw [(C6_hardest_report threeStore).2.2.2.2.2.1
      { Term := lit "cat", Definition := lit "meow", Mistakes := 5 } (by decide) (by decide)]
    decide
  · rw [(C6_hardest_report oneCardStore).2.2.2.2.2.1
      { Term := lit "cat", Definition := lit "meow", Mistakes := 1 } (by decide) (by decide)]
    decide
  · rw [(C6_hardest_report tieStore).2.2.2.2.2.2 (by decide) (by decide)]
    decide

/-- C7: when the maximum `M` is positive and at least two cards have `M`
mistakes, `hardestCardHandler` prints "The hardest cards are ", the quoted
terms of the cards with `M` mistakes joined by ", ", and ".": the cards
listed are those of the store whose count is `M`, all of them, in store
order, and no count is printed. -/
theorem C7_tied_terms (a : App) (hM : 0 < maxMistakes a.cards)
    (htie : 2 ≤ (cardsWith a.cards (maxMistakes a.cards)).length) :
    hardestCardHandler a = some (a.printed (lit "The hardest cards are "
      ++ List.intercalate (lit ", ")
          ((cardsWith a.cards (maxMistakes a.cards)).map fun c => quoted c.Term)
      ++ lit ".\n")) ∧
    (∀ c, c ∈ cardsWith a.cards (maxMistakes a.cards)
      ↔ c ∈ a.cards ∧ c.Mistakes = maxMistakes a.cards) ∧
    (∀ c ∈ a.cards, c.Mistakes < maxMistakes a.cards →
      c ∉ cardsWith a.cards (maxMistakes a.cards)) ∧
    List.Sublist (cardsWith a.cards (maxMistakes a.cards)) a.cards := by
  refine ⟨hardestCardHandler_many a hM htie, fun c => ?_, fun c _ hlt hmem => ?_, ?_⟩
  · simp [cardsWith, List.mem_filter]
  · simp only [cardsWith, List.mem_filter, decide_eq_true_eq] at hmem
    omega
  · exact List.filter_sublist _

/-- Counts 3, 3, 1: both cards with three mistakes are named, the third card
is not. -/
theorem C7_tied_terms_witness :
    hardestCardHandler tieStore = some (tieStore.printed
      (lit "The hardest cards are \"cat\", \"dog\".\n")) := by
  rw [(C7_tied_terms tieStore (by decide) (by decide)).1]
  decide

/-! ## UTF-8: decoding a well-formed sequence and encoding it again -/

theorem byte_val (n : Nat) (h : n < 256) : (byte n).val = n := by
  simp [byte, Nat.mod_eq_of_lt h]

theorem byte_eq (n : Nat) (b : Byte) (h : n = b.val) : byte n = b := by
  apply Fin.ext
  rw [byte_val n (by omega), h]

theorem encodeRune_two (b0 b1 : Byte) (h0 : 194 ≤ b0.val) (h0' : b0.val ≤ 223)
    (h1 : 128 ≤ b1.val) (h1' : b1.val ≤ 191) :
    encodeRune ((b0.val - 192) * 64 + (b1.val - 128)) = [b0, b1] := by
  have hr1 : ¬ (b0.val - 192) * 64 + (b1.val - 128) ≤ 127 := by omega
  have hr2 : (b0.val - 192) * 64 + (b1.val - 128) ≤ 2047 := by omega
  simp only [encodeRune, hr1, hr2, if_true, if_false]
  rw [byte_eq _ b0 (by omega), byte_eq _ b1 (by omega)]

theorem encodeRune_three (b0 b1 b2 : Byte) (h0 : 224 ≤ b0.val) (h0' : b0.val ≤ 239)
    (h1 : 128 ≤ b1.val) (h1' : b1.val ≤ 191) (h2 : 128 ≤ b2.val) (h2' : b2.val ≤ 191)
    (hlo : b0.val = 224 → 160 ≤ b1.val) (hsur : b0.val = 237 → b1.val ≤ 159) :
    encodeRune ((b0.val - 224) * 4096 + (b1.val - 128) * 64 + (b2.val - 128)) = [b0, b1, b2] := by
  have hr1 : ¬ (b0.val - 224) * 4096 + (b1.val - 128) * 64 + (b2.val - 128) ≤ 127 := by omega
  have hr2 : ¬ (b0.val - 224) * 4096 + (b1.val - 128) * 64 + (b2.val - 128) ≤ 2047 := by omega
  have hr3 : (b0.val - 224) * 4096 + (b1.val - 128) * 64 + (b2.val - 128) ≤ 65535 := by omega
  have hv : validRune ((b0.val - 224) * 4096 + (b1.val - 128) * 64 + (b2.val - 128)) = true := by
    simp only [validRune, Bool.and_eq_true, Bool.or_eq_true, decide_eq_true_eq]
    omega
  simp only [encodeRune, hr1, hr2, hr3, hv, if_true, if_false, Bool.not_true]
  rw [byte_eq _ b0 (by omega), byte_eq _ b1 (by omega), byte_eq _ b2 (by omega)]
  simp

theorem encodeRune_four (b0 b1 b2 b3 : Byte) (h0 : 240 ≤ b0.val) (h0' : b0.val ≤ 244)
    (h1 : 128 ≤ b1.val) (h1' : b1.val ≤ 191) (h2 : 128 ≤ b2.val) (h2' : b2.val ≤ 191)
    (h3 : 128 ≤ b3.val) (h3' : b3.val ≤ 191)
    (hlo : b0.val = 240 → 144 ≤ b1.val) (hhi : b0.val = 244 → b1.val ≤ 143) :
    encodeRune ((b0.val - 240) * 262144 + (b1.val - 128) * 4096 + (b2.val - 128) * 64
      + (b3.val - 128)) = [b0, b1, b2, b3] := by
  have hr1 : ¬ (b0.val - 240) * 262144 + (b1.val - 128) * 4096 + (b2.val - 128) * 64
      + (b3.val - 128) ≤ 127 := by omega
  have hr2 : ¬ (b0.val - 240) * 262144 + (b1.val - 128) * 4096 + (b2.val - 128) * 64
      + (b3.val - 128) ≤ 2047 := by omega
  have hr3 : ¬ (b0.val - 240) * 262144 + (b1.val - 128) * 4096 + (b2.val - 128) * 64
      + (b3.val - 128) ≤ 65535 := by omega
  have hv : validRune ((b0.val - 240) * 262144 + (b1.val - 128) * 4096 + (b2.val - 128) * 64
      + (b3.val - 128)) = true := by
    simp only [validRune, Bool.and_eq_true, Bool.or_eq_true, decide_eq_true_eq]
    omega
  simp only [encodeRune, hr1, hr2, hr3, hv, if_true, if_false, Bool.not_true]
  rw [byte_eq _ b0 (by omega), byte_eq _ b1 (by omega), byte_eq _ b2 (by omega),
    byte_eq _ b3 (by omega)]
  simp

/-- What `decodeRune` returns on a string that starts with a byte outside
ASCII, unless it is `(RuneError, 1)`: the string starts with the encoding `p`
of the rune, and the same rune is decoded whatever follows `p`. -/
theorem decodeRune_wellformed (b0 : Byte) (t : GoString) (r n : Nat)
    (h : decodeRune (b0 :: t) = (r, n)) (hb : 128 ≤ b0.val)
    (hv : ¬ (r = RuneError ∧ n = 1)) :
    ∃ p q, b0 :: t = p ++ q ∧ p.length = n ∧ 2 ≤ n ∧ encodeRune r = p ∧
      (∀ q', decodeRune (p ++ q') = (r, n)) ∧ (∀ b ∈ p, 128 ≤ b.val) := by
  have hb' : ¬ b0.val < 128 := by omega
  unfold decodeRune at h
  simp only [hb', if_false] at h
  split_ifs at h with c2 c3 c4
  · -- two bytes
    simp only [Bool.and_eq_true, decide_eq_true_eq] at c2
    cases t with
    | nil => simp at h; exact absurd ⟨h.1.symm, h.2.symm⟩ hv
    | cons b1 t =>
      simp only at h
      split_ifs at h with k1
      · simp only [isCont, Bool.and_eq_true, decide_eq_true_eq] at k1
        simp only [Prod.mk.injEq] at h
        obtain ⟨rfl, rfl⟩ := h
        refine ⟨[b0, b1], t, rfl, rfl, le_refl _, encodeRune_two b0 b1 c2.1 c2.2 k1.1 k1.2, ?_, ?_⟩
        · intro q'
          simp [decodeRune, hb', c2, isCont, k1]
        · intro b hmem
          simp only [List.mem_cons, List.mem_singleton, List.not_mem_nil, or_false] at hmem
          rcases hmem with rfl | rfl <;> omega
      · simp at h; exact absurd ⟨h.1.symm, h.2.symm⟩ hv
  · -- three bytes
    simp only [Bool.and_eq_true, decide_eq_true_eq] at c3
    match t, h with
    | [], h => simp at h; exact absurd ⟨h.1.symm, h.2.symm⟩ hv
    | [_], h => simp at h; exact absurd ⟨h.1.symm, h.2.symm⟩ hv
    | b1 :: b2 :: t, h =>
      simp only at h
      split_ifs at h with k1
      · simp only [isCont, Bool.and_eq_true, Bool.or_eq_true, decide_eq_true_eq, bne_iff_ne,
          ne_eq] at k1
        simp only [Prod.mk.injEq] at h
        obtain ⟨rfl, rfl⟩ := h
        refine ⟨[b0, b1, b2], t, rfl, rfl, by omega,
          encodeRune_three b0 b1 b2 c3.1 c3.2 k1.1.1.1.1 k1.1.1.1.2 k1.1.1.2.1 k1.1.1.2.2
            (by omega) (by omega), ?_, ?_⟩
        · intro q'
          have e1 : (b0.val != 224 || decide (160 ≤ b1.val)) = true := by
            simp only [Bool.or_eq_true, bne_iff_ne, ne_eq, decide_eq_true_eq]; omega
          have e2 : (b0.val != 237 || decide (b1.val ≤ 159)) = true := by
            simp only [Bool.or_eq_true, bne_iff_ne, ne_eq, decide_eq_true_eq]; omega
          simp [decodeRune, hb', c2, c3, isCont, k1.1.1.1, k1.1.1.2, e1, e2]
        · intro b hmem
          simp only [List.mem_cons, List.mem_singleton, List.not_mem_nil, or_false] at hmem
          rcases hmem with rfl | rfl | rfl <;> omega
      · simp at h; exact absurd ⟨h.1.symm, h.2.symm⟩ hv
  · -- four bytes
    simp only [Bool.and_eq_true, decide_eq_true_eq] at c4
    match t, h with
    | [], h => simp at h; exact absurd ⟨h.1.symm, h.2.symm⟩ hv
    | [_], h => simp at h; exact absurd ⟨h.1.symm, h.2.symm⟩ hv
    | [_, _], h => simp at h; exact absurd ⟨h.1.symm, h.2.symm⟩ hv
    | b1 :: b2 :: b3 :: t, h =>
      simp only at h
      split_ifs at h with k1
      · simp only [isCont, Bool.and_eq_true, Bool.or_eq_true, decide_eq_true_eq, bne_iff_ne,
          ne_eq] at k1
        simp only [Prod.mk.injEq] at h
        obtain ⟨rfl, rfl⟩ := h
        refine ⟨[b0, b1, b2, b3], t, rfl, rfl, by omega,
          encodeRune_four b0 b1 b2 b3 c4.1 c4.2 k1.1.1.1.1.1 k1.1.1.1.1.2 k1.1.1.1.2.1
            k1.1.1.1.2.2 k1.1.1.2.1 k1.1.1.2.2 (by omega) (by omega), ?_, ?_⟩
        · intro q'
          have e1 : (b0.val != 240 || decide (144 ≤ b1.val)) = true := by
            simp only [Bool.or_eq_true, bne_iff_ne, ne_eq, decide_eq_true_eq]; omega
          have e2 : (b0.val != 244 || decide (b1.val ≤ 143)) = true := by
            simp only [Bool.or_eq_true, bne_iff_ne, ne_eq, decide_eq_true_eq]; omega
          simp [decodeRune, hb', c2, c3, c4, isCont, k1.1.1.1.1, k1.1.1.1.2, k1.1.1.2, e1, e2]
        · intro b hmem
          simp only [List.mem_cons, List.mem_singleton, List.not_mem_nil, or_false] at hmem
          rcases hmem with rfl | rfl | rfl | rfl <;> omega
      · simp at h; exact absurd ⟨h.1.symm, h.2.symm⟩ hv
  · simp at h; exact absurd ⟨h.1.symm, h.2.symm⟩ hv

/-! ## JSON strings: reading back what `Marshal` writes -/

theorem hexVal_hexDigit : ∀ n : Fin 16, hexVal (hexDigit n.val) = some n.val := by decide

theorem encodeRune_ascii (b : Byte) (h : b.val < 128) : encodeRune b.val = [b] := by
  have h' : b.val ≤ 127 := by omega
  simp only [encodeRune, h', if_true]
  rw [byte_eq _ b rfl]

theorem parseString_escapeByte (b : Byte) (hb : b.val < 128) (x : GoString) (fuel : Nat) :
    parseString (fuel + 1) (escapeByte b ++ x)
      = (parseString fuel x).map fun (s, rest) => (b :: s, rest) := by
  unfold escapeByte
  split_ifs with c1 c2 c3 c4 c5 c6 c7
  · simp only [Bool.and_eq_true, decide_eq_true_eq, bne_iff_ne, ne_eq] at c1
    have e1 : (b.val == 34) = false := by simpa using c1.1.1.1.1.2
    have e2 : (b.val == 92) = false := by simpa using c1.2
    have e3 : ¬ b.val < 32 := by omega
    simp [parseString, e1, e2, e3, hb]
  · simp only [Bool.or_eq_true, beq_iff_eq] at c2
    rcases c2 with c2 | c2
    · simp [parseString, unescape, c2, Fin.coe_ofNat_eq_mod]
    · simp [parseString, unescape, c2, Fin.coe_ofNat_eq_mod]
  · simp only [beq_iff_eq] at c3
    have hb8 : b = 8 := Fin.ext c3
    simp [parseString, unescape, hb8, Fin.coe_ofNat_eq_mod]
  · simp only [beq_iff_eq] at c4
    have hb8 : b = 12 := Fin.ext c4
    simp [parseString, unescape, hb8, Fin.coe_ofNat_eq_mod]
  · simp only [beq_iff_eq] at c5
    have hb8 : b = 10 := Fin.ext c5
    simp [parseString, unescape, hb8, Fin.coe_ofNat_eq_mod]
  · simp only [beq_iff_eq] at c6
    have hb8 : b = 13 := Fin.ext c6
    simp [parseString, unescape, hb8, Fin.coe_ofNat_eq_mod]
  · simp only [beq_iff_eq] at c7
    have hb8 : b = 9 := Fin.ext c7
    simp [parseString, unescape, hb8, Fin.coe_ofNat_eq_mod]
  · have h1 := hexVal_hexDigit ⟨b.val / 16, by omega⟩
    have h2 := hexVal_hexDigit ⟨b.val % 16, by omega⟩
    simp only at h1 h2
    have h0 : hexVal 48 = some 0 := by decide
    have hsum : b.val / 16 * 16 + b.val % 16 = b.val := by omega
    have hns : ¬ (55296 ≤ b.val) := by omega
    simp [parseString, hex4, h0, h1, h2, hsum, hns, encodeRune_ascii b hb, Fin.coe_ofNat_eq_mod]

theorem parseString_quote (rest : GoString) (fuel : Nat) :
    parseString (fuel + 1) (34 :: rest) = some ([], rest) := by
  simp [parseString, Fin.coe_ofNat_eq_mod]

theorem parseString_high (fuel : Nat) (b : Byte) (t : GoString) (hb : 128 ≤ b.val) :
    parseString (fuel + 1) (b :: t)
      = (parseString fuel ((b :: t).drop (decodeRune (b :: t)).2)).map fun (s, rest) =>
          (encodeRune (decodeRune (b :: t)).1 ++ s, rest) := by
  have e1 : (b.val == 34) = false := by simp; omega
  have e2 : (b.val == 92) = false := by simp; omega
  have e3 : ¬ b.val < 32 := by omega
  have e4 : ¬ b.val < 128 := by omega
  simp only [parseString, e1, e2, e3, e4, Bool.false_eq_true, if_false]

theorem parseString_escape :
    ∀ (fuel : Nat) (s : GoString), s.length ≤ fuel → validFrom fuel s = true →
      ∀ (rest : GoString) (fuel' : Nat), (escapeString fuel s).length + 1 ≤ fuel' →
        parseString fuel' (escapeString fuel s ++ 34 :: rest) = some (s, rest) := by
  intro fuel
  induction fuel with
  | zero =>
    intro s hlen _ rest fuel' hfuel
    obtain rfl : s = [] := List.length_eq_zero.1 (by omega)
    obtain ⟨f, rfl⟩ : ∃ f, fuel' = f + 1 := ⟨fuel' - 1, by omega⟩
    simpa [escapeString] using parseString_quote rest f
  | succ fuel ih =>
    intro s hlen hvalid rest fuel' hfuel
    obtain ⟨f, rfl⟩ : ∃ f, fuel' = f + 1 := ⟨fuel' - 1, by omega⟩
    cases s with
    | nil => simpa [escapeString] using parseString_quote rest f
    | cons b t =>
      by_cases hb : b.val < 128
      · simp only [escapeString, hb, if_true, List.append_assoc] at hfuel ⊢
        simp only [validFrom, hb, if_true] at hvalid
        have hne : 1 ≤ (escapeByte b).length := by
          unfold escapeByte
          split_ifs <;> simp
        rw [parseString_escapeByte b hb _ f,
          ih t (by simpa using hlen) hvalid rest f (by simp at hfuel; omega)]
        rfl
      · cases hdec : decodeRune (b :: t) with
        | mk r n =>
          simp only [validFrom, hb, if_false, hdec] at hvalid
          have hv : ¬ (r = RuneError ∧ n = 1) := by
            intro hv
            simp [hv.1, hv.2] at hvalid
          have hv' : (r == RuneError && n == 1) = false := by
            simpa using hv
          simp only [hv', Bool.false_eq_true, if_false] at hvalid
          obtain ⟨p, q, hpq, hpl, hn2, henc, hstable, hhigh⟩ :=
            decodeRune_wellformed b t r n hdec (by omega) hv
          have htake : (b :: t).take n = p := by rw [hpq, ← hpl]; simp
          have hdrop : (b :: t).drop n = q := by rw [hpq, ← hpl]; simp
          have hqlen : q.length ≤ fuel := by
            have := congrArg List.length hpq
            simp at this hlen
            omega
          rw [hdrop] at hvalid
          have hih := ih q hqlen hvalid rest
          simp only [escapeString, hb, if_false, hdec, hv', Bool.false_eq_true, htake, hdrop]
            at hfuel ⊢
          by_cases hls : (r == 8232 || r == 8233) = true
          · simp only [hls, if_true, List.append_assoc] at hfuel ⊢
            have hhex : hex4 (50 :: 48 :: 50 :: hexDigit (r % 16)
                :: (escapeString fuel q ++ 34 :: rest)) = some r := by
              simp only [Bool.or_eq_true, beq_iff_eq] at hls
              rcases hls with rfl | rfl <;> rfl
            have hns : ¬ (55296 ≤ r) := by
              simp only [Bool.or_eq_true, beq_iff_eq] at hls
              omega
            simp only [List.cons_append, List.nil_append, parseString]
            simp [Fin.coe_ofNat_eq_mod, hhex, hns, henc,
              hih f (by simp at hfuel; omega), hpq]
          · simp only [hls, Bool.false_eq_true, if_false, List.append_assoc] at hfuel ⊢
            obtain ⟨p0, p', rfl⟩ : ∃ p0 p', p = p0 :: p' := by
              cases p with
              | nil => simp at hpl; omega
              | cons p0 p' => exact ⟨p0, p', rfl⟩
            have hp0 : 128 ≤ p0.val := hhigh p0 (List.mem_cons_self _ _)
            have hst := hstable (escapeString fuel q ++ 34 :: rest)
            simp only [List.cons_append] at hst
            have hdrop' : List.drop n (p0 :: (p' ++ (escapeString fuel q ++ 34 :: rest)))
                = escapeString fuel q ++ 34 :: rest := by
              rw [← List.cons_append, ← hpl]
              simp
            have hf := hih f (by simp at hfuel; omega)
            rw [List.cons_append, parseString_high f p0 _ hp0, hst]
            simp only [hdrop', hf, henc]
            simp [hpq]

/-! ## JSON numbers: reading back what `Itoa` writes -/

theorem digitsLoop_append :
    ∀ (fuel n : Nat) (ds : GoString), digitsLoop fuel n ds = digitsLoop fuel n [] ++ ds := by
  intro fuel
  induction fuel with
  | zero => intro n ds; rfl
  | succ fuel ih =>
    intro n ds
    by_cases hn : n < 10
    · simp [digitsLoop, hn]
    · simp only [digitsLoop, hn, if_false]
      rw [ih (n / 10) (_ :: ds), ih (n / 10) [_]]
      simp

theorem isDigit_byte (k : Nat) (h : k < 10) : isDigit (byte (48 + k)) = true := by
  simp only [isDigit, byte_val (48 + k) (by omega), Bool.and_eq_true, decide_eq_true_eq]
  omega

theorem digitsLoop_isDigit :
    ∀ (fuel n : Nat), ∀ b ∈ digitsLoop fuel n [], isDigit b = true := by
  intro fuel
  induction fuel with
  | zero => intro n b hb; simp [digitsLoop] at hb
  | succ fuel ih =>
    intro n b hb
    by_cases hn : n < 10
    · simp only [digitsLoop, hn, if_true, List.mem_singleton] at hb
      subst hb
      exact isDigit_byte n hn
    · simp only [digitsLoop, hn, if_false] at hb
      rw [digitsLoop_append] at hb
      rcases List.mem_append.1 hb with hb | hb
      · exact ih _ b hb
      · obtain rfl := List.mem_singleton.1 hb
        exact isDigit_byte _ (Nat.mod_lt _ (by decide))

theorem digitsValue_append (xs ys : GoString) :
    ∀ acc : Nat, digitsValue acc (xs ++ ys)
      = match digitsValue acc xs with
        | some v => digitsValue v ys
        | none => none := by
  induction xs with
  | nil => intro acc; rfl
  | cons x xs ih =>
    intro acc
    by_cases hx : isDigit x = true
    · rw [List.cons_append]
      simp only [digitsValue, hx, if_true]
      exact ih _
    · rw [List.cons_append]
      simp only [digitsValue, hx, Bool.false_eq_true, if_false]

theorem digitsValue_digitsLoop :
    ∀ (fuel n : Nat), n < fuel → digitsValue 0 (digitsLoop fuel n []) = some n := by
  intro fuel
  induction fuel with
  | zero => intro n h; omega
  | succ fuel ih =>
    intro n h
    by_cases hn : n < 10
    · simp only [digitsLoop, hn, if_true, digitsValue, isDigit_byte n hn,
        byte_val (48 + n) (by omega)]
      simp
    · simp only [digitsLoop, hn, if_false]
      rw [digitsLoop_append, digitsValue_append, ih (n / 10) (by omega)]
      have hm : n % 10 < 10 := Nat.mod_lt _ (by decide)
      simp only [digitsValue, isDigit_byte _ hm, byte_val (48 + n % 10) (by omega), if_true]
      congr 1
      omega

theorem digitsLoop_head :
    ∀ (fuel n : Nat), n < fuel → 0 < n →
      ∃ d ds, digitsLoop fuel n [] = d :: ds ∧ 49 ≤ d.val ∧ d.val ≤ 57 := by
  intro fuel
  induction fuel with
  | zero => intro n h; omega
  | succ fuel ih =>
    intro n h hpos
    by_cases hn : n < 10
    · refine ⟨byte (48 + n), [], by simp [digitsLoop, hn], ?_, ?_⟩ <;>
        rw [byte_val (48 + n) (by omega)] <;> omega
    · obtain ⟨d, ds, hd, h1, h2⟩ := ih (n / 10) (by omega) (by omega)
      refine ⟨d, ds ++ [byte (48 + n % 10)], ?_, h1, h2⟩
      simp only [digitsLoop, hn, if_false]
      rw [digitsLoop_append, hd]
      rfl

theorem takeWhile_digits (ds rest : GoString) (h : ∀ b ∈ ds, isDigit b = true) :
    (ds ++ 125 :: rest).takeWhile isDigit = ds ∧
      (ds ++ 125 :: rest).dropWhile isDigit = 125 :: rest := by
  induction ds with
  | nil =>
    have : isDigit 125 = false := by decide
    simp [List.takeWhile, List.dropWhile, this]
  | cons d ds ih =>
    have hd := h d (List.mem_cons_self _ _)
    obtain ⟨h1, h2⟩ := ih fun b hb => h b (List.mem_cons_of_mem _ hb)
    simp [List.takeWhile, List.dropWhile, hd, h1, h2]

theorem scanFrac_brace (text rest : GoString) :
    scanFrac text (125 :: rest) = some (text, 125 :: rest) := by
  simp [scanFrac, scanExp, Fin.coe_ofNat_eq_mod]

theorem scanNumber_digits (n : Nat) (rest : GoString) (sign : GoString) :
    (match digitsLoop (n + 1) n [] ++ 125 :: rest with
      | d :: t =>
        if d.val == 48 then scanFrac (sign ++ [d]) t
        else if 49 ≤ d.val && d.val ≤ 57 then
          scanFrac (sign ++ d :: t.takeWhile isDigit) (t.dropWhile isDigit)
        else none
      | [] => none)
    = some (sign ++ digitsLoop (n + 1) n [], 125 :: rest) := by
  by_cases hn : n = 0
  · subst hn
    simp [digitsLoop, byte, scanFrac_brace, Fin.coe_ofNat_eq_mod]
  · obtain ⟨d, ds, hd, h1, h2⟩ := digitsLoop_head (n + 1) n (by omega) (by omega)
    have hall := digitsLoop_isDigit (n + 1) n
    rw [hd] at hall ⊢
    obtain ⟨ht, hdr⟩ := takeWhile_digits ds rest fun b hb => hall b (List.mem_cons_of_mem _ hb)
    have e1 : (d.val == 48) = false := by simp; omega
    have e2 : (decide (49 ≤ d.val) && decide (d.val ≤ 57)) = true := by simp; omega
    simp only [List.cons_append, e1, e2, Bool.false_eq_true, if_false, if_true, ht, hdr,
      scanFrac_brace]

theorem scanNumber_Itoa (n : Int) (rest : GoString) :
    scanNumber (Itoa n ++ 125 :: rest) = some (Itoa n, 125 :: rest) := by
  by_cases hneg : n < 0
  · have h := scanNumber_digits n.natAbs rest [45]
    simp only [Itoa, hneg, if_true, scanNumber, List.cons_append]
    simpa [Fin.coe_ofNat_eq_mod] using h
  · have h := scanNumber_digits n.natAbs rest []
    simp only [Itoa, hneg, if_false, scanNumber]
    by_cases hn : n.natAbs = 0
    · simp [hn, digitsLoop, byte, scanFrac_brace, Fin.coe_ofNat_eq_mod]
    · obtain ⟨d, ds, hd, h1, h2⟩ :=
        digitsLoop_head (n.natAbs + 1) n.natAbs (by omega) (by omega)
      rw [hd] at h ⊢
      have e0 : (d.val == 45) = false := by simp; omega
      simp only [List.cons_append, e0, Bool.false_eq_true, if_false]
      simpa using h

theorem Itoa_head (n : Int) :
    ∃ d ds, Itoa n = d :: ds ∧ (d.val = 45 ∨ (48 ≤ d.val ∧ d.val ≤ 57)) := by
  by_cases hneg : n < 0
  · exact ⟨45, digitsLoop (n.natAbs + 1) n.natAbs [], by simp [Itoa, hneg], Or.inl rfl⟩
  · by_cases hn : n.natAbs = 0
    · exact ⟨48, [], by simp [Itoa, hneg, hn, digitsLoop, byte], Or.inr (by decide)⟩
    · obtain ⟨d, ds, hd, h1, h2⟩ :=
        digitsLoop_head (n.natAbs + 1) n.natAbs (by omega) (by omega)
      exact ⟨d, ds, by simp [Itoa, hneg, hd], Or.inr ⟨by omega, h2⟩⟩

theorem parseInt_minus (ds : GoString) (n : Nat) (hne : ds.isEmpty = false)
    (hv : digitsValue 0 ds = some n) (hr : minInt ≤ -(n : Int)) (hr' : -(n : Int) ≤ maxInt) :
    parseInt (45 :: ds) = some (-(n : Int)) := by
  have e : (((45 : Byte) : Nat) == 45) = true := by decide
  simp only [parseInt, e, if_true, hne, Bool.false_eq_true, if_false, hv, hr, hr', and_self]

theorem parseInt_Itoa (n : Int) (h1 : minInt ≤ n) (h2 : n ≤ maxInt) :
    parseInt (Itoa n) = some n := by
  have hval := digitsValue_digitsLoop (n.natAbs + 1) n.natAbs (by omega)
  by_cases hneg : n < 0
  · have hne : (digitsLoop (n.natAbs + 1) n.natAbs []).isEmpty = false := by
      cases hd : digitsLoop (n.natAbs + 1) n.natAbs [] with
      | nil => rw [hd] at hval; simp [digitsValue] at hval; omega
      | cons _ _ => rfl
    have hn : -(n.natAbs : Int) = n := by omega
    simp only [Itoa, hneg, if_true]
    rw [parseInt_minus _ n.natAbs hne hval (by omega) (by omega), hn]
  · obtain ⟨d, ds, hd, hd'⟩ := Itoa_head n
    have hd45 : (d.val == 45) = false := by
      rcases hd' with hd' | hd'
      · exfalso
        simp only [Itoa, hneg, if_false] at hd
        have hall := digitsLoop_isDigit (n.natAbs + 1) n.natAbs d (by rw [hd]; simp)
        simp [isDigit, hd'] at hall
      · simp; omega
    have hn : (n.natAbs : Int) = n := by omega
    have hItoa : Itoa n = digitsLoop (n.natAbs + 1) n.natAbs [] := by simp [Itoa, hneg]
    rw [hItoa] at hd
    simp only [parseInt, hItoa, hd]
    rw [hd] at hval
    simp [hd45, hval, hn, h1, h2]

/-! ## JSON documents: reading back what `Marshal` writes -/

theorem skipWs_cons (b : Byte) (t : GoString) (h : isWs b = false) : skipWs (b :: t) = b :: t := by
  simp [skipWs, h]

theorem parseString_plain (key : GoString) (hkey : escapeString key.length key = key)
    (hvalid : validFrom key.length key = true) (rest : GoString) (fuel : Nat)
    (hfuel : key.length + 1 ≤ fuel) :
    parseString fuel (key ++ 34 :: rest) = some (key, rest) := by
  have h := parseString_escape key.length key (le_refl _) hvalid rest fuel
    (by rw [hkey]; exact hfuel)
  rwa [hkey] at h

theorem parseValue_string (v : GoString) (hv : ValidString v = true) (rest : GoString)
    (fuel : Nat) :
    parseValue (fuel + 1) (34 :: (escapeString v.length v ++ 34 :: rest))
      = some (JValue.string v, rest) := by
  have hws : skipWs (34 :: (escapeString v.length v ++ 34 :: rest))
      = 34 :: (escapeString v.length v ++ 34 :: rest) := skipWs_cons _ _ (by decide)
  have hps := parseString_escape v.length v (le_refl _) hv rest
    ((escapeString v.length v ++ 34 :: rest).length + 1) (by simp)
  have e : (((34 : Byte) : Nat) == 34) = true := by decide
  simp only [parseValue, hws, e, if_true, hps]
  rfl

theorem parseValue_number (n : Int) (rest : GoString) (fuel : Nat) :
    parseValue (fuel + 1) (Itoa n ++ 125 :: rest)
      = some (JValue.number (Itoa n), 125 :: rest) := by
  obtain ⟨d, ds, hd, hd'⟩ := Itoa_head n
  have hscan := scanNumber_Itoa n rest
  rw [hd] at hscan ⊢
  have hws : skipWs (d :: ds ++ 125 :: rest) = d :: (ds ++ 125 :: rest) := by
    rw [List.cons_append]
    apply skipWs_cons
    simp only [isWs, Bool.or_eq_false_iff, beq_eq_false_iff_ne, ne_eq]
    omega
  have e1 : (d.val == 34) = false := by simp; omega
  have e2 : (d.val == 91) = false := by simp; omega
  have e3 : (d.val == 123) = false := by simp; omega
  have e4 : (d.val == 116) = false := by simp; omega
  have e5 : (d.val == 102) = false := by simp; omega
  have e6 : (d.val == 110) = false := by simp; omega
  rw [List.cons_append] at hscan
  simp only [parseValue, hws, e1, e2, e3, e4, e5, e6, Bool.false_eq_true, if_false, hscan]
  rfl

theorem parseMembers_string (key v more : GoString) (fuel : Nat)
    (hkey : escapeString key.length key = key) (hkvalid : validFrom key.length key = true)
    (hv : ValidString v = true) :
    parseMembers (fuel + 2)
        (34 :: (key ++ 34 :: 58 :: 34 :: (escapeString v.length v ++ 34 :: 44 :: more)))
      = (parseMembers (fuel + 1) more).map fun (ms, rest) =>
          ((key, JValue.string v) :: ms, rest) := by
  have hws1 : ∀ t : GoString, skipWs (34 :: t) = 34 :: t := fun t => skipWs_cons _ _ (by decide)
  have hws2 : ∀ t : GoString, skipWs (58 :: t) = 58 :: t := fun t => skipWs_cons _ _ (by decide)
  have hws3 : ∀ t : GoString, skipWs (44 :: t) = 44 :: t := fun t => skipWs_cons _ _ (by decide)
  have hk := parseString_plain key hkey hkvalid
    (58 :: 34 :: (escapeString v.length v ++ 34 :: 44 :: more))
    ((key ++ 34 :: 58 :: 34 :: (escapeString v.length v ++ 34 :: 44 :: more)).length + 1)
    (by simp)
  have hval := parseValue_string v hv (44 :: more) fuel
  simp only [parseMembers, hws1, hk, hws2, hval, hws3]

theorem parseMembers_number (key : GoString) (n : Int) (rest : GoString) (fuel : Nat)
    (hkey : escapeString key.length key = key) (hkvalid : validFrom key.length key = true) :
    parseMembers (fuel + 2) (34 :: (key ++ 34 :: 58 :: (Itoa n ++ 125 :: rest)))
      = some ([(key, JValue.number (Itoa n))], rest) := by
  have hws1 : ∀ t : GoString, skipWs (34 :: t) = 34 :: t := fun t => skipWs_cons _ _ (by decide)
  have hws2 : ∀ t : GoString, skipWs (58 :: t) = 58 :: t := fun t => skipWs_cons _ _ (by decide)
  have hws3 : ∀ t : GoString, skipWs (125 :: t) = 125 :: t := fun t => skipWs_cons _ _ (by decide)
  have hk := parseString_plain key hkey hkvalid (58 :: (Itoa n ++ 125 :: rest))
    ((key ++ 34 :: 58 :: (Itoa n ++ 125 :: rest)).length + 1) (by simp)
  have hval := parseValue_number n rest fuel
  simp only [parseMembers, hws1, hk, hws2, hval, hws3]

theorem marshalCard_eq (c : Card) :
    marshalCard c = 123 :: 34 :: (lit "Term" ++ 34 :: 58 :: 34 ::
      (escapeString c.Term.length c.Term ++ 34 :: 44 :: 34 :: (lit "Definition" ++ 34 :: 58 :: 34 ::
        (escapeString c.Definition.length c.Definition ++ 34 :: 44 :: 34 ::
          (lit "Mistakes" ++ 34 :: 58 :: (Itoa c.Mistakes ++ [125])))))) := by
  have e1 : lit "\x7b\"Term\":" = 123 :: 34 :: (lit "Term" ++ [34, 58]) := by decide
  have e2 : lit ",\"Definition\":" = 44 :: 34 :: (lit "Definition" ++ [34, 58]) := by decide
  have e3 : lit ",\"Mistakes\":" = 44 :: 34 :: (lit "Mistakes" ++ [34, 58]) := by decide
  have e4 : lit "\x7d" = [125] := by decide
  simp [marshalCard, encodeString, e1, e2, e3, e4]

theorem parseValue_marshalCard (c : Card) (hT : ValidString c.Term = true)
    (hD : ValidString c.Definition = true) (rest : GoString) (fuel : Nat) :
    parseValue (fuel + 5) (marshalCard c ++ rest) = some (cardValue c, rest) := by
  have hws1 : ∀ t : GoString, skipWs (123 :: t) = 123 :: t := fun t => skipWs_cons _ _ (by decide)
  have hws2 : ∀ t : GoString, skipWs (34 :: t) = 34 :: t := fun t => skipWs_cons _ _ (by decide)
  have h1 := parseMembers_string (lit "Term") c.Term
    (34 :: (lit "Definition" ++ 34 :: 58 :: 34 ::
        (escapeString c.Definition.length c.Definition ++ 34 :: 44 :: 34 ::
          (lit "Mistakes" ++ 34 :: 58 :: (Itoa c.Mistakes ++ 125 :: rest)))))
    (fuel + 2) (by decide) (by decide) hT
  have h2 := parseMembers_string (lit "Definition") c.Definition
    (34 :: (lit "Mistakes" ++ 34 :: 58 :: (Itoa c.Mistakes ++ 125 :: rest)))
    (fuel + 1) (by decide) (by decide) hD
  have h3 := parseMembers_number (lit "Mistakes") c.Mistakes rest fuel (by decide) (by decide)
  rw [h3] at h2
  rw [h2] at h1
  rw [marshalCard_eq]
  simp only [List.cons_append, List.append_assoc, List.nil_append] at h1 ⊢
  simp only [parseValue, hws1, hws2, Fin.coe_ofNat_eq_mod, h1]
  rfl

theorem decodeCard_cardValue (c : Card) (h1 : minInt ≤ c.Mistakes) (h2 : c.Mistakes ≤ maxInt) :
    decodeCard (cardValue c) = some c := by
  have k1 : foldName (lit "Term").length (lit "Term") = lit "TERM" := by decide
  have k2 : foldName (lit "Definition").length (lit "Definition") = lit "DEFINITION" := by decide
  have k3 : foldName (lit "Mistakes").length (lit "Mistakes") = lit "MISTAKES" := by decide
  have n1 : lit "DEFINITION" ≠ lit "TERM" := by decide
  have n2 : lit "MISTAKES" ≠ lit "TERM" := by decide
  have n3 : lit "MISTAKES" ≠ lit "DEFINITION" := by decide
  simp [decodeCard, cardValue, setFields, setField, k1, k2, k3, n1, n2, n3,
    parseInt_Itoa c.Mistakes h1 h2]

theorem decodeCards_map (cards : List Card)
    (h : ∀ c ∈ cards, minInt ≤ c.Mistakes ∧ c.Mistakes ≤ maxInt) :
    decodeCards (cards.map cardValue) = some cards := by
  induction cards with
  | nil => rfl
  | cons c cs ih =>
    have hc := h c (List.mem_cons_self _ _)
    simp only [List.map_cons, decodeCards, decodeCard_cardValue c hc.1 hc.2,
      ih fun d hd => h d (List.mem_cons_of_mem _ hd)]

theorem parseElements_succ (fuel : Nat) (s : GoString) :
    parseElements (fuel + 1) s =
      match parseValue fuel s with
      | none => none
      | some (v, rest) =>
        match skipWs rest with
        | 44 :: rest => (parseElements fuel rest).map fun (vs, rest) => (v :: vs, rest)
        | 93 :: rest => some ([v], rest)
        | _ => none := by
  rw [parseElements]

theorem parseValue_succ (fuel : Nat) (s : GoString) :
    parseValue (fuel + 1) s =
      match skipWs s with
      | [] => none
      | b :: t =>
        if b.val == 34 then
          (parseString (t.length + 1) t).map fun (str, rest) => (JValue.string str, rest)
        else if b.val == 91 then
          match skipWs t with
          | 93 :: rest => some (JValue.array [], rest)
          | _ => (parseElements fuel t).map fun (vs, rest) => (JValue.array vs, rest)
        else if b.val == 123 then
          match skipWs t with
          | 125 :: rest => some (JValue.object [], rest)
          | _ => (parseMembers fuel t).map fun (ms, rest) => (JValue.object ms, rest)
        else if b.val == 116 then
          match t with
          | 114 :: 117 :: 101 :: rest => some (JValue.bool true, rest)
          | _ => none
        else if b.val == 102 then
          match t with
          | 97 :: 108 :: 115 :: 101 :: rest => some (JValue.bool false, rest)
          | _ => none
        else if b.val == 110 then
          match t with
          | 117 :: 108 :: 108 :: rest => some (JValue.null, rest)
          | _ => none
        else (scanNumber (b :: t)).map fun (text, rest) => (JValue.number text, rest) := by
  rw [parseValue]

theorem parseElements_cards :
    ∀ (cs : List Card) (c : Card) (fuel : Nat) (rest : GoString),
      (∀ d ∈ c :: cs, ValidString d.Term = true ∧ ValidString d.Definition = true) →
      parseElements (fuel + cs.length + 6)
          (marshalCard c ++ (cs.flatMap (fun d => 44 :: marshalCard d) ++ 93 :: rest))
        = some ((c :: cs).map cardValue, rest) := by
  intro cs
  induction cs with
  | nil =>
    intro c fuel rest h
    have hc := h c (List.mem_cons_self _ _)
    have hws : skipWs (93 :: rest) = 93 :: rest := skipWs_cons _ _ (by decide)
    simp only [List.flatMap_nil, List.nil_append, List.length_nil, Nat.add_zero]
    rw [parseElements_succ, parseValue_marshalCard c hc.1 hc.2 (93 :: rest) fuel]
    simp only [hws, List.map_cons, List.map_nil]
  | cons d cs ih =>
    intro c fuel rest h
    have hc := h c (List.mem_cons_self _ _)
    have hws : ∀ t : GoString, skipWs (44 :: t) = 44 :: t := fun t => skipWs_cons _ _ (by decide)
    have hrec := ih d fuel rest fun e he => h e (List.mem_cons_of_mem _ he)
    have hfuel : fuel + (d :: cs).length + 6 = (fuel + cs.length + 6) + 1 := by
      simp only [List.length_cons]
      omega
    have hval := parseValue_marshalCard c hc.1 hc.2
      (44 :: (marshalCard d ++ (cs.flatMap (fun d => 44 :: marshalCard d) ++ 93 :: rest)))
      (fuel + cs.length + 1)
    have hfuel2 : fuel + cs.length + 1 + 5 = fuel + cs.length + 6 := by omega
    rw [hfuel2] at hval
    rw [hfuel, parseElements_succ]
    simp only [List.flatMap_cons, List.cons_append, List.append_assoc]
    rw [hval]
    simp only [hws, hrec]
    rfl

theorem marshalCard_length (c : Card) : 7 ≤ (marshalCard c).length := by
  rw [marshalCard_eq]
  simp only [List.length_cons, List.length_append]
  omega

theorem flatMap_marshal_length (cs : List Card) :
    cs.length ≤ (cs.flatMap fun d => 44 :: marshalCard d).length := by
  induction cs with
  | nil => simp
  | cons d cs ih =>
    simp only [List.flatMap_cons, List.length_append, List.length_cons]
    omega

theorem Marshal_cons (c : Card) (cs : List Card) :
    Marshal (c :: cs)
      = 91 :: (marshalCard c ++ (cs.flatMap (fun d => 44 :: marshalCard d) ++ [93])) := by
  have e1 : lit "[" = [91] := by decide
  have e2 : lit "]" = [93] := by decide
  have e3 : lit "," = [44] := by decide
  unfold Marshal Join
  rw [List.map_cons]
  simp only
  rw [joinFold_eq, e1, e2, e3]
  simp [List.flatMap_map, List.flatMap, Function.comp_def]

theorem depthElements_cards (cards : List Card) :
    depthElements (cards.map cardValue) ≤ 1 := by
  induction cards with
  | nil => simp [depthElements]
  | cons c cs ih =>
    have hc : (cardValue c).depth = 1 := rfl
    simp only [List.map_cons, depthElements, hc]
    omega

theorem depth_cards (cards : List Card) :
    (JValue.array (cards.map cardValue)).depth ≤ 2 := by
  have := depthElements_cards cards
  simp only [JValue.depth]
  omega

/-- Reading back a snapshot: `Unmarshal` returns the cards `Marshal` wrote
when their terms and definitions are well-formed UTF-8 (and their counts are
values of `int`). -/
theorem Unmarshal_Marshal (cards : List Card)
    (h : ∀ c ∈ cards, ValidString c.Term = true ∧ ValidString c.Definition = true ∧
      minInt ≤ c.Mistakes ∧ c.Mistakes ≤ maxInt) :
    Unmarshal (Marshal cards) = Except.ok cards := by
  cases cards with
  | nil => rfl
  | cons c cs =>
    have hdec := decodeCards_map (c :: cs) fun d hd => (h d hd).2.2
    have hws1 : ∀ t : GoString, skipWs (91 :: t) = 91 :: t := fun t => skipWs_cons _ _ (by decide)
    have hlen := marshalCard_length c
    have hlen2 := flatMap_marshal_length cs
    obtain ⟨k, hk⟩ : ∃ k, (Marshal (c :: cs)).length = k + cs.length + 6 := by
      refine ⟨(Marshal (c :: cs)).length - cs.length - 6, ?_⟩
      rw [Marshal_cons]
      simp only [List.length_cons, List.length_append, List.length_nil]
      omega
    have hparse := parseElements_cards cs c k [] fun d hd => ⟨(h d hd).1, (h d hd).2.1⟩
    have hws2 : skipWs (marshalCard c ++ (cs.flatMap (fun d => 44 :: marshalCard d) ++ [93]))
        = marshalCard c ++ (cs.flatMap (fun d => 44 :: marshalCard d) ++ [93]) := by
      rw [marshalCard_eq]
      exact skipWs_cons _ _ (by decide)
    have hne : ∀ rest : GoString,
        marshalCard c ++ (cs.flatMap (fun d => 44 :: marshalCard d) ++ [93]) ≠ 93 :: rest := by
      intro rest
      rw [marshalCard_eq]
      simp
    unfold Unmarshal parseJSON
    rw [hk, Marshal_cons]
    have e1 : (((91 : Byte) : Nat) == 34) = false := by decide
    have e2 : (((91 : Byte) : Nat) == 91) = true := by decide
    rw [show k + cs.length + 6 + 1 = (k + cs.length + 6) + 1 from rfl, parseValue_succ]
    simp only [hws1, e1, e2, Bool.false_eq_true, if_false, if_true, hws2]
    rw [hparse]
    have hdepth := depth_cards (c :: cs)
    simp only [Option.map_some', skipWs, List.isEmpty_nil, if_true, hdec, maxNestingDepth]
    rw [if_neg (by omega)]

theorem savedMsg_eq (a : App) :
    Printf a (savedMsg a.cards.length) = some (a.printed (savedMsg a.cards.length)) :=
  Printf_newline a _ _ (by decide)

theorem loadedMsg_eq (a : App) (n : Nat) :
    Printf a (loadedMsg n) = some (a.printed (loadedMsg n)) :=
  Printf_newline a _ _ (by decide)

/-- The term typed as the byte 0xFF is stored as it is; the snapshot holds the
escape of U+FFFD in its place, and the import yields the three bytes of U+FFFD:
the imported store differs from the exported one. -/
theorem C3_counterexample :
    (addHandler NewApp [[255, 10], lit "x\n"]).map (fun r => r.1.cards) = some rawByteCards ∧
    Marshal rawByteCards = lit "[\x7b\"Term\":\"\\ufffd\",\"Definition\":\"x\",\"Mistakes\":0\x7d]" ∧
    (doImport NewApp (some (Marshal rawByteCards))).map App.cards
      = some [{ Term := [239, 191, 189], Definition := lit "x", Mistakes := 0 }] ∧
    (doImport NewApp (some (Marshal rawByteCards))).map App.cards ≠ some rawByteCards := by
  refine ⟨by decide, by decide, by rfl, ?_⟩
  have h : (doImport NewApp (some (Marshal rawByteCards))).map App.cards
      = some [{ Term := [239, 191, 189], Definition := lit "x", Mistakes := 0 }] := by rfl
  rw [h]
  decide

/-- C3 (amended): for every card list whose terms and definitions are
well-formed UTF-8 (the counts being values of `int`), `doExport` with a
successful write hands `Marshal` of the list to the file, `Unmarshal` of that
content succeeds with the same list, and `doImport` of that content into any
state makes the store equal to the exported list: same terms, definitions and
counts in the same order. -/
theorem C3_export_import (a b : App)
    (h : ∀ c ∈ a.cards, ValidString c.Term = true ∧ ValidString c.Definition = true ∧
      minInt ≤ c.Mistakes ∧ c.Mistakes ≤ maxInt) :
    doExport a none = some (a.printed (savedMsg a.cards.length), some (Marshal a.cards)) ∧
    Unmarshal (Marshal a.cards) = Except.ok a.cards ∧
    doImport b (some (Marshal a.cards))
      = some (App.printed { b with cards := a.cards } (loadedMsg a.cards.length)) := by
  have hum := Unmarshal_Marshal a.cards h
  refine ⟨?_, hum, ?_⟩
  · simp [doExport, savedMsg_eq]
  · simp only [doImport, hum]
    exact loadedMsg_eq _ _

/-- The three cards of `threeStore` come back from their snapshot. -/
theorem C3_export_import_witness :
    doImport NewApp (some (Marshal threeStore.cards))
      = some (App.printed { NewApp with cards := threeStore.cards } (lit "3 cards have been loaded.\n")) :=
  (C3_export_import threeStore NewApp (by decide)).2.2

/-! ## The quiz on an empty store -/

theorem askLoop_empty (a : App) (h : a.cards = []) (rounds : Nat) (draws : List Nat)
    (input : List GoString) : askLoop a (rounds + 1) draws input = none := by
  simp [askLoop, Intn, h]

theorem askHandler_start (a : App) (num : Int) (draws : List Nat) (input : List GoString) :
    askHandler a num draws input
      = askLoop { a with stdout := a.stdout ++ [lit "How many times to ask?\n"],
                         appLog := a.appLog ++ [lit "How many times to ask?\n",
                                                logLine (lit "> " ++ Itoa num)] }
          num.toNat draws input := by
  have h1 : lit "How many times to ask?" ≠ [] := by decide
  have h2 : lit "> " ++ Itoa num ≠ [] := lit_append_ne_nil (by decide) _
  have e1 : lit "How many times to ask?" ++ [10] = lit "How many times to ask?\n" := by decide
  have e2 : logLine (lit "How many times to ask?") = lit "How many times to ask?\n" := by decide
  simp [askHandler, Println_of_ne_nil _ h1, writeLog_of_ne_nil _ h2, e1, e2]

/-- C11 (the code at the failing input): on the empty store one requested
round makes `rand.Intn(0)` panic, as does every positive round count on every
empty store; only a count of zero or less returns, after no question. -/
theorem C11_ask_empty_store :
    askHandler NewApp 1 [0] [lit "x\n"] = none ∧
    (∀ (a : App) (num : Int) (draws : List Nat) (input : List GoString),
      a.cards = [] → 1 ≤ num → askHandler a num draws input = none) ∧
    (∀ (a : App) (num : Int) (draws : List Nat) (input : List GoString),
      num ≤ 0 → ∃ a', askHandler a num draws input = some (a', input) ∧ a'.cards = a.cards ∧
        a'.stdout = a.stdout ++ [lit "How many times to ask?\n"]) := by
  refine ⟨by decide, ?_, ?_⟩
  · intro a num draws input h hnum
    obtain ⟨k, hk⟩ : ∃ k, num.toNat = k + 1 := ⟨num.toNat - 1, by omega⟩
    rw [askHandler_start, hk]
    apply askLoop_empty
    exact h
  · intro a num draws input hnum
    have hk : num.toNat = 0 := by omega
    rw [askHandler_start, hk]
    exact ⟨_, rfl, rfl, rfl⟩

/-! ## Import -/

theorem Unmarshal_error (content err : GoString) (h : Unmarshal content = Except.error err) :
    err = syntaxError ∨ err = typeError := by
  unfold Unmarshal at h
  split at h
  · exact Or.inl (Except.error.inj h).symm
  · split at h
    · exact Or.inl (Except.error.inj h).symm
    · split at h
      · split at h
        · exact Except.noConfusion h
        · exact Or.inr (Except.error.inj h).symm
      · exact Except.noConfusion h
      · exact Or.inr (Except.error.inj h).symm

theorem Unmarshal_error_ne_nil (content err : GoString)
    (h : Unmarshal content = Except.error err) : err ≠ [] := by
  rcases Unmarshal_error content err h with rfl | rfl <;> decide

theorem Unmarshal_too_deep (content : GoString) (v : JValue)
    (hparse : parseJSON content = some v) (hdeep : maxNestingDepth < v.depth) :
    Unmarshal content = Except.error syntaxError := by
  unfold Unmarshal
  rw [hparse]
  simp only [hdeep, if_true]

/-- C12: `doImport` always returns.  When the file cannot be read it prints
"File not found." and the store is unchanged; when the content does not parse
it prints the error text and the store is unchanged; when it parses, the store
is exactly the parsed list and the count printed is its length. -/
theorem C12_import_atomic (a : App) :
    doImport a none = some (a.printed (lit "File not found.\n")) ∧
    (∀ content err : GoString, Unmarshal content = Except.error err →
      doImport a (some content)
        = some { a with stdout := a.stdout ++ [err ++ [10]],
                        appLog := a.appLog ++ [logLine err] }) ∧
    (∀ (content : GoString) (cards : List Card), Unmarshal content = Except.ok cards →
      doImport a (some content)
        = some (App.printed { a with cards := cards }
            (Itoa cards.length ++ lit " cards have been loaded.\n"))) := by
  refine ⟨?_, ?_, ?_⟩
  · have h1 : lit "File not found." ≠ [] := by decide
    have e1 : lit "File not found." ++ [10] = lit "File not found.\n" := by decide
    have e2 : logLine (lit "File not found.") = lit "File not found.\n" := by decide
    simp [doImport, Println_of_ne_nil _ h1, e1, e2, App.printed]
  · intro content err h
    simp [doImport, h, Println_of_ne_nil _ (Unmarshal_error_ne_nil content err h)]
  · intro content cards h
    simp only [doImport, h]
    exact Printf_newline _ _ _ (by decide)

/-- A text that is not JSON and a JSON value of the wrong kind leave the two
cards in place; a snapshot of three cards replaces them. -/
theorem C12_import_atomic_witness :
    (doImport petStore (some (lit "oops"))).map App.cards = some petStore.cards ∧
    (doImport petStore (some (lit "[1]"))).map App.cards = some petStore.cards ∧
    (doImport petStore (some (Marshal threeStore.cards))).map App.cards
      = some threeStore.cards := by
  have h := C12_import_atomic petStore
  refine ⟨?_, ?_, ?_⟩
  · rw [h.2.1 (lit "oops") syntaxError (by rfl)]
    rfl
  · rw [h.2.1 (lit "[1]") typeError (by rfl)]
    rfl
  · rw [h.2.2 (Marshal threeStore.cards) threeStore.cards
      (Unmarshal_Marshal threeStore.cards (by decide))]
    rfl

/-! ## A failed write -/

/-- C13 (the code at the failing input): when `os.WriteFile` fails,
`logHandler` has already printed "The log has been saved." and prints nothing
about the error, whatever the error is; `doExport` prints the error text and no
confirmation.  Neither changes the store. -/
theorem C13_write_failure (a : App) (filename err : GoString) :
    logHandler a filename (some err)
      = some ({ a with stdout := a.stdout ++ [lit "File name:\n", lit "The log has been saved.\n"],
                       appLog := a.appLog ++ [lit "File name:\n", logLine (lit "> " ++ filename),
                                              lit "The log has been saved.\n"] }, none) ∧
    (err ≠ [] → doExport a (some err)
      = some ({ a with stdout := a.stdout ++ [err ++ [10]],
                       appLog := a.appLog ++ [logLine err] }, none)) := by
  constructor
  · have h1 : lit "File name:" ≠ [] := by decide
    have h2 : lit "> " ++ filename ≠ [] := lit_append_ne_nil (by decide) _
    have h3 : lit "The log has been saved." ≠ [] := by decide
    have e1 : lit "File name:" ++ [10] = lit "File name:\n" := by decide
    have e2 : logLine (lit "File name:") = lit "File name:\n" := by decide
    have e3 : lit "The log has been saved." ++ [10] = lit "The log has been saved.\n" := by decide
    have e4 : logLine (lit "The log has been saved.") = lit "The log has been saved.\n" := by
      decide
    simp [logHandler, Println_of_ne_nil _ h1, writeLog_of_ne_nil _ h2, Println_of_ne_nil _ h3,
      e1, e2, e3, e4]
  · intro herr
    simp [doExport, Println_of_ne_nil _ herr]

/-! ## The log at the end of input -/

/-- C15 (the code at the failing input): on the empty string, which
`ReadString` returns at the end of input, `writeLog` panics, and with it the
loop of `run` and the add flow; on every other line it appends one entry, the
line itself when it ends in a newline and the line with a newline otherwise,
and keeps the earlier entries. -/
theorem C15_writeLog_empty_line :
    writeLog NewApp [] = none ∧
    (∀ a : App, writeLog a [] = none) ∧
    (∀ (a : App) (env : Env), runIteration a [] env = none) ∧
    (∀ a : App, addHandler a [] = none) ∧
    (∀ (a : App) (line : GoString), line ≠ [] →
      writeLog a line = some { a with appLog := a.appLog ++ [logLine line] } ∧
      logLine line = (if line.getLast? = some 10 then line else line ++ [10]) ∧
      (logLine line).getLast? = some 10) := by
  refine ⟨rfl, fun a => rfl, ?_, ?_, ?_⟩
  · intro a env
    have h1 : promptMsg ≠ [] := by decide
    simp [runIteration, Println_of_ne_nil _ h1, writeLog_nil]
  · intro a
    have h1 : lit "The card:" ≠ [] := by decide
    simp [addHandler, Println_of_ne_nil _ h1, addTermLoop]
  · intro a line h
    refine ⟨writeLog_of_ne_nil a h, rfl, ?_⟩
    unfold logLine
    split_ifs with hl
    · exact hl
    · simp

/-! ## First match -/

/-- C17: `findCardByTerm` returns `notFound` exactly when no card has the
term; any other result is an index of the store, the card there has the term,
and no card before it has.  The same holds for `findCardByDefinition` and
definitions.  Duplicates are allowed. -/
theorem C17_first_match (a : App) (s : GoString) :
    (findCardByTerm a s = notFound ↔ ∀ c ∈ a.cards, c.Term ≠ s) ∧
    (findCardByTerm a s ≠ notFound →
      ∃ (i : Nat) (c : Card), findCardByTerm a s = i ∧ i < a.cards.length ∧
        a.cards[i]? = some c ∧ c.Term = s ∧
        ∀ (j : Nat) (d : Card), j < i → a.cards[j]? = some d → d.Term ≠ s) ∧
    (findCardByDefinition a s = notFound ↔ ∀ c ∈ a.cards, c.Definition ≠ s) ∧
    (findCardByDefinition a s ≠ notFound →
      ∃ (i : Nat) (c : Card), findCardByDefinition a s = i ∧ i < a.cards.length ∧
        a.cards[i]? = some c ∧ c.Definition = s ∧
        ∀ (j : Nat) (d : Card), j < i → a.cards[j]? = some d → d.Definition ≠ s) := by
  have hlt : ∀ (k : Nat) (c : Card), a.cards[k]? = some c → k < a.cards.length := by
    intro k c hk
    by_contra hge
    rw [List.getElem?_eq_none (by omega)] at hk
    exact Option.noConfusion hk
  refine ⟨?_, ?_, ?_, ?_⟩
  · unfold findCardByTerm
    rcases findTermFrom_cases s a.cards 0 with ⟨h1, h2⟩ | ⟨k, c, hk, hc, -, hfind⟩
    · exact ⟨fun _ => h2, fun _ => h1⟩
    · constructor
      · intro h
        rw [hfind] at h
        unfold notFound at h
        omega
      · intro h
        exact absurd hc (h c (List.getElem?_mem hk))
  · unfold findCardByTerm
    intro hne
    rcases findTermFrom_cases s a.cards 0 with ⟨h1, -⟩ | ⟨k, c, hk, hc, hfirst, hfind⟩
    · exact absurd h1 hne
    · exact ⟨k, c, by simpa using hfind, hlt k c hk, hk, hc, hfirst⟩
  · unfold findCardByDefinition
    rcases findDefinitionFrom_cases s a.cards 0 with ⟨h1, h2⟩ | ⟨k, c, hk, hc, -, hfind⟩
    · exact ⟨fun _ => h2, fun _ => h1⟩
    · constructor
      · intro h
        rw [hfind] at h
        unfold notFound at h
        omega
      · intro h
        exact absurd hc (h c (List.getElem?_mem hk))
  · unfold findCardByDefinition
    intro hne
    rcases findDefinitionFrom_cases s a.cards 0 with ⟨h1, -⟩ | ⟨k, c, hk, hc, hfirst, hfind⟩
    · exact absurd h1 hne
    · exact ⟨k, c, by simpa using hfind, hlt k c hk, hk, hc, hfirst⟩

/-! ## The dispatcher -/

theorem menu_eq_some_iff (s : GoString) (h : Handler) : menu s = some h ↔ s = h.name := by
  constructor
  · intro hm
    unfold menu at hm
    split_ifs at hm with h1 h2 h3 h4 h5 h6 h7 h8 h9 <;>
      (obtain rfl := Option.some.inj hm; assumption)
  · intro hs
    subst hs
    cases h <;> decide

theorem menu_eq_none_iff (s : GoString) : menu s = none ↔ ∀ h : Handler, s ≠ h.name := by
  constructor
  · intro hm h hs
    rw [(menu_eq_some_iff s h).2 hs] at hm
    exact Option.noConfusion hm
  · intro hall
    cases hm : menu s with
    | none => rfl
    | some h => exact absurd ((menu_eq_some_iff s h).1 hm) (hall h)

theorem runIteration_start (a : App) (action : GoString) (env : Env) (haction : action ≠ []) :
    runIteration a action env
      = match menu (TrimSpace action) with
        | some h => callHandler h
            { a with stdout := a.stdout ++ [promptMsg ++ [10]],
                     appLog := a.appLog ++ [promptMsg ++ [10], logLine action] } env
        | none => some (Outcome.running
            { a with stdout := a.stdout ++ [promptMsg ++ [10]],
                     appLog := a.appLog ++ [promptMsg ++ [10], logLine action] }) := by
  have h1 : promptMsg ≠ [] := by decide
  have e1 : logLine promptMsg = promptMsg ++ [10] := by decide
  simp only [runIteration, Println_of_ne_nil _ h1, writeLog_of_ne_nil _ haction, e1,
    Option.bind_eq_bind, Option.some_bind, List.append_assoc, List.singleton_append]
  rfl

/-- C16: one iteration of the loop of `run` prints the prompt, logs the line
it read and trims it.  When the trimmed line is, byte for byte, one of the
nine names, the iteration is the call of the method that `NewApp` registers
under that name: `addHandler` for "add", `removeHandler` for "remove",
`importHandler` for "import", `exportHandler` for "export", `askHandler` for
"ask", `exitHandler` for "exit", `logHandler` for "log", `hardestCardHandler`
for "hardest card" and `resetStatsHandler` for "reset stats".  For every other
line (a line as `ReadString` returns it before the end of input is not empty)
no method is called: the iteration ends with the store unchanged and nothing
printed after the prompt. -/
theorem C16_dispatch (a : App) (action : GoString) (env : Env) :
    (TrimSpace action = lit "add" →
      runIteration a action env
        = (addHandler (prompted a action) env.lines).map fun r => Outcome.running r.1) ∧
    (TrimSpace action = lit "remove" →
      runIteration a action env
        = (removeHandler (prompted a action) env.token).map Outcome.running) ∧
    (TrimSpace action = lit "import" →
      runIteration a action env
        = (importHandler (prompted a action) env.token env.readFile).map Outcome.running) ∧
    (TrimSpace action = lit "export" →
      runIteration a action env
        = (exportHandler (prompted a action) env.token env.writeErr).map
            fun r => Outcome.running r.1) ∧
    (TrimSpace action = lit "ask" →
      runIteration a action env
        = (askHandler (prompted a action) env.num env.draws env.lines).map
            fun r => Outcome.running r.1) ∧
    (TrimSpace action = lit "exit" →
      runIteration a action env
        = (exitHandler (prompted a action) env.writeErr).map Outcome.exited) ∧
    (TrimSpace action = lit "log" →
      runIteration a action env
        = (logHandler (prompted a action) env.token env.writeErr).map
            fun r => Outcome.running r.1) ∧
    (TrimSpace action = lit "hardest card" →
      runIteration a action env
        = (hardestCardHandler (prompted a action)).map Outcome.running) ∧
    (TrimSpace action = lit "reset stats" →
      runIteration a action env
        = (resetStatsHandler (prompted a action)).map Outcome.running) ∧
    (action ≠ [] →
      TrimSpace action ≠ lit "add" ∧ TrimSpace action ≠ lit "remove" ∧
      TrimSpace action ≠ lit "import" ∧ TrimSpace action ≠ lit "export" ∧
      TrimSpace action ≠ lit "ask" ∧ TrimSpace action ≠ lit "exit" ∧
      TrimSpace action ≠ lit "log" ∧ TrimSpace action ≠ lit "hardest card" ∧
      TrimSpace action ≠ lit "reset stats" →
      runIteration a action env = some (Outcome.running (prompted a action))) := by
  have hne : ∀ name : GoString, name ≠ [] → TrimSpace action = name → action ≠ [] := by
    rintro name hname h rfl
    exact hname h.symm
  have hstart := runIteration_start a action env
  refine ⟨?_, ?_, ?_, ?_, ?_, ?_, ?_, ?_, ?_, ?_⟩
  · intro h
    rw [hstart (hne _ (by decide) h), (menu_eq_some_iff _ Handler.addHandler).2 h]; rfl
  · intro h
    rw [hstart (hne _ (by decide) h), (menu_eq_some_iff _ Handler.removeHandler).2 h]; rfl
  · intro h
    rw [hstart (hne _ (by decide) h), (menu_eq_some_iff _ Handler.importHandler).2 h]; rfl
  · intro h
    rw [hstart (hne _ (by decide) h), (menu_eq_some_iff _ Handler.exportHandler).2 h]; rfl
  · intro h
    rw [hstart (hne _ (by decide) h), (menu_eq_some_iff _ Handler.askHandler).2 h]; rfl
  · intro h
    rw [hstart (hne _ (by decide) h), (menu_eq_some_iff _ Handler.exitHandler).2 h]; rfl
  · intro h
    rw [hstart (hne _ (by decide) h), (menu_eq_some_iff _ Handler.logHandler).2 h]; rfl
  · intro h
    rw [hstart (hne _ (by decide) h), (menu_eq_some_iff _ Handler.hardestCardHandler).2 h]; rfl
  · intro h
    rw [hstart (hne _ (by decide) h), (menu_eq_some_iff _ Handler.resetStatsHandler).2 h]; rfl
  · rintro haction ⟨h1, h2, h3, h4, h5, h6, h7, h8, h9⟩
    have hnone : menu (TrimSpace action) = none := by
      apply (menu_eq_none_iff _).2
      intro h
      cases h <;> assumption
    rw [hstart haction, hnone]; rfl

/-- Ten iterations on the two-card store, one for each name and one for a line
that is no name: what each of them leaves in the store or prints shows which
method ran. -/
theorem C16_dispatch_witness :
    (runIteration petStore (lit "add\n") sampleEnv).map (fun o => o.app.cards)
      = some (petStore.cards ++ [{ Term := lit "cow", Definition := lit "moo", Mistakes := 0 }]) ∧
    (runIteration petStore (lit " remove \n") sampleEnv).map (fun o => o.app.cards)
      = some [{ Term := lit "cat", Definition := lit "meow", Mistakes := 0 }] ∧
    (runIteration petStore (lit "import\n") sampleEnv).map (fun o => o.app.stdout)
      = some [promptMsg ++ [10], lit "File name:\n", lit "File not found.\n"] ∧
    (runIteration petStore (lit "export\r\n") sampleEnv).map (fun o => o.app.stdout)
      = some [promptMsg ++ [10], lit "File name:\n", lit "2 cards have been saved.\n"] ∧
    (runIteration petStore (lit "ask\n") sampleEnv).map (fun o => o.app.cards)
      = some [{ Term := lit "cat", Definition := lit "meow", Mistakes := 1 },
              { Term := lit "dog", Definition := lit "bark", Mistakes := 0 }] ∧
    (runIteration petStore (lit "exit\n") sampleEnv).map
        (fun o => (o.hasExited, o.app.stdout))
      = some (true, [promptMsg ++ [10], lit "Bye bye!\n"]) ∧
    (runIteration petStore (lit "log\n") sampleEnv).map (fun o => o.app.stdout)
      = some [promptMsg ++ [10], lit "File name:\n", lit "The log has been saved.\n"] ∧
    (runIteration petStore (lit "hardest card\n") sampleEnv).map (fun o => o.app.stdout)
      = some [promptMsg ++ [10], lit "There are no cards with errors.\n"] ∧
    (runIteration oneCardStore (lit "\treset stats\n") sampleEnv).map
        (fun o => (o.app.cards, o.app.stdout))
      = some ([{ Term := lit "cat", Definition := lit "meow", Mistakes := 0 }],
          [promptMsg ++ [10], lit "Card statistics have been reset.\n"]) ∧
    (runIteration petStore (lit "Remove\n") sampleEnv).map
        (fun o => (o.hasExited, o.app.cards, o.app.stdout))
      = some (false, petStore.cards, [promptMsg ++ [10]]) := by
  refine ⟨?_, ?_, ?_, ?_, ?_, ?_, ?_, ?_, ?_, ?_⟩
  · rw [(C16_dispatch petStore (lit "add\n") sampleEnv).1 (by decide)]
    decide
  · rw [(C16_dispatch petStore (lit " remove \n") sampleEnv).2.1 (by decide)]
    decide
  · rw [(C16_dispatch petStore (lit "import\n") sampleEnv).2.2.1 (by decide)]
    decide
  · rw [(C16_dispatch petStore (lit "export\r\n") sampleEnv).2.2.2.1 (by decide)]
    decide
  · rw [(C16_dispatch petStore (lit "ask\n") sampleEnv).2.2.2.2.1 (by decide)]
    decide
  · rw [(C16_dispatch petStore (lit "exit\n") sampleEnv).2.2.2.2.2.1 (by decide)]
    decide
  · rw [(C16_dispatch petStore (lit "log\n") sampleEnv).2.2.2.2.2.2.1 (by decide)]
    decide
  · rw [(C16_dispatch petStore (lit "hardest card\n") sampleEnv).2.2.2.2.2.2.2.1
      (by decide)]
    decide
  · rw [(C16_dispatch oneCardStore (lit "\treset stats\n") sampleEnv).2.2.2.2.2.2.2.2.1
      (by decide)]
    decide
  · rw [(C16_dispatch petStore (lit "Remove\n") sampleEnv).2.2.2.2.2.2.2.2.2 (by decide)
      (by decide)]
    decide

/-! ## The uniqueness invariant -/

theorem addHandler_cards (a a' : App) (input rest : List GoString)
    (h : addHandler a input = some (a', rest)) :
    ∃ t d : GoString, (∀ c ∈ a.cards, c.Term ≠ t) ∧ (∀ c ∈ a.cards, c.Definition ≠ d) ∧
      a'.cards = a.cards ++ [{ Term := t, Definition := d, Mistakes := 0 }] := by
  have h0 := h
  have h1 : lit "The card:" ≠ [] := by decide
  have h2 : lit "The definition of the card:" ≠ [] := by decide
  unfold addHandler at h
  rw [Println_of_ne_nil a h1] at h
  simp only [Option.bind_eq_bind, Option.some_bind, Option.bind_eq_some] at h
  obtain ⟨⟨term, a2, in2⟩, hT, a3, hP, ⟨definition, a4, in3⟩, hD, -⟩ := h
  rw [Println_of_ne_nil _ h2] at hP
  obtain rfl := Option.some.inj hP
  have hc2 := addTermLoop_cards _ _ _ _ _ hT
  simp only at hc2
  obtain ⟨pre, t, hin, -, hpre, ht, hfresh⟩ := addTermLoop_inv _ _ _ _ _ hT
  obtain ⟨mid, d, hin2, -, hmid, hd, hdfresh⟩ := addDefinitionLoop_inv _ _ _ _ _ hD
  simp only [hc2] at hmid hdfresh
  simp only at hin2
  have hrun := addHandler_of_split a pre mid in3 t d hpre ht hfresh hmid hd hdfresh
  rw [← hin2, ← hin, h0] at hrun
  simp only [Option.some.injEq, Prod.mk.injEq] at hrun
  obtain ⟨rfl, -⟩ := hrun
  exact ⟨TrimSpace t, TrimSpace d, hfresh, hdfresh, rfl⟩

theorem removeHandler_found (a : App) (term : GoString) (k : Nat)
    (hfind : findCardByTerm a term = k) (hlt : k < a.cards.length) :
    removeHandler a term = some
      { a with cards := a.cards.eraseIdx k,
               stdout := a.stdout ++ [lit "Which card?\n", lit "The card has been removed.\n"],
               appLog := a.appLog ++ [lit "Which card?\n", logLine (lit "> " ++ term),
                                      lit "The card has been removed.\n"] } := by
  have herase := removeAt_eq_eraseIdx a.cards k hlt
  have h1 : lit "Which card?" ≠ [] := by decide
  have h2 : lit "> " ++ term ≠ [] := lit_append_ne_nil (by decide) _
  have h3 : lit "The card has been removed." ≠ [] := by decide
  have e1 : lit "Which card?" ++ [10] = lit "Which card?\n" := by decide
  have e2 : logLine (lit "Which card?") = lit "Which card?\n" := by decide
  have e3 : lit "The card has been removed." ++ [10] = lit "The card has been removed.\n" := by
    decide
  have e4 : logLine (lit "The card has been removed.") = lit "The card has been removed.\n" := by
    decide
  have hne : notFound ≠ (k : Int) := by
    unfold notFound
    omega
  unfold findCardByTerm at hfind
  simp [removeHandler, Println_of_ne_nil _ h1, writeLog_of_ne_nil _ h2,
    Println_of_ne_nil _ h3, findCardByTerm, hfind, hne, herase, e1, e2, e3, e4]

theorem removeHandler_missing (a : App) (term : GoString)
    (hfind : findCardByTerm a term = notFound) :
    removeHandler a term = some
      { a with stdout := a.stdout ++ [lit "Which card?\n", cantRemoveMsg term],
               appLog := a.appLog ++ [lit "Which card?\n", logLine (lit "> " ++ term),
                                      logLine (cantRemoveMsg term)] } := by
  have h1 : lit "Which card?" ≠ [] := by decide
  have h2 : lit "> " ++ term ≠ [] := lit_append_ne_nil (by decide) _
  have e1 : lit "Which card?" ++ [10] = lit "Which card?\n" := by decide
  have e2 : logLine (lit "Which card?") = lit "Which card?\n" := by decide
  unfold findCardByTerm at hfind
  simp [removeHandler, Println_of_ne_nil _ h1, writeLog_of_ne_nil _ h2,
    Printf_of_ne_nil _ (cantRemoveMsg_ne_nil term), findCardByTerm, hfind, e1, e2]

theorem removeHandler_cards (a a' : App) (term : GoString)
    (h : removeHandler a term = some a') :
    a'.cards = a.cards ∨ ∃ k, k < a.cards.length ∧ a'.cards = a.cards.eraseIdx k := by
  rcases findTermFrom_cases term a.cards 0 with ⟨hnf, -⟩ | ⟨k, c, hk, -, -, hfind⟩
  · rw [removeHandler_missing a term hnf] at h
    obtain rfl := Option.some.inj h
    exact Or.inl rfl
  · have hlt : k < a.cards.length := by
      by_contra hge
      rw [List.getElem?_eq_none (by omega)] at hk
      exact Option.noConfusion hk
    rw [removeHandler_found a term k (by simpa [findCardByTerm] using hfind) hlt] at h
    obtain rfl := Option.some.inj h
    exact Or.inr ⟨k, hlt, rfl⟩

theorem resetStatsHandler_cards (a a' : App) (h : resetStatsHandler a = some a') :
    a'.cards = a.cards.map Card.cleared := by
  have h1 : lit "Card statistics have been reset." ≠ [] := by decide
  have hreset : resetFrom a.cards 0 a.cards.length = a.cards.map Card.cleared := by
    simpa using resetFrom_append a.cards []
  rw [resetStatsHandler, Println_of_ne_nil _ h1, hreset] at h
  obtain rfl := Option.some.inj h
  rfl

theorem Distinct_of_map_eq (cards cards' : List Card)
    (hT : cards'.map Card.Term = cards.map Card.Term)
    (hD : cards'.map Card.Definition = cards.map Card.Definition) (h : Distinct cards) :
    Distinct cards' := by
  unfold Distinct at h ⊢
  rw [hT, hD]
  exact h

theorem Distinct_eraseIdx (cards : List Card) (k : Nat) (h : Distinct cards) :
    Distinct (cards.eraseIdx k) :=
  ⟨h.1.sublist ((List.eraseIdx_sublist cards k).map _),
    h.2.sublist ((List.eraseIdx_sublist cards k).map _)⟩

theorem Distinct_append (cards : List Card) (t d : GoString) (h : Distinct cards)
    (ht : ∀ c ∈ cards, c.Term ≠ t) (hd : ∀ c ∈ cards, c.Definition ≠ d) :
    Distinct (cards ++ [{ Term := t, Definition := d, Mistakes := 0 }]) := by
  unfold Distinct at h ⊢
  simp only [List.map_append, List.map_cons, List.map_nil]
  constructor
  · refine List.Nodup.append h.1 (List.nodup_singleton _) ?_
    intro x hx hx'
    obtain rfl := List.mem_singleton.1 hx'
    obtain ⟨c, hc, hct⟩ := List.mem_map.1 hx
    exact ht c hc hct
  · refine List.Nodup.append h.2 (List.nodup_singleton _) ?_
    intro x hx hx'
    obtain rfl := List.mem_singleton.1 hx'
    obtain ⟨c, hc, hcd⟩ := List.mem_map.1 hx
    exact hd c hc hcd

/-! ## Rounds of the quiz -/

theorem map_Term_set (cs : List Card) (i : Nat) (c : Card) (m : Int)
    (h : cs[i]? = some c) :
    (cs.set i { c with Mistakes := m }).map Card.Term = cs.map Card.Term := by
  apply List.ext_getElem?
  intro j
  by_cases hj : i = j
  · subst hj
    have hlt : i < cs.length := by
      by_contra hge
      rw [List.getElem?_eq_none (by omega)] at h
      exact Option.noConfusion h
    have hc : cs[i] = c := by
      rw [List.getElem?_eq_getElem hlt] at h
      exact Option.some.inj h
    simp [List.getElem?_map, hlt, hc]
  · simp [List.getElem?_map, List.getElem?_set_ne hj]

theorem askRound_some (a a' : App) (i : Nat) (line : GoString)
    (h : askRound a i line = some a') :
    ∃ c, a.cards[i]? = some c ∧ line ≠ [] ∧
      a'.cards = if TrimSpace line = c.Definition then a.cards
        else a.cards.set i { c with Mistakes := wrapInt (c.Mistakes + 1) } := by
  cases hget : a.cards[i]? with
  | none => simp [askRound, hget] at h
  | some c =>
    by_cases hl : line = []
    · subst hl
      simp [askRound, hget, Printf_of_ne_nil _ (askMsg_ne_nil _), writeLog_nil] at h
    · refine ⟨c, rfl, hl, ?_⟩
      by_cases heq : TrimSpace line = c.Definition
      · rw [askRound_correct a i c line hget hl heq] at h
        obtain rfl := Option.some.inj h
        simp [heq]
      · obtain ⟨reply, hrun, -, -⟩ := askRound_wrong a i c line hget hl heq
        rw [hrun] at h
        obtain rfl := Option.some.inj h
        simp [heq]

theorem askLoop_succ (a : App) (rounds : Nat) (draws : List Nat) (input : List GoString) :
    askLoop a (rounds + 1) draws input =
      match Intn (draws.headD 0) a.cards.length with
      | none => none
      | some index =>
        match askRound a index (input.headD []) with
        | none => none
        | some a => askLoop a rounds draws.tail input.tail := by
  rfl

theorem askLoop_step (a a' : App) (rounds : Nat) (draws : List Nat) (input rest : List GoString)
    (h : askLoop a (rounds + 1) draws input = some (a', rest)) :
    ∃ a1, a.cards.length ≠ 0 ∧
      askRound a (draws.headD 0 % a.cards.length) (input.headD []) = some a1 ∧
      askLoop a1 rounds draws.tail input.tail = some (a', rest) := by
  rw [askLoop_succ] at h
  by_cases hlen : a.cards.length = 0
  · rw [Intn, if_pos hlen] at h
    exact Option.noConfusion h
  · rw [Intn, if_neg hlen] at h
    dsimp only at h
    cases hr : askRound a (draws.headD 0 % a.cards.length) (input.headD []) with
    | none =>
      rw [hr] at h
      exact Option.noConfusion h
    | some a1 =>
      rw [hr] at h
      exact ⟨a1, hlen, rfl, h⟩

theorem askLoop_frame :
    ∀ (rounds : Nat) (a a' : App) (draws : List Nat) (input rest : List GoString),
      askLoop a rounds draws input = some (a', rest) →
      a'.cards.map Card.Term = a.cards.map Card.Term ∧
      a'.cards.map Card.Definition = a.cards.map Card.Definition ∧
      a'.cards.length = a.cards.length := by
  intro rounds
  induction rounds with
  | zero =>
    intro a a' draws input rest h
    simp only [askLoop, Option.some.injEq, Prod.mk.injEq] at h
    obtain ⟨rfl, -⟩ := h
    exact ⟨rfl, rfl, rfl⟩
  | succ rounds ih =>
    intro a a' draws input rest h
    obtain ⟨a1, -, hround, hloop⟩ := askLoop_step a a' rounds draws input rest h
    obtain ⟨c, hget, -, hcards⟩ := askRound_some a a1 _ _ hround
    obtain ⟨h1, h2, h3⟩ := ih a1 a' _ _ rest hloop
    have hstep : a1.cards.map Card.Term = a.cards.map Card.Term ∧
        a1.cards.map Card.Definition = a.cards.map Card.Definition ∧
        a1.cards.length = a.cards.length := by
      rw [hcards]
      split_ifs
      · exact ⟨rfl, rfl, rfl⟩
      · exact ⟨map_Term_set _ _ _ _ hget, map_Definition_set _ _ _ _ hget, by simp⟩
    exact ⟨h1.trans hstep.1, h2.trans hstep.2.1, h3.trans hstep.2.2⟩

theorem askHandler_frame (a a' : App) (num : Int) (draws : List Nat) (input rest : List GoString)
    (h : askHandler a num draws input = some (a', rest)) :
    a'.cards.map Card.Term = a.cards.map Card.Term ∧
    a'.cards.map Card.Definition = a.cards.map Card.Definition ∧
    a'.cards.length = a.cards.length := by
  rw [askHandler_start] at h
  have hframe := askLoop_frame _ _ _ _ _ _ h
  exact hframe

/-- C14: every state reached from an empty store by `addHandler`,
`removeHandler`, `askHandler` and `resetStatsHandler` has pairwise distinct
terms and pairwise distinct definitions, and each of the four handlers, when
it returns, takes a store with this property to a store with it. -/
theorem C14_uniqueness_invariant :
    (∀ a : App, Reachable a → Distinct a.cards) ∧
    (∀ (a a' : App) (input rest : List GoString),
      Distinct a.cards → addHandler a input = some (a', rest) → Distinct a'.cards) ∧
    (∀ (a a' : App) (term : GoString),
      Distinct a.cards → removeHandler a term = some a' → Distinct a'.cards) ∧
    (∀ (a a' : App) (num : Int) (draws : List Nat) (input rest : List GoString),
      Distinct a.cards → askHandler a num draws input = some (a', rest) → Distinct a'.cards) ∧
    (∀ a a' : App, Distinct a.cards → resetStatsHandler a = some a' → Distinct a'.cards) := by
  have hadd : ∀ (a a' : App) (input rest : List GoString),
      Distinct a.cards → addHandler a input = some (a', rest) → Distinct a'.cards := by
    intro a a' input rest hd h
    obtain ⟨t, d, ht, hdef, hcards⟩ := addHandler_cards a a' input rest h
    rw [hcards]
    exact Distinct_append a.cards t d hd ht hdef
  have hremove : ∀ (a a' : App) (term : GoString),
      Distinct a.cards → removeHandler a term = some a' → Distinct a'.cards := by
    intro a a' term hd h
    rcases removeHandler_cards a a' term h with hc | ⟨k, -, hc⟩
    · rw [hc]; exact hd
    · rw [hc]; exact Distinct_eraseIdx a.cards k hd
  have hask : ∀ (a a' : App) (num : Int) (draws : List Nat) (input rest : List GoString),
      Distinct a.cards → askHandler a num draws input = some (a', rest) →
      Distinct a'.cards := by
    intro a a' num draws input rest hd h
    obtain ⟨h1, h2, -⟩ := askHandler_frame a a' num draws input rest h
    exact Distinct_of_map_eq a.cards a'.cards h1 h2 hd
  have hreset : ∀ a a' : App, Distinct a.cards → resetStatsHandler a = some a' →
      Distinct a'.cards := by
    intro a a' hd h
    rw [resetStatsHandler_cards a a' h]
    refine Distinct_of_map_eq a.cards _ ?_ ?_ hd <;>
      simp [Card.cleared, Function.comp_def]
  refine ⟨?_, hadd, hremove, hask, hreset⟩
  intro a hreach
  induction hreach with
  | start a h => rw [h]; exact ⟨List.nodup_nil, List.nodup_nil⟩
  | add a a' input rest _ h ih => exact hadd a a' input rest ih h
  | remove a a' term _ h ih => exact hremove a a' term ih h
  | ask a a' num draws input rest _ h ih => exact hask a a' num draws input rest ih h
  | reset a a' _ h ih => exact hreset a a' ih h

/-- The sample session (three adds, one of them after a rejected term and a
rejected definition, a quiz of two rounds, a removal, a reset, a fourth add and
a last quiz round) returns; its final store has three cards, is reachable, and
has distinct terms and distinct definitions. -/
theorem C14_uniqueness_invariant_witness :
    ∃ a : App, sampleRun = some a ∧
      a.cards = [{ Term := lit "cat", Definition := lit "meow", Mistakes := 0 },
                 { Term := lit "cow", Definition := lit "moo", Mistakes := 0 },
                 { Term := lit "dog", Definition := lit "woof", Mistakes := 1 }] ∧
      Reachable a ∧ Distinct a.cards := by
  have hrun : sampleRun.map App.cards
      = some [{ Term := lit "cat", Definition := lit "meow", Mistakes := 0 },
              { Term := lit "cow", Definition := lit "moo", Mistakes := 0 },
              { Term := lit "dog", Definition := lit "woof", Mistakes := 1 }] := by
    decide
  cases hsome : sampleRun with
  | none => rw [hsome] at hrun; exact Option.noConfusion hrun
  | some a =>
    rw [hsome] at hrun
    have hcards := Option.some.inj hrun
    have hchain := hsome
    unfold sampleRun at hchain
    simp only [Option.bind_eq_bind, Option.bind_eq_some, Option.pure_def, Option.some.injEq,
      Prod.exists] at hchain
    obtain ⟨a1, r1, h1, a2, r2, h2, a3, r3, h3, a4, r4, h4, a5, h5, a6, h6, a7, r7, h7,
      a8, r8, h8, rfl⟩ := hchain
    have hreach : Reachable a8 :=
      Reachable.ask a7 a8 _ _ _ r8
        (Reachable.add a6 a7 _ r7
          (Reachable.reset a5 a6
            (Reachable.remove a4 a5 _
              (Reachable.ask a3 a4 _ _ _ r4
                (Reachable.add a2 a3 _ r3
                  (Reachable.add a1 a2 _ r2
                    (Reachable.add NewApp a1 _ r1 (Reachable.start NewApp rfl) h1) h2) h3) h4)
              h5) h6) h7) h8
    exact ⟨a8, rfl, hcards, hreach, C14_uniqueness_invariant.1 a8 hreach⟩

/-! ## The quiz as a whole: frame and counts -/

theorem totalMistakes_set :
    ∀ (cs : List Card) (i : Nat) (c : Card) (m : Int), cs[i]? = some c →
      totalMistakes (cs.set i { c with Mistakes := m }) = totalMistakes cs - c.Mistakes + m := by
  intro cs
  induction cs with
  | nil => intro i c m h; simp at h
  | cons d cs ih =>
    intro i c m h
    cases i with
    | zero =>
      simp only [List.getElem?_cons_zero, Option.some.injEq] at h
      subst h
      simp only [totalMistakes, List.set_cons_zero, List.map_cons, List.sum_cons]
      omega
    | succ i =>
      simp only [List.getElem?_cons_succ] at h
      have := ih i c m h
      simp only [totalMistakes, List.set_cons_succ, List.map_cons, List.sum_cons] at this ⊢
      omega

theorem wrongRounds_congr (cs cs' : List Card)
    (h : cs.map Card.Definition = cs'.map Card.Definition) :
    ∀ (rounds : Nat) (draws : List Nat) (input : List GoString),
      wrongRounds cs rounds draws input = wrongRounds cs' rounds draws input := by
  have hlen : cs.length = cs'.length := by
    have := congrArg List.length h
    simpa using this
  have hget : ∀ k : Nat, (cs[k]?).map Card.Definition = (cs'[k]?).map Card.Definition := by
    intro k
    rw [← List.getElem?_map, ← List.getElem?_map, h]
  intro rounds
  induction rounds with
  | zero => intro draws input; rfl
  | succ rounds ih =>
    intro draws input
    simp only [wrongRounds, ih, List.get?_eq_getElem?, hlen]
    have hk := hget (draws.headD 0 % cs'.length)
    cases h1 : cs[draws.headD 0 % cs'.length]? with
    | none =>
      cases h2 : cs'[draws.headD 0 % cs'.length]? with
      | none => rfl
      | some c' => rw [h1, h2] at hk; simp at hk
    | some c =>
      cases h2 : cs'[draws.headD 0 % cs'.length]? with
      | none => rw [h1, h2] at hk; simp at hk
      | some c' =>
        rw [h1, h2] at hk
        simp only [Option.map_some', Option.some.injEq] at hk
        simp only [hk]

theorem askRound_counts (a a1 : App) (i : Nat) (line : GoString)
    (h : askRound a i line = some a1)
    (hroom : ∀ c ∈ a.cards, minInt ≤ c.Mistakes ∧ c.Mistakes < maxInt) :
    (∀ (j : Nat) (c : Card), a.cards[j]? = some c →
      ∃ c1, a1.cards[j]? = some c1 ∧ c.Mistakes ≤ c1.Mistakes ∧ c1.Mistakes ≤ c.Mistakes + 1) ∧
    ∃ c, a.cards[i]? = some c ∧
      totalMistakes a1.cards
        = totalMistakes a.cards + (if TrimSpace line = c.Definition then 0 else 1) := by
  obtain ⟨c, hget, -, hcards⟩ := askRound_some a a1 i line h
  have hmem : c ∈ a.cards := List.mem_iff_getElem?.2 ⟨i, hget⟩
  obtain ⟨hlo, hhi⟩ := hroom c hmem
  have hwrap := wrapInt_of_lt_maxInt c.Mistakes hlo hhi
  by_cases heq : TrimSpace line = c.Definition
  · rw [if_pos heq] at hcards
    rw [hcards]
    refine ⟨fun j d hd => ⟨d, hd, le_refl _, by omega⟩, c, hget, ?_⟩
    simp [heq]
  · rw [if_neg heq, hwrap] at hcards
    rw [hcards]
    refine ⟨?_, c, hget, ?_⟩
    · intro j d hd
      by_cases hj : i = j
      · subst hj
        rw [hget] at hd
        obtain rfl := Option.some.inj hd
        have hlt : i < a.cards.length := by
          by_contra hge
          rw [List.getElem?_eq_none (by omega)] at hget
          exact Option.noConfusion hget
        refine ⟨{ c with Mistakes := c.Mistakes + 1 }, ?_, ?_, ?_⟩
        · simp [hlt]
        · simp
        · simp
      · exact ⟨d, by rw [List.getElem?_set_ne hj]; exact hd, le_refl _, by omega⟩
    · rw [totalMistakes_set a.cards i c _ hget, if_neg heq]
      omega

theorem askLoop_counts :
    ∀ (rounds : Nat) (a a' : App) (draws : List Nat) (input rest : List GoString),
      askLoop a rounds draws input = some (a', rest) →
      (∀ c ∈ a.cards, minInt ≤ c.Mistakes ∧ c.Mistakes + rounds ≤ maxInt) →
      (∀ (j : Nat) (c : Card), a.cards[j]? = some c →
        ∃ c', a'.cards[j]? = some c' ∧ c.Mistakes ≤ c'.Mistakes ∧
          c'.Mistakes ≤ c.Mistakes + rounds) ∧
      totalMistakes a'.cards = totalMistakes a.cards + wrongRounds a.cards rounds draws input := by
  intro rounds
  induction rounds with
  | zero =>
    intro a a' draws input rest h _
    simp only [askLoop, Option.some.injEq, Prod.mk.injEq] at h
    obtain ⟨rfl, -⟩ := h
    exact ⟨fun j c hc => ⟨c, hc, le_refl _, by simp⟩, by simp [wrongRounds]⟩
  | succ rounds ih =>
    intro a a' draws input rest h hroom
    obtain ⟨a1, -, hround, hloop⟩ := askLoop_step a a' rounds draws input rest h
    have hroom0 : ∀ c ∈ a.cards, minInt ≤ c.Mistakes ∧ c.Mistakes < maxInt := by
      intro c hc
      obtain ⟨h1, h2⟩ := hroom c hc
      push_cast at h2
      exact ⟨h1, by omega⟩
    obtain ⟨hpt, c, hget, htot⟩ := askRound_counts a a1 _ _ hround hroom0
    obtain ⟨c0, -, -, hcards⟩ := askRound_some a a1 _ _ hround
    have hdefs : a1.cards.map Card.Definition = a.cards.map Card.Definition := by
      obtain ⟨c2, hget2, -, hc2⟩ := askRound_some a a1 _ _ hround
      rw [hc2]
      split_ifs
      · rfl
      · exact map_Definition_set _ _ _ _ hget2
    have hlen : a1.cards.length = a.cards.length := by
      have := congrArg List.length hdefs
      simpa using this
    have hroom1 : ∀ c ∈ a1.cards, minInt ≤ c.Mistakes ∧ c.Mistakes + rounds ≤ maxInt := by
      intro c1 hc1
      obtain ⟨j, hj, hjc⟩ := List.getElem_of_mem hc1
      have hj0 : j < a.cards.length := by omega
      obtain ⟨c1', h1, h2, h3⟩ := hpt j a.cards[j] (List.getElem?_eq_getElem hj0)
      rw [List.getElem?_eq_getElem hj, hjc] at h1
      obtain rfl := Option.some.inj h1
      obtain ⟨h4, h5⟩ := hroom a.cards[j] (List.getElem_mem hj0)
      push_cast at h5
      exact ⟨by omega, by omega⟩
    obtain ⟨hpt1, htot1⟩ := ih a1 a' _ _ rest hloop hroom1
    refine ⟨?_, ?_⟩
    · intro j d hd
      obtain ⟨d1, hd1, h1, h2⟩ := hpt j d hd
      obtain ⟨d', hd', h3, h4⟩ := hpt1 j d1 hd1
      refine ⟨d', hd', by omega, ?_⟩
      push_cast
      omega
    · rw [htot1, htot, wrongRounds_congr a1.cards a.cards hdefs]
      simp only [wrongRounds, List.get?_eq_getElem?, hget]
      split_ifs <;> push_cast <;> omega

theorem askRound_returns (a : App) (i : Nat) (line : GoString)
    (hi : i < a.cards.length) (hline : line ≠ []) : ∃ a1, askRound a i line = some a1 := by
  have hget : a.cards[i]? = some a.cards[i] := List.getElem?_eq_getElem hi
  by_cases heq : TrimSpace line = a.cards[i].Definition
  · exact ⟨_, askRound_correct a i _ line hget hline heq⟩
  · obtain ⟨reply, hrun, -⟩ := askRound_wrong a i _ line hget hline heq
    exact ⟨_, hrun⟩

theorem askLoop_returns :
    ∀ (rounds : Nat) (a : App) (draws : List Nat) (input : List GoString),
      a.cards ≠ [] → (∀ k < rounds, input.getD k [] ≠ []) →
      ∃ a' rest, askLoop a rounds draws input = some (a', rest) := by
  intro rounds
  induction rounds with
  | zero => intro a draws input _ _; exact ⟨a, input, rfl⟩
  | succ rounds ih =>
    intro a draws input hne hinput
    have hlen : a.cards.length ≠ 0 := fun h => hne (List.length_eq_zero.1 h)
    have hline : input.headD [] ≠ [] := by
      have := hinput 0 (Nat.succ_pos _)
      cases input with
      | nil => simp at this
      | cons l ls => simpa using this
    have hidx : draws.headD 0 % a.cards.length < a.cards.length :=
      Nat.mod_lt _ (Nat.pos_of_ne_zero hlen)
    obtain ⟨a1, hround⟩ := askRound_returns a _ _ hidx hline
    obtain ⟨c, -, -, hcards⟩ := askRound_some a a1 _ _ hround
    have hne1 : a1.cards ≠ [] := by
      intro h1
      have hl : a1.cards.length = a.cards.length := by
        rw [hcards]
        split_ifs
        · rfl
        · simp
      rw [h1] at hl
      exact hlen hl.symm
    have htail : ∀ k < rounds, input.tail.getD k [] ≠ [] := by
      intro k hk
      have := hinput (k + 1) (Nat.succ_lt_succ hk)
      cases input with
      | nil => simp at this
      | cons l ls => simpa using this
    obtain ⟨a', rest, hloop⟩ := ih a1 draws.tail input.tail hne1 htail
    refine ⟨a', rest, ?_⟩
    rw [askLoop_succ, Intn, if_neg hlen]
    dsimp only
    rw [hround]
    exact hloop

/-- C18 (the claim as worded fails): on a store whose only card has the
largest count, one round with a wrong answer takes the count, and the sum of
the counts, from the largest `int` down to the smallest, while the number of
wrong rounds is one. -/
theorem C18_counterexample :
    maxedStore.cards ≠ [] ∧
    wrongRounds maxedStore.cards 1 [0] [lit "x\n"] = 1 ∧
    totalMistakes maxedStore.cards = maxInt ∧
    (askHandler maxedStore 1 [0] [lit "x\n"]).map (fun r => r.1.cards)
      = some [{ Term := lit "a", Definition := lit "b", Mistakes := minInt }] ∧
    (askHandler maxedStore 1 [0] [lit "x\n"]).map (fun r => totalMistakes r.1.cards)
      = some minInt ∧
    minInt < maxInt ∧ minInt ≠ maxInt + 1 := by
  set_option maxRecDepth 8000 in decide

/-- C18 (amended): on a non-empty store, when each of the first `num` answers
is a line (not the empty string of the end of input), `askHandler` returns,
and the store has the same length, terms and definitions in the same order;
when moreover every count can grow by `num` without leaving the range of
`int`, no count has decreased and the sum of the counts has grown by the
number of rounds whose trimmed answer differs from the sampled card's
definition. -/
theorem C18_ask_frame (a : App) (num : Int) (draws : List Nat) (input : List GoString)
    (hcards : a.cards ≠ [])
    (hinput : ∀ k < num.toNat, input.getD k [] ≠ []) :
    ∃ a' rest, askHandler a num draws input = some (a', rest) ∧
      a'.cards.length = a.cards.length ∧
      a'.cards.map Card.Term = a.cards.map Card.Term ∧
      a'.cards.map Card.Definition = a.cards.map Card.Definition ∧
      ((∀ c ∈ a.cards, minInt ≤ c.Mistakes ∧ c.Mistakes + num.toNat ≤ maxInt) →
        (∀ (j : Nat) (c : Card), a.cards[j]? = some c →
          ∃ c', a'.cards[j]? = some c' ∧ c.Mistakes ≤ c'.Mistakes) ∧
        totalMistakes a'.cards
          = totalMistakes a.cards + wrongRounds a.cards num.toNat draws input) := by
  rw [askHandler_start]
  obtain ⟨a', rest, hloop⟩ := askLoop_returns num.toNat
    { a with stdout := a.stdout ++ [lit "How many times to ask?\n"],
             appLog := a.appLog ++ [lit "How many times to ask?\n",
                                    logLine (lit "> " ++ Itoa num)] }
    draws input hcards hinput
  obtain ⟨h1, h2, h3⟩ := askLoop_frame _ _ _ _ _ _ hloop
  refine ⟨a', rest, hloop, h3, h1, h2, ?_⟩
  intro hroom
  obtain ⟨hpt, htot⟩ := askLoop_counts _ _ _ _ _ _ hloop hroom
  refine ⟨?_, htot⟩
  intro j c hc
  obtain ⟨c', hc', hle, -⟩ := hpt j c hc
  exact ⟨c', hc', hle⟩

/-- Two rounds on the two-card store, the first answered correctly and the
second wrongly. -/
theorem C18_ask_frame_witness :
    petStore.cards ≠ [] ∧
    (∀ k < (2 : Int).toNat, [lit "meow\n", lit "x\n"].getD k [] ≠ []) ∧
    wrongRounds petStore.cards 2 [0, 1] [lit "meow\n", lit "x\n"] = 1 ∧
    ∃ a' rest, askHandler petStore 2 [0, 1] [lit "meow\n", lit "x\n"] = some (a', rest) ∧
      a'.cards.length = petStore.cards.length ∧
      a'.cards.map Card.Term = petStore.cards.map Card.Term ∧
      a'.cards.map Card.Definition = petStore.cards.map Card.Definition ∧
      ((∀ c ∈ petStore.cards, minInt ≤ c.Mistakes ∧ c.Mistakes + (2 : Int).toNat ≤ maxInt) →
        (∀ (j : Nat) (c : Card), petStore.cards[j]? = some c →
          ∃ c', a'.cards[j]? = some c' ∧ c.Mistakes ≤ c'.Mistakes) ∧
        totalMistakes a'.cards = totalMistakes petStore.cards
          + wrongRounds petStore.cards (2 : Int).toNat [0, 1] [lit "meow\n", lit "x\n"]) :=
  ⟨by decide, by decide, by decide,
    C18_ask_frame petStore 2 [0, 1] [lit "meow\n", lit "x\n"] (by decide) (by decide)⟩

/-! ## Add followed by remove -/

theorem getElem?_append_last (cs : List Card) (c : Card) :
    (cs ++ [c])[cs.length]? = some c := by
  simp

theorem getElem?_append_before (cs : List Card) (c c' : Card) (j : Nat) (hj : j < cs.length)
    (h : (cs ++ [c])[j]? = some c') : c' ∈ cs := by
  rw [List.getElem?_append_left hj] at h
  exact List.mem_iff_getElem?.2 ⟨j, h⟩

theorem eraseIdx_append_last (cs : List Card) (c : Card) :
    (cs ++ [c]).eraseIdx cs.length = cs := by
  induction cs with
  | nil => rfl
  | cons d cs ih => simp [List.eraseIdx_cons_succ, ih]

theorem findTermFrom_append_new (cs : List Card) (c : Card)
    (h : ∀ c' ∈ cs, c'.Term ≠ c.Term) : findTermFrom c.Term (cs ++ [c]) 0 = cs.length := by
  have := findTermFrom_first (cs ++ [c]) 0 cs.length c (getElem?_append_last cs c) rfl
    (fun j c' hj hc' => h c' (getElem?_append_before cs c c' j hj hc'))
  rw [zero_add] at this
  exact this

theorem findDefinitionFrom_append_new (cs : List Card) (c : Card)
    (h : ∀ c' ∈ cs, c'.Definition ≠ c.Definition) :
    findDefinitionFrom c.Definition (cs ++ [c]) 0 = cs.length := by
  have := findDefinitionFrom_first (cs ++ [c]) 0 cs.length c (getElem?_append_last cs c) rfl
    (fun j c' hj hc' => h c' (getElem?_append_before cs c c' j hj hc'))
  rw [zero_add] at this
  exact this

/-! ## Add followed by remove: the token read at the remove prompt -/

theorem removeHandler_cases (a : App) (term : GoString) :
    ∃ a', removeHandler a term = some a' ∧
      ((a'.cards = a.cards ∧ ∀ c ∈ a.cards, c.Term ≠ term) ∨
        ∃ (k : Nat) (c : Card), a.cards[k]? = some c ∧ c.Term = term ∧
          a'.cards = a.cards.eraseIdx k) := by
  rcases findTermFrom_cases term a.cards 0 with ⟨hnf, hall⟩ | ⟨k, c, hk, hc, -, hfind⟩
  · exact ⟨_, removeHandler_missing a term hnf, Or.inl ⟨rfl, hall⟩⟩
  · have hlt : k < a.cards.length := by
      by_contra hge
      rw [List.getElem?_eq_none (by omega)] at hk
      exact Option.noConfusion hk
    exact ⟨_, removeHandler_found a term k (by simpa [findCardByTerm] using hfind) hlt,
      Or.inr ⟨k, c, hk, hc, rfl⟩⟩

theorem encodeRune_token_bytes (r : Nat) (h : fmtIsSpace r = false) :
    ∀ b ∈ encodeRune r, b.val < 128 → fmtIsSpace b.val = false := by
  intro b hb hlt
  unfold encodeRune at hb
  split_ifs at hb with h1 h2 h3 h4
  · simp only [List.mem_singleton] at hb
    subst hb
    have hval : (byte r).val = r := by
      simp only [byte]
      omega
    rw [hval]
    exact h
  · exfalso
    simp only [List.mem_cons, List.mem_singleton, List.not_mem_nil, or_false] at hb
    rcases hb with rfl | rfl <;> simp only [byte] at hlt <;> omega
  · exfalso
    simp only [List.mem_cons, List.mem_singleton, List.not_mem_nil, or_false] at hb
    rcases hb with rfl | rfl | rfl <;> exact absurd hlt (by decide)
  · exfalso
    simp only [List.mem_cons, List.mem_singleton, List.not_mem_nil, or_false] at hb
    rcases hb with rfl | rfl | rfl <;> simp only [byte] at hlt <;> omega
  · exfalso
    have hv : r ≤ 1114111 := by
      by_contra hgt
      simp [validRune] at h3
      omega
    simp only [List.mem_cons, List.mem_singleton, List.not_mem_nil, or_false] at hb
    rcases hb with rfl | rfl | rfl | rfl <;> simp only [byte] at hlt <;> omega

theorem scanToken_bytes :
    ∀ (fuel : Nat) (s : GoString), ∀ b ∈ (scanToken fuel s).1,
      b.val < 128 → fmtIsSpace b.val = false := by
  intro fuel
  induction fuel with
  | zero => intro s b hb; simp [scanToken] at hb
  | succ fuel ih =>
    intro s b hb
    rw [scanToken] at hb
    by_cases hstop : ((decodeRune s).2 == 0 || fmtIsSpace (decodeRune s).1) = true
    · simp only [hstop, if_true] at hb
      simp at hb
    · simp only [hstop] at hb
      simp only [Bool.or_eq_true, not_or, Bool.not_eq_true] at hstop
      simp only [Bool.false_eq_true, if_false, List.mem_append] at hb
      rcases hb with hb | hb
      · exact encodeRune_token_bytes _ hstop.2 b hb
      · exact ih _ b hb

theorem Scan_bytes (stdin : GoString) :
    ∀ b ∈ Scan stdin, b.val < 128 → fmtIsSpace b.val = false :=
  scanToken_bytes _ _

theorem scanToken_word :
    ∀ (tok : GoString) (fuel : Nat) (more : GoString),
      (∀ b ∈ tok, b.val < 128 ∧ fmtIsSpace b.val = false) → tok.length < fuel →
      scanToken fuel (tok ++ 10 :: more) = (tok, 10 :: more) := by
  intro tok
  induction tok with
  | nil =>
    intro fuel more _ hfuel
    obtain ⟨f, rfl⟩ : ∃ f, fuel = f + 1 := ⟨fuel - 1, by simp at hfuel; omega⟩
    rfl
  | cons b tok ih =>
    intro fuel more hall hfuel
    obtain ⟨f, rfl⟩ : ∃ f, fuel = f + 1 := ⟨fuel - 1, by simp at hfuel; omega⟩
    obtain ⟨hb, hsp⟩ := hall b (List.mem_cons_self _ _)
    have hdec : decodeRune (b :: (tok ++ 10 :: more)) = (b.val, 1) := by
      simp [decodeRune, hb]
    have henc : encodeRune b.val = [b] := by
      have : b.val ≤ 127 := by omega
      simp only [encodeRune, this, if_true, byte]
      congr 1
      apply Fin.ext
      simp only
      omega
    have hrec := ih f more (fun c hc => hall c (List.mem_cons_of_mem _ hc))
      (by simp at hfuel; omega)
    rw [List.cons_append, scanToken, hdec]
    simp only [hsp, Nat.reduceBEq, Bool.or_self, Bool.false_eq_true, if_false, List.drop_one,
      List.tail_cons, hrec, henc]
    rfl

theorem Scan_word (tok more : GoString) (hne : tok ≠ [])
    (hall : ∀ b ∈ tok, b.val < 128 ∧ fmtIsSpace b.val = false) :
    Scan (tok ++ 10 :: more) = tok := by
  obtain ⟨b, tl, rfl⟩ := List.exists_cons_of_ne_nil hne
  obtain ⟨hb, hsp⟩ := hall b (List.mem_cons_self _ _)
  have hskip : skipSpace (b :: tl ++ 10 :: more).length (b :: tl ++ 10 :: more)
      = b :: tl ++ 10 :: more := by
    have hdec : decodeRune (b :: (tl ++ 10 :: more)) = (b.val, 1) := by
      simp [decodeRune, hb]
    rw [List.cons_append, List.length_cons, skipSpace, hdec]
    simp [hsp]
  unfold Scan
  simp only [hskip]
  rw [scanToken_word (b :: tl) _ more hall (by simp)]

theorem removeHandler_after_append (a1 : App) (cs : List Card) (c : Card)
    (hcards : a1.cards = cs ++ [c]) (hfresh : ∀ c' ∈ cs, c'.Term ≠ c.Term) (token : GoString) :
    ∃ a2, removeHandler a1 token = some a2 ∧ (a2.cards = cs ↔ token = c.Term) := by
  obtain ⟨a2, hrun, hcases⟩ := removeHandler_cases a1 token
  refine ⟨a2, hrun, ?_⟩
  rw [hcards] at hcases
  by_cases htok : token = c.Term
  · refine ⟨fun _ => htok, fun _ => ?_⟩
    have hfind : findCardByTerm a1 token = cs.length := by
      rw [htok, findCardByTerm, hcards]
      exact findTermFrom_append_new cs c hfresh
    have hlt : cs.length < a1.cards.length := by rw [hcards]; simp
    rw [removeHandler_found a1 token cs.length hfind hlt] at hrun
    obtain rfl := Option.some.inj hrun
    simp only [hcards]
    exact eraseIdx_append_last cs c
  · refine ⟨fun heq => ?_, fun h => absurd h htok⟩
    exfalso
    rcases hcases with ⟨hsame, -⟩ | ⟨k, c', hk, hc, herase⟩
    · rw [heq] at hsame
      have := congrArg List.length hsame
      simp at this
    · have hklt : k < cs.length := by
        by_contra hge
        have hk2 : k = cs.length := by
          have : k < (cs ++ [c]).length := by
            by_contra hge2
            rw [List.getElem?_eq_none (by omega)] at hk
            exact Option.noConfusion hk
          simp at this
          omega
        subst hk2
        rw [getElem?_append_last] at hk
        obtain rfl := Option.some.inj hk
        exact htok hc.symm
      rw [heq, List.eraseIdx_append_of_lt_length hklt] at herase
      have hmem : c ∈ cs := by
        rw [herase]
        simp
      exact hfresh c hmem rfl

/-- C19 (the claim as worded fails): the card ("hot dog", "snack") is added
to the two-card store, but at the remove prompt `fmt.Scan` stores the single
token "hot" for the typed line "hot dog", the remove reports no such card and
the store keeps its three cards; no input makes `fmt.Scan` store "hot dog". -/
theorem C19_counterexample :
    (∀ c ∈ petStore.cards, c.Term ≠ TrimSpace (lit "hot dog\n")) ∧
    (∀ c ∈ petStore.cards, c.Definition ≠ TrimSpace (lit "snack\n")) ∧
    (addHandler petStore [lit "hot dog\n", lit "snack\n"]).map (fun r => r.1.cards)
      = some (petStore.cards ++
          [{ Term := lit "hot dog", Definition := lit "snack", Mistakes := 0 }]) ∧
    Scan (lit "hot dog\n") = lit "hot" ∧
    ((addHandler petStore [lit "hot dog\n", lit "snack\n"]).bind
        fun r => removeHandler r.1 (Scan (lit "hot dog\n"))).map
        (fun a => (a.cards, a.stdout.getLast?))
      = some (petStore.cards ++
          [{ Term := lit "hot dog", Definition := lit "snack", Mistakes := 0 }],
          some (lit "Can't remove \"hot\": there is no such card.\n")) ∧
    (∀ stdin : GoString, Scan stdin ≠ lit "hot dog") := by
  refine ⟨by decide, by decide, by decide, by decide, by decide, ?_⟩
  intro stdin h
  have hmem : (32 : Byte) ∈ Scan stdin := by
    rw [h]
    decide
  exact absurd (Scan_bytes stdin 32 hmem (by decide)) (by decide)

/-- C19 (amended): when the lines typed at the two prompts of `addHandler`
give a term and a definition that no stored card has, the add returns with the
new card last, and `findCardByTerm` and `findCardByDefinition` then return the
old length.  `removeHandler` on the token that `fmt.Scan` reads then returns,
and its store is the original one (same cards, same order, same counts)
exactly when that token is the term.  For a term that is a non-empty word of
ASCII characters without white space, typing the term and a newline makes
`fmt.Scan` read it; for a term that holds an ASCII white space character no
input does, and the store is never the original one. -/
theorem C19_add_then_remove (a : App) (t d : GoString) (rest : List GoString)
    (ht : t ≠ []) (hd : d ≠ [])
    (hterm : ∀ c ∈ a.cards, c.Term ≠ TrimSpace t)
    (hdef : ∀ c ∈ a.cards, c.Definition ≠ TrimSpace d) :
    ∃ a1, addHandler a (t :: d :: rest) = some (a1, rest) ∧
      a1.cards = a.cards ++ [{ Term := TrimSpace t, Definition := TrimSpace d, Mistakes := 0 }] ∧
      findCardByTerm a1 (TrimSpace t) = a.cards.length ∧
      findCardByDefinition a1 (TrimSpace d) = a.cards.length ∧
      (∀ stdin : GoString, ∃ a2, removeHandler a1 (Scan stdin) = some a2 ∧
        (a2.cards = a.cards ↔ Scan stdin = TrimSpace t)) ∧
      (∀ more : GoString, TrimSpace t ≠ [] →
        (∀ b ∈ TrimSpace t, b.val < 128 ∧ fmtIsSpace b.val = false) →
        Scan (TrimSpace t ++ 10 :: more) = TrimSpace t) ∧
      ((∃ b ∈ TrimSpace t, b.val < 128 ∧ fmtIsSpace b.val = true) →
        ∀ (stdin : GoString) (a2 : App), removeHandler a1 (Scan stdin) = some a2 →
          a2.cards ≠ a.cards) := by
  have hadd := addHandler_of_split a [] [] rest t d (by simp) ht hterm (by simp) hd hdef
  simp only [List.nil_append] at hadd
  obtain ⟨a1, hadd1, hcards⟩ : ∃ a1, addHandler a (t :: d :: rest) = some (a1, rest) ∧
      a1.cards = a.cards ++ [{ Term := TrimSpace t, Definition := TrimSpace d, Mistakes := 0 }] :=
    ⟨_, hadd, rfl⟩
  have hrem : ∀ stdin : GoString, ∃ a2, removeHandler a1 (Scan stdin) = some a2 ∧
      (a2.cards = a.cards ↔ Scan stdin = TrimSpace t) := by
    intro stdin
    exact removeHandler_after_append a1 a.cards
      { Term := TrimSpace t, Definition := TrimSpace d, Mistakes := 0 } hcards hterm (Scan stdin)
  refine ⟨a1, hadd1, hcards, ?_, ?_, hrem, fun more hne hall => Scan_word _ more hne hall, ?_⟩
  · rw [findCardByTerm, hcards]
    exact findTermFrom_append_new a.cards
      { Term := TrimSpace t, Definition := TrimSpace d, Mistakes := 0 } hterm
  · rw [findCardByDefinition, hcards]
    exact findDefinitionFrom_append_new a.cards
      { Term := TrimSpace t, Definition := TrimSpace d, Mistakes := 0 } hdef
  · rintro ⟨b, hb, hlt, hsp⟩ stdin a2 hrun heq
    obtain ⟨a2', hrun', hiff⟩ := hrem stdin
    rw [hrun] at hrun'
    obtain rfl := Option.some.inj hrun'
    have htok := hiff.1 heq
    rw [← htok] at hb
    rw [Scan_bytes stdin b hb hlt] at hsp
    exact Bool.noConfusion hsp

/-- Adding the card ("cow", "moo") to the two-card store and typing "cow" at
the remove prompt gives the two-card store back; typing "dog" does not. -/
theorem C19_add_then_remove_witness :
    lit "cow\n" ≠ [] ∧ lit "moo\n" ≠ [] ∧
    (∀ c ∈ petStore.cards, c.Term ≠ TrimSpace (lit "cow\n")) ∧
    (∀ c ∈ petStore.cards, c.Definition ≠ TrimSpace (lit "moo\n")) ∧
    TrimSpace (lit "cow\n") = lit "cow" ∧ Scan (lit "cow\n") = lit "cow" ∧
    Scan (lit "  dog cat\n") = lit "dog" ∧
    ∃ a1, addHandler petStore [lit "cow\n", lit "moo\n"] = some (a1, []) ∧
      a1.cards = petStore.cards ++
        [{ Term := TrimSpace (lit "cow\n"), Definition := TrimSpace (lit "moo\n"),
           Mistakes := 0 }] ∧
      findCardByTerm a1 (TrimSpace (lit "cow\n")) = petStore.cards.length ∧
      findCardByDefinition a1 (TrimSpace (lit "moo\n")) = petStore.cards.length ∧
      (∀ stdin : GoString, ∃ a2, removeHandler a1 (Scan stdin) = some a2 ∧
        (a2.cards = petStore.cards ↔ Scan stdin = TrimSpace (lit "cow\n"))) ∧
      (∀ more : GoString, TrimSpace (lit "cow\n") ≠ [] →
        (∀ b ∈ TrimSpace (lit "cow\n"), b.val < 128 ∧ fmtIsSpace b.val = false) →
        Scan (TrimSpace (lit "cow\n") ++ 10 :: more) = TrimSpace (lit "cow\n")) ∧
      ((∃ b ∈ TrimSpace (lit "cow\n"), b.val < 128 ∧ fmtIsSpace b.val = true) →
        ∀ (stdin : GoString) (a2 : App), removeHandler a1 (Scan stdin) = some a2 →
          a2.cards ≠ petStore.cards) :=
  ⟨by decide, by decide, by decide, by decide, by decide, by decide, by decide,
    C19_add_then_remove petStore (lit "cow\n") (lit "moo\n") [] (by decide) (by decide)
      (by decide) (by decide)⟩

end Flashcards
